import Mathlib

/-!
Verification of the go-amt-ipld array-mapped trie (AMT) against its
specification.

The development shallow-embeds the core of the repository:

* the saturating height arithmetic `nodesForHeight` (src/unnamed/part_000);
* the node codec `newNode` / `checkBmap` and the in-memory operations
  `set`, `get`, `delete`, `collapse`, `forEachAt`, `flush` (src/node.go);
* the root controller `Set`, `Get`, `Delete`, `Flush`, `LoadAMT`,
  `ForEachAt` (src/unnamed/part_001, the revision with a configurable
  width);
* the structural diff `Diff` / `diffNode` / `diffLeaves` (src/diff.go).

Modelling conventions, used throughout:

* Machine integers (`uint64`) are `Nat`; every arithmetic step that can
  saturate or overflow in the source is modelled with the explicit bound
  `2 ^ 64` at exactly the places the source checks it.
* A CID is modelled as the content it addresses together with its codec
  (`cidT`): the store is content-addressed and its encoding is canonical,
  so equality of CIDs is equality of codec plus decoded block content.
  `Option cidT` stands for `cid.Cid`, with `none` playing `cid.Undef`.
* The block store is modelled by a membership predicate
  `avail : cidT → Bool`; `get` on an available CID returns exactly the
  addressed content (content addressing), and fails otherwise.  `Put`
  always succeeds and returns the content-address of its argument.
* Values (`cbg.Deferred`) are opaque byte strings, `Bytes`.
* Go methods mutate their receivers; the embedding passes state
  explicitly.  A function that can both mutate and fail returns
  `state × Except Err α`: the returned state is the receiver after the
  call, also on the error path (pointer writes that happened before the
  failure are modelled by rebuilding the surrounding structure).
-/

namespace AMT

/-- Opaque value bytes (the `Raw` field of a `cbg.Deferred`). -/
abbrev Bytes := List Nat

/-- `math.MaxUint64`, the saturation point of `nodesForHeight`. -/
def uMax : Nat := 2 ^ 64 - 1

/-- `MaxIndex = math.MaxUint64 - 1`, from src/unnamed/part_001. -/
def MaxIndex : Nat := 2 ^ 64 - 2

/-- The multicodec ID `cid.DagCBOR` (0x71). -/
def dagCBOR : Nat := 113

/-- Error values of the package.  Each constructor corresponds to one of
the `errors.New`/`fmt.Errorf` values the source can return; `notFound`
models the typed `*ErrNotFound`, which callers can distinguish from the
plain out-of-range error. -/
inductive Err where
  | notFound (i : Nat)
  | outOfRange (i : Nat)
  | invalidCount
  | emptyNode
  | undefinedCID
  | linksAndValues
  | leafUnexpected
  | leafExpected
  | badBitfieldLength (expected found : Nat)
  | badBitfieldBits
  | vectorTooShort
  | vectorLenMismatch
  | wrongCodec (c : Nat)
  | heightTooBig (h : Nat)
  | heightAbsurd (h : Nat)
  | notTallEnough
  | storeNotFound
  | dirtyNotCached
  | noVals
  | userErr (n : Nat)
  | diffLinksLen (p c : Nat)
  | diffNoLinks
  | diffValuesLen (p c : Nat)
  | diffFuel
  deriving DecidableEq, Repr

mutual
/-- A persisted node (`internal.Node`): a byte-string bitmap, a vector of
child CIDs and a vector of value bytes, in ascending bit order. -/
inductive pnode where
  | mk (bmap : List Nat) (links : List (Option cidT)) (values : List Bytes)
/-- A content identifier: the codec together with the decoded block the
CID addresses (see the modelling conventions above). -/
inductive cidT where
  | mk (codec : Nat) (data : pnode)
end

def pnode.bmap : pnode → List Nat
  | .mk b _ _ => b

def pnode.links : pnode → List (Option cidT)
  | .mk _ l _ => l

def pnode.values : pnode → List Bytes
  | .mk _ _ v => v

def cidT.codec : cidT → Nat
  | .mk c _ => c

def cidT.data : cidT → pnode
  | .mk _ d => d

mutual
/-- Structural equality of persisted nodes, playing byte-equality of
their canonical encodings (and hence equality of their CIDs). -/
def pnode.beq : pnode → pnode → Bool
  | .mk b1 l1 v1, .mk b2 l2 v2 => b1 == b2 && v1 == v2 && cidListBeq l1 l2

def cidListBeq : List (Option cidT) → List (Option cidT) → Bool
  | [], [] => true
  | none :: t1, none :: t2 => cidListBeq t1 t2
  | some c1 :: t1, some c2 :: t2 => cidT.beq c1 c2 && cidListBeq t1 t2
  | _, _ => false

def cidT.beq : cidT → cidT → Bool
  | .mk c1 d1, .mk c2 d2 => c1 == c2 && pnode.beq d1 d2
end

/-- Equality of `cid.Cid` values including `cid.Undef` (`none`). -/
def optCidBeq : Option cidT → Option cidT → Bool
  | none, none => true
  | some a, some b => cidT.beq a b
  | _, _ => false

mutual
/-- An in-memory node (src/node.go `node`): width-length slot arrays for
links and values; either may be `[]`, standing for a nil Go slice. -/
inductive node where
  | mk (links : List (Option link)) (values : List (Option Bytes))
/-- An in-memory link (the `link` struct of the v3 core, whose file is
not under src/ — its shape is fixed by every use in src/node.go):
a possibly-undefined CID, an optional cached child and a dirty flag. -/
inductive link where
  | mk (cid : Option cidT) (cached : Option node) (dirty : Bool)
end

def node.links : node → List (Option link)
  | .mk l _ => l

def node.values : node → List (Option Bytes)
  | .mk _ v => v

def link.cid : link → Option cidT
  | .mk c _ _ => c

def link.cached : link → Option node
  | .mk _ c _ => c

def link.dirty : link → Bool
  | .mk _ _ d => d

/-- The persisted root record (`internal.Root`). -/
structure proot where
  height : Nat
  count : Nat
  node : pnode

/-- The in-memory root (src/unnamed/part_001 `Root`); the store is not a
field but a parameter of each operation (see conventions). -/
structure Root where
  width : Nat
  height : Nat
  count : Nat
  node : node

/-- A block store: which blocks are present.  `get` on an available CID
yields exactly the addressed content. -/
abbrev Store := cidT → Bool

/-- The store with no missing blocks (every flushed block can be read
back, which is the situation of every success-path claim). -/
def allAvail : Store := fun _ => true

/-! ## Height arithmetic (src/unnamed/part_000) -/

/-- The exponentiation-by-squaring loop of `nodesForHeight`, saturating
at `math.MaxUint64`.  `bits.Mul64 x y` yields a nonzero high word
exactly when `2 ^ 64 ≤ x * y`, which is how the source detects
saturation.  The `fuel` argument makes the `for b > 1` loop structurally
recursive; the fuel-exhausted base case returns the same saturated
`a * c` as the loop exit, and `nodesForHeight` passes `fuel := b`, which
is never less than the number of iterations (the loop halves `b`), so
the fuel never alters the result. -/
def powLoop : Nat → Nat → Nat → Nat → Nat
  | 0, a, _, c => if 2 ^ 64 ≤ a * c then uMax else a * c
  | fuel + 1, a, b, c =>
    if 1 < b then
      if b % 2 ≠ 0 then
        if 2 ^ 64 ≤ c * a then uMax
        else if 2 ^ 64 ≤ a * a then uMax
        else powLoop fuel (a * a) ((b - 1) / 2) (c * a)
      else
        if 2 ^ 64 ≤ a * a then uMax
        else powLoop fuel (a * a) (b / 2) c
    else if 2 ^ 64 ≤ a * c then uMax else a * c

/-- `bits.TrailingZeros64`: the number of trailing zero bits of a
64-bit word, written with 64 division steps (enough for any `uint64`
input; the source never calls it on zero). -/
def trailZeros64 : Nat → Nat → Nat
  | 0, _ => 0
  | fuel + 1, n => if n % 2 = 0 ∧ 0 < n then trailZeros64 fuel (n / 2) + 1 else 0

/-- `nodesForHeight(width, height)` from src/unnamed/part_000: the
number of elements a subtree of the given height can hold, `width ^
height` saturating at `math.MaxUint64`.  For a power-of-two width the
source shifts instead of multiplying. -/
def nodesForHeight (width height : Nat) : Nat :=
  if width = 0 then 0
  else if width &&& (width - 1) = 0 then
    let shift := trailZeros64 64 width * height
    if 64 ≤ shift then uMax else 1 <<< shift
  else powLoop height width height 1

/-! ### Characterisation of `nodesForHeight` -/

/-! ## Bitmaps and the node codec (src/node.go) -/

/-- `bmapBytes` from src/node.go: the bitmap length in bytes. -/
def bmapBytes (width : Nat) : Nat := (width + 7) / 8

/-- `makeBmap` from src/node.go: an all-zero bitmap. -/
def makeBmap (width : Nat) : List Nat := List.replicate (bmapBytes width) 0

/-- Bit `i` of a bitmap: `Bmap[i/8] & (1 << (i%8)) > 0`. -/
def bmapTest (bm : List Nat) (i : Nat) : Bool :=
  decide (0 < (bm.getD (i / 8) 0) &&& (1 <<< (i % 8)))

/-- Setting bit `i` of a bitmap: `Bmap[i/8] |= 1 << (i%8)`. -/
def bmapSet (bm : List Nat) (i : Nat) : List Nat :=
  bm.set (i / 8) ((bm.getD (i / 8) 0) ||| (1 <<< (i % 8)))

/-- `checkBmap` from src/node.go: the bitmap must be exactly
`bmapBytes width` long, and when the width is not a multiple of 8 the
top `8 - width % 8` bits of its last byte must be clear (`bf[last] &^
(0xff >> expUnset)`, with AND-NOT written as AND of the complement
within a byte). -/
def checkBmap (bf : List Nat) (width : Nat) : Except Err Unit :=
  let expLen := bmapBytes width
  if bf.length ≠ expLen then .error (.badBitfieldLength expLen bf.length)
  else
    let rem := width % 8
    if rem = 0 then .ok ()
    else
      let expUnset := 8 - rem
      if 0 < (bf.getD (bf.length - 1) 0) &&& (255 ^^^ (255 >>> expUnset)) then
        .error .badBitfieldBits
      else .ok ()

/-- The values-scattering loop of `newNode`: walk slots `x` while a
counter `i` tracks how many bitmap bits have been consumed, erroring as
the source does when the vector is shorter than the set bits.  `togo`
counts the remaining slots (the source iterates `x` from 0 to
`width-1`). -/
def scatterVals (bmap : List Nat) (vals : List Bytes) :
    Nat → Nat → Nat → Except Err (List (Option Bytes) × Nat)
  | 0, _, i => .ok ([], i)
  | togo + 1, x, i =>
    if bmapTest bmap x then
      if i < vals.length then
        match scatterVals bmap vals togo (x + 1) (i + 1) with
        | .error e => .error e
        | .ok (rest, iF) => .ok (some (vals.getD i []) :: rest, iF)
      else .error .vectorTooShort
    else
      match scatterVals bmap vals togo (x + 1) i with
      | .error e => .error e
      | .ok (rest, iF) => .ok (none :: rest, iF)

/-- The links-scattering loop of `newNode`: as `scatterVals`, and each
consumed link must be a defined CID with the DagCBOR codec; the new
in-memory link starts uncached and clean. -/
def scatterLinks (bmap : List Nat) (links : List (Option cidT)) :
    Nat → Nat → Nat → Except Err (List (Option link) × Nat)
  | 0, _, i => .ok ([], i)
  | togo + 1, x, i =>
    if bmapTest bmap x then
      if i < links.length then
        match links.getD i none with
        | none => .error .undefinedCID
        | some c =>
          if c.codec ≠ dagCBOR then .error (.wrongCodec c.codec)
          else
            match scatterLinks bmap links togo (x + 1) (i + 1) with
            | .error e => .error e
            | .ok (rest, iF) => .ok (some (link.mk (some c) none false) :: rest, iF)
      else .error .vectorTooShort
    else
      match scatterLinks bmap links togo (x + 1) i with
      | .error e => .error e
      | .ok (rest, iF) => .ok (none :: rest, iF)

/-- `newNode` from src/node.go: decode a persisted node into an
in-memory node, validating the bitmap, the vector lengths against the
set bits, the leaf/interior expectation and each link CID. -/
def newNode (nd : pnode) (width : Nat) (allowEmpty expectLeaf : Bool) :
    Except Err node :=
  if 0 < nd.links.length ∧ 0 < nd.values.length then .error .linksAndValues
  else
    match checkBmap nd.bmap width with
    | .error e => .error e
    | .ok _ =>
      if 0 < nd.values.length then
        if !expectLeaf then .error .leafUnexpected
        else
          match scatterVals nd.bmap nd.values width 0 0 with
          | .error e => .error e
          | .ok (arr, i) =>
            if i ≠ nd.values.length then .error .vectorLenMismatch
            else .ok (node.mk [] arr)
      else if 0 < nd.links.length then
        if expectLeaf then .error .leafExpected
        else
          match scatterLinks nd.bmap nd.links width 0 0 with
          | .error e => .error e
          | .ok (arr, i) =>
            if i ≠ nd.links.length then .error .vectorLenMismatch
            else .ok (node.mk arr [])
      else if !allowEmpty then .error .emptyNode
      else .ok (node.mk [] [])

/-- `LoadAMT` from src/unnamed/part_001 (the configurable-width
revision): fetch and validate the root record.  The fetch itself is the
record argument (content addressing); the caller-supplied bit width
configuration is the `W` parameter. -/
def LoadAMT (W : Nat) (r : proot) : Except Err Root :=
  if 64 < r.height then .error (.heightTooBig r.height)
  else
    let maxNodes := nodesForHeight W (r.height + 1)
    if maxNodes = uMax ∧ nodesForHeight W r.height = uMax then
      .error (.heightAbsurd r.height)
    else if maxNodes < r.count then .error .notTallEnough
    else
      match newNode r.node W (r.height == 0) (r.height == 0) with
      | .error e => .error e
      | .ok nd => .ok ⟨W, r.height, r.count, nd⟩

/-- `NewAMT` from src/unnamed/part_001: a fresh empty root. -/
def NewAMT (W : Nat) : Root := ⟨W, 0, 0, node.mk [] []⟩

/-! ## In-memory operations (src/node.go, src/unnamed/part_001) -/

/-- `empty` from src/node.go: no link and no value slot in use. -/
def node.empty (n : node) : Bool :=
  n.links.all (fun l => l.isNone) && n.values.all (fun v => v.isNone)

/-- `getValue` from src/node.go (`nil` slice gives `nil`). -/
def node.getValue (n : node) (i : Nat) : Option Bytes :=
  n.values.getD i none

/-- `setValue` from src/node.go (allocate the width-length array on
first use). -/
def node.setValue (width : Nat) (n : node) (i : Nat) (v : Option Bytes) : node :=
  if n.values.isEmpty then
    if v.isNone then n
    else node.mk n.links ((List.replicate width none).set i v)
  else node.mk n.links (n.values.set i v)

/-- `getLink` from src/node.go. -/
def node.getLink (n : node) (i : Nat) : Option link :=
  n.links.getD i none

/-- `setLink` from src/node.go. -/
def node.setLink (width : Nat) (n : node) (i : Nat) (l : Option link) : node :=
  if n.links.isEmpty then
    if l.isNone then n
    else node.mk ((List.replicate width none).set i l) n.values
  else node.mk (n.links.set i l) n.values

/-- Modelled from the spec: the `link.load` method lives in a file
(`link.go`) that is not under src/ — only its callers in src/node.go
are.  Spec section 4.3: `load_child(link)` returns the cached child if
present, otherwise fetches and decodes the block pointed to by the
hash, caches it, and returns it; a linked child must be non-empty
(invariant 3) and is a leaf exactly at height 0.  Fetching an undefined
CID, or a CID the store lacks, fails with not-found. -/
def link.load (avail : Store) (width height : Nat) (l : link) :
    Except Err (node × link) :=
  match l.cached with
  | some n => .ok (n, l)
  | none =>
    match l.cid with
    | none => .error .storeNotFound
    | some c =>
      if avail c then
        match newNode c.data width false (height == 0) with
        | .error e => .error e
        | .ok n => .ok (n, link.mk l.cid (some n) l.dirty)
      else .error .storeNotFound

/-- `get` from src/node.go.  The Go function copies the raw value bytes
into an out-parameter and returns a found flag; the model returns the
raw bytes (values are opaque to the core).  The load's cache write is
visible in the returned node. -/
def node.get (avail : Store) (width : Nat) :
    Nat → node → Nat → node × Except Err (Option Bytes)
  | 0, n, i => (n, .ok (n.getValue i))
  | height + 1, n, i =>
    let nfh := nodesForHeight width (height + 1)
    match n.getLink (i / nfh) with
    | none => (n, .ok none)
    | some ln =>
      match link.load avail width height ln with
      | .error e => (n, .error e)
      | .ok (subn, ln') =>
        match node.get avail width height subn (i % nfh) with
        | (subn', res) =>
          (n.setLink width (i / nfh) (some (link.mk ln'.cid (some subn') ln'.dirty)), res)

/-- `set` from src/node.go.  Go mutates through pointers: `ln.load`
caches the fetched child inside a link that is already in `n.links`
(when it existed — a fresh link is not yet linked in), and the
recursive `set` mutates that cached child in place; linking a new link
in and marking it dirty happen only after the recursive call succeeds.
The model rebuilds exactly those states. -/
def node.set (avail : Store) (width : Nat) :
    Nat → node → Nat → Bytes → node × Except Err Bool
  | 0, n, i, val =>
    (node.setValue width n i (some val), .ok (n.getValue i).isNone)
  | height + 1, n, i, val =>
    let nfh := nodesForHeight width (height + 1)
    let lnOpt := n.getLink (i / nfh)
    let ln := lnOpt.getD (link.mk none (some (node.mk [] [])) false)
    match link.load avail width height ln with
    | .error e => (n, .error e)
    | .ok (subn, ln') =>
      let n1 := if lnOpt.isSome then n.setLink width (i / nfh) (some ln') else n
      match node.set avail width height subn (i % nfh) val with
      | (subn', .error e) =>
        ((if lnOpt.isSome then
            n1.setLink width (i / nfh) (some (link.mk ln'.cid (some subn') ln'.dirty))
          else n1), .error e)
      | (subn', .ok added) =>
        (n1.setLink width (i / nfh) (some (link.mk ln'.cid (some subn') true)), .ok added)

/-- `delete` from src/node.go: clear the leaf slot; on the way up clear
the parent link if the child became empty, otherwise mark it dirty. -/
def node.delete (avail : Store) (width : Nat) :
    Nat → node → Nat → node × Except Err Bool
  | 0, n, i =>
    if (n.getValue i).isNone then (n, .ok false)
    else (node.setValue width n i none, .ok true)
  | height + 1, n, i =>
    let nfh := nodesForHeight width (height + 1)
    let subi := i / nfh
    match n.getLink subi with
    | none => (n, .ok false)
    | some ln =>
      match link.load avail width height ln with
      | .error e => (n, .error e)
      | .ok (subn, ln') =>
        match node.delete avail width height subn (i % nfh) with
        | (subn', .error e) =>
          (n.setLink width subi (some (link.mk ln'.cid (some subn') ln'.dirty)), .error e)
        | (subn', .ok false) =>
          (n.setLink width subi (some (link.mk ln'.cid (some subn') ln'.dirty)), .ok false)
        | (subn', .ok true) =>
          if subn'.empty then (n.setLink width subi none, .ok true)
          else (n.setLink width subi (some (link.mk ln'.cid (some subn') true)), .ok true)

/-- `collapse` from src/node.go: while only slot 0 is linked, replace
the node by its sole child, recursively; stop as soon as any slot `≥ 1`
is linked.  Heights are `Nat` here; the source uses `int`, and on a
height-0 node that (against the invariants) still carries links it
would recurse with height `-1` — on trees formed by the operations a
height-0 node has no links, and the model returns 0 there. -/
def node.collapse (avail : Store) (width : Nat) :
    Nat → node → node × Except Err Nat
  | 0, n => (n, .ok 0)
  | height + 1, n =>
    if n.links.isEmpty then (n, .ok 0)
    else if (n.links.drop 1).any (fun l => l.isSome) then (n, .ok (height + 1))
    else
      match n.links.getD 0 none with
      | none => (n, .ok 0)
      | some ln =>
        match link.load avail width height ln with
        | .error e => (n, .error e)
        | .ok (subn, ln') =>
          let n1 := n.setLink width 0 (some ln')
          match node.collapse avail width height subn with
          | (subn', .error e) =>
            (n1.setLink width 0 (some (link.mk ln'.cid (some subn') ln'.dirty)), .error e)
          | (subn', .ok newH) => (subn', .ok newH)

/-- The leaf loop of `forEachAt` (src/node.go): visit each occupied
slot at key `offset + j`, skipping keys below `start`; a visitor error
stops the walk and is returned unchanged. -/
def feLeaf {m : Type} (start offset : Nat) (cb : m → Nat → Bytes → Except Err m) :
    List (Option Bytes) → Nat → m → Except Err m
  | [], _, s => .ok s
  | none :: rest, j, s => feLeaf start offset cb rest (j + 1) s
  | some v :: rest, j, s =>
    if offset + j < start then feLeaf start offset cb rest (j + 1) s
    else
      match cb s (offset + j) v with
      | .error e => .error e
      | .ok s' => feLeaf start offset cb rest (j + 1) s'

/-- The interior loop of `forEachAt` (src/node.go): skip absent links
and links whose key interval `[offs, offs + subCount)` lies entirely
below `start`; otherwise load the child and run `sub` (the recursive
walk) on it.  Cache writes are visible in the returned link list. -/
def feLinks (avail : Store) (width height start offset subCount : Nat)
    {m : Type} (sub : node → Nat → m → node × Except Err m) :
    List (Option link) → Nat → m → List (Option link) × Except Err m
  | [], _, s => ([], .ok s)
  | none :: rest, j, s =>
    match feLinks avail width height start offset subCount sub rest (j + 1) s with
    | (rest', r) => (none :: rest', r)
  | some ln :: rest, j, s =>
    let offs := offset + j * subCount
    let nextOffs := offs + subCount
    if nextOffs ≤ start then
      match feLinks avail width height start offset subCount sub rest (j + 1) s with
      | (rest', r) => (some ln :: rest', r)
    else
      match link.load avail width height ln with
      | .error e => (some ln :: rest, .error e)
      | .ok (subn, ln') =>
        match sub subn offs s with
        | (subn', .error e) =>
          (some (link.mk ln'.cid (some subn') ln'.dirty) :: rest, .error e)
        | (subn', .ok s') =>
          match feLinks avail width height start offset subCount sub rest (j + 1) s' with
          | (rest', r) => (some (link.mk ln'.cid (some subn') ln'.dirty) :: rest', r)

/-- `forEachAt` from src/node.go. -/
def node.forEachAt (avail : Store) (width : Nat) {m : Type} :
    Nat → node → Nat → Nat → m → (m → Nat → Bytes → Except Err m) → node × Except Err m
  | 0, n, start, offset, s, cb => (n, feLeaf start offset cb n.values 0 s)
  | height + 1, n, start, offset, s, cb =>
    let subCount := nodesForHeight width (height + 1)
    match feLinks avail width height start offset subCount
        (fun subn offs s' => node.forEachAt avail width height subn start offs s' cb)
        n.links 0 s with
    | (links', r) => (node.mk links' n.values, r)

/-- The leaf loop of `flush` (src/node.go): collect the occupied values
in slot order and set their bitmap bits. -/
def flushLeaf : List (Option Bytes) → Nat → List Nat → List Bytes → List Nat × List Bytes
  | [], _, bm, vs => (bm, vs)
  | none :: rest, j, bm, vs => flushLeaf rest (j + 1) bm vs
  | some v :: rest, j, bm, vs => flushLeaf rest (j + 1) (bmapSet bm j) (vs ++ [v])

/-- The interior loop of `flush` (src/node.go): a dirty link must be
cached; its child is flushed recursively (`subFlush`), put into the
store — in this model the returned CID is the content address of the
flushed child — and the link becomes clean; every present link then
contributes its CID and bitmap bit. -/
def flushLinks (subFlush : node → node × Except Err pnode) :
    List (Option link) → Nat → List Nat → List (Option cidT) →
    List (Option link) × Except Err (List Nat × List (Option cidT))
  | [], _, bm, pls => ([], .ok (bm, pls))
  | none :: rest, j, bm, pls =>
    match flushLinks subFlush rest (j + 1) bm pls with
    | (rest', r) => (none :: rest', r)
  | some ln :: rest, j, bm, pls =>
    if ln.dirty then
      match ln.cached with
      | none => (some ln :: rest, .error .dirtyNotCached)
      | some sub =>
        match subFlush sub with
        | (sub', .error e) => (some (link.mk ln.cid (some sub') ln.dirty) :: rest, .error e)
        | (sub', .ok subP) =>
          let lnF := link.mk (some (cidT.mk dagCBOR subP)) (some sub') false
          match flushLinks subFlush rest (j + 1) (bmapSet bm j) (pls ++ [lnF.cid]) with
          | (rest', r) => (some lnF :: rest', r)
    else
      match flushLinks subFlush rest (j + 1) (bmapSet bm j) (pls ++ [ln.cid]) with
      | (rest', r) => (some ln :: rest', r)

/-- `flush` from src/node.go: serialize a node bottom-up, resolving
dirty links into fresh CIDs. -/
def node.flush (width : Nat) : Nat → node → node × Except Err pnode
  | 0, n =>
    match flushLeaf n.values 0 (makeBmap width) [] with
    | (bm, vs) => (n, .ok (pnode.mk bm [] vs))
  | height + 1, n =>
    match flushLinks (node.flush width height) n.links 0 (makeBmap width) [] with
    | (links', r) =>
      (node.mk links' n.values,
        match r with
        | .error e => .error e
        | .ok (bm, pls) => .ok (pnode.mk bm pls []))

/-! ## The root controller (src/unnamed/part_001) -/

/-- The height-growth loop of `Set`: while the key is beyond the
current capacity, wrap the non-empty root node into slot 0 of a fresh
dirty link and increase the height.  The loop is written with fuel 64:
for any width ≥ 2 and key ≤ MaxIndex the capacity saturates above the
key after at most 63 iterations, so the fuel never runs out (for width
≤ 1 the source itself would not terminate). -/
def growLoop (width i : Nat) : Nat → Nat → node → Nat × node
  | 0, height, n => (height, n)
  | fuel + 1, height, n =>
    if nodesForHeight width (height + 1) ≤ i then
      let n' :=
        if n.empty then n
        else node.mk ((List.replicate width (none : Option link)).set 0
          (some (link.mk none (some n) true))) []
      growLoop width i fuel (height + 1) n'
    else (height, n)

/-- `Set` from src/unnamed/part_001: reject out-of-range keys, grow the
height to cover the key, descend, and bump the count when a new slot
was filled (refusing a count that would overflow).  Marshalling the
value is the identity on its raw bytes here. -/
def Root.Set (avail : Store) (r : Root) (i : Nat) (val : Bytes) :
    Root × Except Err Unit :=
  if MaxIndex < i then (r, .error (.outOfRange i))
  else
    match growLoop r.width i 64 r.height r.node with
    | (h', n') =>
      match node.set avail r.width h' n' i val with
      | (n'', .error e) => (⟨r.width, h', r.count, n''⟩, .error e)
      | (n'', .ok addVal) =>
        if addVal then
          if MaxIndex - 1 ≤ r.count then
            (⟨r.width, h', r.count, n''⟩, .error .invalidCount)
          else (⟨r.width, h', r.count + 1, n''⟩, .ok ())
        else (⟨r.width, h', r.count, n''⟩, .ok ())

/-- `Get` from src/unnamed/part_001: out-of-range keys fail, keys
beyond the capacity are not found, otherwise descend. -/
def Root.Get (avail : Store) (r : Root) (i : Nat) : Root × Except Err Bytes :=
  if MaxIndex < i then (r, .error (.outOfRange i))
  else if nodesForHeight r.width (r.height + 1) ≤ i then (r, .error (.notFound i))
  else
    match node.get avail r.width r.height r.node i with
    | (n', .error e) => (⟨r.width, r.height, r.count, n'⟩, .error e)
    | (n', .ok none) => (⟨r.width, r.height, r.count, n'⟩, .error (.notFound i))
    | (n', .ok (some b)) => (⟨r.width, r.height, r.count, n'⟩, .ok b)

/-- `Delete` from src/unnamed/part_001: as `Get` for the range checks;
after a successful delete, collapse the root chain and decrement the
count (refusing an underflow, after the tree was already modified). -/
def Root.Delete (avail : Store) (r : Root) (i : Nat) : Root × Except Err Unit :=
  if MaxIndex < i then (r, .error (.outOfRange i))
  else if nodesForHeight r.width (r.height + 1) ≤ i then (r, .error (.notFound i))
  else
    match node.delete avail r.width r.height r.node i with
    | (n', .error e) => (⟨r.width, r.height, r.count, n'⟩, .error e)
    | (n', .ok false) => (⟨r.width, r.height, r.count, n'⟩, .error (.notFound i))
    | (n', .ok true) =>
      match node.collapse avail r.width r.height n' with
      | (n'', .error e) => (⟨r.width, r.height, r.count, n''⟩, .error e)
      | (n'', .ok newH) =>
        if r.count = 0 then (⟨r.width, newH, r.count, n''⟩, .error .invalidCount)
        else (⟨r.width, newH, r.count - 1, n''⟩, .ok ())

/-- `Flush` from src/unnamed/part_001: flush the root node and put the
root record; the returned hash is the record's content address, which
the model represents by the record itself. -/
def Root.Flush (r : Root) : Root × Except Err proot :=
  match node.flush r.width r.height r.node with
  | (n', .error e) => (⟨r.width, r.height, r.count, n'⟩, .error e)
  | (n', .ok nd) => (⟨r.width, r.height, r.count, n'⟩, .ok ⟨r.height, r.count, nd⟩)

/-- `ForEachAt` from src/unnamed/part_001.  The visitor threads a state
of type `m` (a Go closure mutating its captured variables). -/
def Root.ForEachAt {m : Type} (avail : Store) (r : Root) (start : Nat) (s : m)
    (cb : m → Nat → Bytes → Except Err m) : Root × Except Err m :=
  match node.forEachAt avail r.width r.height r.node start 0 s cb with
  | (n', res) => (⟨r.width, r.height, r.count, n'⟩, res)

/-- `ForEach` from src/unnamed/part_001: `forEachAt` from key 0. -/
def Root.ForEach {m : Type} (avail : Store) (r : Root) (s : m)
    (cb : m → Nat → Bytes → Except Err m) : Root × Except Err m :=
  Root.ForEachAt avail r 0 s cb

/-- `Len` from src/unnamed/part_001. -/
def Root.Len (r : Root) : Nat := r.count

/-- The number of bitmap bits set below `W` (what the decoding loops of
`newNode` count while consuming a vector). -/
def bmapCount (W : Nat) (bm : List Nat) : Nat :=
  ((List.range W).filter (fun k => bmapTest bm k)).length

/-- Observation for the set-failure claim: the tree with the caches of
clean links erased, level by level.  Two trees equal under this erasure
have the same links present with the same CIDs and dirty flags, the
same values, and the same dirty subtrees — they differ at most in which
persisted children happen to be cached. -/
def eraseClean : Nat → node → node
  | 0, n => n
  | h + 1, n =>
    node.mk (n.links.map (fun ol =>
      match ol with
      | none => none
      | some l =>
        if l.dirty then some (link.mk l.cid (l.cached.map (eraseClean h)) true)
        else some (link.mk l.cid none false))) n.values

/-- Every dirty link carries a cached child (what `flush` demands of
every tree it accepts, and what every operation maintains): the
invariant under which a failed descent only fills caches. -/
def dirtyCachedInv : Nat → node → Prop
  | 0, _ => True
  | h + 1, n => ∀ l : link, some l ∈ n.links →
      (l.dirty = true → l.cached ≠ none) ∧
      (∀ sub, l.cached = some sub → dirtyCachedInv h sub)

/-- Blocks for exercising the set-failure claim: a persisted empty leaf
that the store lacks. -/
def c9bad : cidT := cidT.mk dagCBOR (pnode.mk [] [] [])

/-- A persisted height-1 interior node whose only child CID is `c9bad`. -/
def c9mid : cidT := cidT.mk dagCBOR (pnode.mk [1] [some c9bad] [])

/-- A store holding exactly the `c9mid` block, so a descent loads the
middle node and then fails on its child. -/
def c9store : Store := fun c => cidT.beq c c9mid

/-- A height-2 root node: one clean, uncached link to `c9mid`. -/
def c9node : node := node.mk [some (link.mk (some c9mid) none false)] []

/-- What `c9mid` decodes to at width 2. -/
def c9midn : node := node.mk [some (link.mk (some c9bad) none false), none] []

/-- `c9node` after the failed descent: the same tree with the loaded
child cached on the still-clean link. -/
def c9filled : node := node.mk [some (link.mk (some c9mid) (some c9midn) false)] []

/-- The height-2 width-2 root over `c9node`. -/
def c9root : Root := ⟨2, 2, 1, c9node⟩

/-- Well-formed slot-array lengths: every links/values array is either
nil (length 0) or exactly width-length, recursively through the cached
children, and leaves carry no links.  Every tree the operations build
satisfies this (the Go code allocates slot arrays only as
`make([]X, width)`). -/
def lenWF (W : Nat) : Nat → node → Prop
  | 0, n => (n.values.length = 0 ∨ n.values.length = W) ∧ n.links.length = 0
  | h + 1, n => (n.links.length = 0 ∨ n.links.length = W) ∧
      ∀ l : link, some l ∈ n.links → ∀ sub, l.cached = some sub → lenWF W h sub

/-- The child a link denotes: the cached node if present, otherwise the
decode of the addressed block (what `link.load` returns when it
succeeds, independent of the store). -/
def linkChild (W h : Nat) (l : link) : node :=
  match l.cached with
  | some n => n
  | none =>
    match l.cid with
    | none => node.mk [] []
    | some c =>
      match newNode c.data W false (h == 0) with
      | .ok n => n
      | .error _ => node.mk [] []

/-- The logical contents of a subtree as a key-to-bytes map (mirroring
the descent of `get`, with `linkChild` standing for a successful
load). -/
def nContents (W : Nat) : Nat → node → Nat → Option Bytes
  | 0, n, i => n.getValue i
  | h + 1, n, i =>
    match n.getLink (i / nodesForHeight W (h + 1)) with
    | none => none
    | some l => nContents W h (linkChild W h l) (i % nodesForHeight W (h + 1))

/-- The invariant of trees built by `Set`/`Delete` from a fresh root
without intermediate flushes: width-length (or nil) slot arrays, no
values on interior nodes, and every link dirty, cached, and holding a
non-empty subtree. -/
def goodN (W : Nat) : Nat → node → Prop
  | 0, n => (n.values.length = 0 ∨ n.values.length = W) ∧
      (n.links.length = 0 ∨ n.links.length = W) ∧
      n.links.all (fun l => l.isNone) = true
  | h + 1, n => (n.links.length = 0 ∨ n.links.length = W) ∧
      (n.values.length = 0 ∨ n.values.length = W) ∧
      n.values.all (fun v => v.isNone) = true ∧
      ∀ l : link, some l ∈ n.links →
        l.dirty = true ∧
        (∃ c, l.cached = some c) ∧
        (∃ i, nContents W h (linkChild W h l) i ≠ none) ∧
        goodN W h (linkChild W h l)

/-- The number of occupied keys of a root (all its keys lie below
`width` times the top capacity). -/
def countKeys (w : Nat) (r : Root) : Nat :=
  ((List.range (2 ^ w * nodesForHeight (2 ^ w) r.height)).filter
    (fun i => (nContents (2 ^ w) r.height r.node i).isSome)).length

/-- The root invariant: power-of-two width, height below the
saturation point, a good tree, minimal height (a positive height is
justified by a key at or beyond the next-lower capacity), and an exact
element count. -/
def goodR (w : Nat) (r : Root) : Prop :=
  r.width = 2 ^ w ∧
  w * r.height < 64 ∧
  goodN (2 ^ w) r.height r.node ∧
  (r.height = 0 ∨ ∃ i, nodesForHeight (2 ^ w) r.height ≤ i ∧
     nContents (2 ^ w) r.height r.node i ≠ none) ∧
  r.count = countKeys w r

/-- The roots reachable from a fresh empty root by successful `Set` and
`Delete` operations (no intermediate flush; the walk never touches the
store because every link built by the operations keeps its child
cached, so the store argument is irrelevant and fixed to `allAvail`). -/
inductive Reach (w : Nat) : Root → Prop
  | new : Reach w (NewAMT (2 ^ w))
  | set (r r' : Root) (i : Nat) (v : Bytes) :
      Reach w r → Root.Set allAvail r i v = (r', .ok ()) → Reach w r'
  | del (r r' : Root) (i : Nat) :
      Reach w r → Root.Delete allAvail r i = (r', .ok ()) → Reach w r'

/-- The logical contents of one link slot of an interior node: the
contents of the linked subtree, or nothing for an absent link. -/
def slotContents (W h : Nat) : Option link → Nat → Option Bytes
  | none, _ => none
  | some l, k => nContents W h (linkChild W h l) k

/-- The per-link facts recorded by `goodN` for the links of an interior
node at height `h + 1` over children at height `h`. -/
def linkGoodP (W h : Nat) (l : link) : Prop :=
  l.dirty = true ∧ (∃ c, l.cached = some c) ∧
  (∃ i, nContents W h (linkChild W h l) i ≠ none) ∧ goodN W h (linkChild W h l)

/-- C2 witness roots: two different successful operation sequences at
width 2.  The first grows to height 1 with key 2, deletes it again
(leaving a stale all-`none` links array after the collapse), then sets
key 0; the second sets key 0 directly. -/
def c2ra : Root := (Root.Set allAvail (NewAMT 2) 2 [7]).1

def c2rb : Root := (Root.Delete allAvail c2ra 2).1

def c2r1 : Root := (Root.Set allAvail c2rb 0 [5]).1

def c2r2 : Root := (Root.Set allAvail (NewAMT 2) 0 [5]).1

/-- C4 witness root: the spec's empty-stability example at bit width 3,
after `set(5, "x")`. -/
def c4r1 : Root := (Root.Set allAvail (NewAMT 8) 5 [120]).1

/-! ## Diff (src/diff.go, first segment: the nodeContext revision) -/

/-- Invariant of trees decoded by `newNode` from flushed records: leaf
vectors have the canonical decoded shapes, every link is clean and
uncached with a defined DagCBOR CID whose block decodes to a non-empty
good subtree. -/
def loadedN (W : Nat) : Nat → node → Prop
  | 0, n => (n.values.length = 0 ∨ n.values.length = W) ∧ n.links = []
  | h + 1, n => (n.links.length = 0 ∨ n.links.length = W) ∧ n.values = [] ∧
      ∀ l : link, some l ∈ n.links →
        l.dirty = false ∧ l.cached = none ∧
        ∃ cp, l.cid = some cp ∧ cp.codec = dagCBOR ∧
          (∃ n0, newNode cp.data W false (h == 0) = .ok n0 ∧ loadedN W h n0) ∧
          (∃ i, nContents W h (linkChild W h l) i ≠ none)

theorem trailZeros64_pow2 : ∀ fuel w, trailZeros64 fuel (2 ^ w) = min w fuel := by
  intro fuel
  induction fuel with
  | zero =>
    intro w
    simp [trailZeros64]
  | succ fuel ih =>
    intro w
    rcases w with _ | w
    · rw [trailZeros64]
      norm_num
    · rw [trailZeros64]
      have h2 : (2 : Nat) ^ (w + 1) % 2 = 0 ∧ 0 < (2 : Nat) ^ (w + 1) := by
        constructor
        · rw [Nat.pow_succ]
          omega
        · positivity
      rw [if_pos h2]
      have hdiv : (2 : Nat) ^ (w + 1) / 2 = 2 ^ w := by
        rw [Nat.pow_succ]
        omega
      rw [hdiv, ih w]
      omega

theorem powLoop_spec : ∀ fuel b a c, 1 ≤ a → 1 ≤ c → 1 ≤ b → b ≤ fuel →
    powLoop fuel a b c = if c * a ^ b < 2 ^ 64 then c * a ^ b else uMax := by
  intro fuel
  induction fuel with
  | zero => intro b a c _ _ hb hf; omega
  | succ fuel ih =>
    intro b a c ha hc hb hf
    rcases Nat.lt_or_ge 1 b with h1 | h1
    · rw [powLoop, if_pos h1]
      rcases Nat.even_or_odd b with he | ho
      · have hbe : b % 2 = 0 := Nat.even_iff.mp he
        rw [if_neg (by simp [hbe])]
        have hpow : a ^ b = (a * a) ^ (b / 2) := by
          rw [← Nat.pow_two, ← Nat.pow_mul]
          congr 1
          omega
        by_cases hs : 2 ^ 64 ≤ a * a
        · rw [if_pos hs]
          have h2 : a * a ≤ a ^ b := by
            calc a * a = a ^ 2 := (Nat.pow_two a).symm
            _ ≤ a ^ b := Nat.pow_le_pow_right (by omega) (by omega)
          have : ¬ c * a ^ b < 2 ^ 64 := by
            have : a ^ b ≤ c * a ^ b := Nat.le_mul_of_pos_left _ (by omega)
            omega
          rw [if_neg this]
        · rw [if_neg hs]
          rw [ih (b / 2) (a * a) c (Nat.mul_pos (by omega) (by omega)) hc (by omega) (by omega), hpow]
      · have hbo : b % 2 ≠ 0 := by
          have := Nat.odd_iff.mp ho
          omega
        rw [if_pos hbo]
        have hpow : a ^ b = a * (a * a) ^ ((b - 1) / 2) := by
          rw [← Nat.pow_two, ← Nat.pow_mul]
          rw [← Nat.pow_succ']
          congr 1
          have := Nat.odd_iff.mp ho
          omega
        by_cases hs1 : 2 ^ 64 ≤ c * a
        · rw [if_pos hs1]
          have h2 : c * a ≤ c * a ^ b := by
            have : a ≤ a ^ b := Nat.le_self_pow (by omega) a
            exact Nat.mul_le_mul_left c this
          rw [if_neg (by omega)]
        · rw [if_neg hs1]
          by_cases hs2 : 2 ^ 64 ≤ a * a
          · rw [if_pos hs2]
            have h2 : a * a ≤ a ^ b := by
              calc a * a = a ^ 2 := (Nat.pow_two a).symm
              _ ≤ a ^ b := Nat.pow_le_pow_right (by omega) (by omega)
            have : a ^ b ≤ c * a ^ b := Nat.le_mul_of_pos_left _ (by omega)
            rw [if_neg (by omega)]
          · rw [if_neg hs2]
            rw [ih ((b - 1) / 2) (a * a) (c * a) (Nat.mul_pos (by omega) (by omega)) (Nat.mul_pos (by omega) (by omega))
              (by omega) (by omega)]
            rw [hpow]
            have harr : c * a * (a * a) ^ ((b - 1) / 2) = c * (a * (a * a) ^ ((b - 1) / 2)) := by
              ring
            rw [harr]
    · have hb1 : b = 1 := by omega
      subst hb1
      rcases fuel with _ | fuel <;>
        · rw [powLoop]
          simp only [Nat.lt_irrefl, if_false, Nat.pow_one]
          rw [Nat.mul_comm a c]
          by_cases hs : 2 ^ 64 ≤ c * a
          · rw [if_pos hs, if_neg (by omega)]
          · rw [if_neg hs, if_pos (by omega)]

theorem powLoop_zero_fuel (a c : Nat) :
    powLoop 0 a 0 c = if 2 ^ 64 ≤ a * c then uMax else a * c := rfl

/-- A nonzero number whose bitwise AND with its predecessor vanishes is
a power of two (the test `a & (a-1) == 0` of the source). -/
theorem pow2_of_land_sub_one :
    ∀ W, 1 ≤ W → W &&& (W - 1) = 0 → ∃ t, W = 2 ^ t := by
  intro W
  induction W using Nat.strong_induction_on with
  | _ W ih =>
    intro hW hland
    rcases Nat.lt_or_ge W 2 with h2 | h2
    · exact ⟨0, by omega⟩
    · have hbit : ∀ i, (W.testBit i && (W - 1).testBit i) = false := by
        intro i
        rw [← Nat.testBit_and, hland, Nat.zero_testBit]
      rcases Nat.even_or_odd W with he | ho
      · -- even: W = 2 * (W / 2), recurse on W / 2
        have hmod : W % 2 = 0 := Nat.even_iff.mp he
        have hv1 : 1 ≤ W / 2 := by omega
        have hv2 : W / 2 < W := by omega
        have hsub : (W - 1) / 2 = W / 2 - 1 := by omega
        have hland2 : (W / 2) &&& (W / 2 - 1) = 0 := by
          apply Nat.eq_of_testBit_eq
          intro i
          rw [Nat.testBit_and, Nat.zero_testBit]
          have := hbit (i + 1)
          rw [Nat.testBit_add_one, Nat.testBit_add_one, hsub] at this
          exact this
        obtain ⟨t, ht⟩ := ih (W / 2) hv2 hv1 hland2
        exact ⟨t + 1, by rw [Nat.pow_succ]; omega⟩
      · -- odd and ≥ 2 is impossible: all bits of (W-1)/2 = W/2 must vanish
        exfalso
        have hmod : W % 2 = 1 := Nat.odd_iff.mp ho
        have hdiv : (W - 1) / 2 = W / 2 := by omega
        have hzero : W / 2 = 0 := by
          apply Nat.eq_of_testBit_eq
          intro i
          rw [Nat.zero_testBit]
          have := hbit (i + 1)
          rw [Nat.testBit_add_one, Nat.testBit_add_one, hdiv] at this
          rcases Bool.and_eq_false_iff.mp this with h | h <;> exact h
        omega

/-- `nodesForHeight` at a power-of-two width: `2 ^ (w * h)`, saturating
at `2 ^ 64 - 1` as soon as the shift reaches 64 bits. -/
theorem nodesForHeight_two_pow (w h : Nat) :
    nodesForHeight (2 ^ w) h =
      if 2 ^ (w * h) < 2 ^ 64 then 2 ^ (w * h) else uMax := by
  have hp : (2 : Nat) ^ w ≠ 0 := by positivity
  have hland : (2 ^ w) &&& (2 ^ w - 1) = 0 := by
    apply Nat.eq_of_testBit_eq
    intro i
    rw [Nat.testBit_and, Nat.zero_testBit, Nat.testBit_two_pow_sub_one, Nat.testBit_two_pow]
    by_cases h : w = i
    · subst h
      simp
    · simp [h]
  rw [nodesForHeight, if_neg hp, if_pos hland]
  simp only [trailZeros64_pow2]
  have hiff : 64 ≤ min w 64 * h ↔ 64 ≤ w * h := by
    rcases Nat.le_total w 64 with h1 | h1
    · rw [Nat.min_eq_left h1]
    · rw [Nat.min_eq_right h1]
      rcases h with _ | h2
      · simp
      · have hm : 64 * (h2 + 1) ≤ w * (h2 + 1) := Nat.mul_le_mul_right _ h1
        constructor <;> intro _ <;> omega
  by_cases hs : 64 ≤ w * h
  · rw [if_pos (hiff.mpr hs), if_neg (by exact Nat.not_lt.mpr (Nat.pow_le_pow_right (by omega) hs))]
  · have hw64 : min w 64 * h = w * h := by
      rcases Nat.le_total w 64 with h1 | h1
      · rw [Nat.min_eq_left h1]
      · rcases h with _ | h2
        · simp
        · exfalso
          have hm : 64 * (h2 + 1) ≤ w * (h2 + 1) := Nat.mul_le_mul_right _ h1
          omega
    rw [hw64, if_neg hs, if_pos (Nat.pow_lt_pow_right (by omega) (by omega)),
      Nat.shiftLeft_eq, Nat.one_mul]

/-- For a positive height, `nodesForHeight` computes `width ^ height`
saturating at `2 ^ 64 - 1`, for every positive width. -/
theorem nodesForHeight_spec (W h : Nat) (hW : 1 ≤ W) (hh : 1 ≤ h) :
    nodesForHeight W h = if W ^ h < 2 ^ 64 then W ^ h else uMax := by
  by_cases hland : W &&& (W - 1) = 0
  · obtain ⟨t, ht⟩ := pow2_of_land_sub_one W hW hland
    subst ht
    rw [nodesForHeight_two_pow, Nat.pow_mul]
  · rw [nodesForHeight, if_neg (by omega), if_neg hland]
    rw [powLoop_spec h h W 1 hW (by omega) hh (Nat.le_refl h), Nat.one_mul]

/-- `nodesForHeight` below the saturation point is the exact power. -/
theorem nodesForHeight_eq_pow (w h : Nat) (hlt : 2 ^ (w * h) < 2 ^ 64) :
    nodesForHeight (2 ^ w) h = 2 ^ (w * h) := by
  rw [nodesForHeight_two_pow, if_pos hlt]

/-- `nodesForHeight` at or past the saturation point. -/
theorem nodesForHeight_sat (w h : Nat) (hge : 64 ≤ w * h) :
    nodesForHeight (2 ^ w) h = uMax := by
  rw [nodesForHeight_two_pow,
    if_neg (Nat.not_lt.mpr (Nat.pow_le_pow_right (by omega) hge))]

/-- `nodesForHeight` below the true-power saturation point, convenience
form at power-of-two widths. -/
theorem nodesForHeight_pow_eq (w h : Nat) (hlt : (2 ^ w : Nat) ^ h < 2 ^ 64) :
    nodesForHeight (2 ^ w) h = (2 ^ w : Nat) ^ h := by
  rw [nodesForHeight_two_pow, ← Nat.pow_mul, if_pos (by rw [Nat.pow_mul]; exact hlt)]

/-- Claim C5, counterexample: at width 3 and height 0 the exact power
`3 ^ 0 = 1` is representable, yet `nodesForHeight` returns 3, not 1 —
the exponentiation-by-squaring loop returns `a * c = 3 * 1` when the
exponent is 0. -/
theorem C5_counterexample :
    (3 : Nat) ^ 0 < 2 ^ 64 ∧ nodesForHeight 3 0 ≠ 3 ^ 0 ∧ nodesForHeight 3 0 = 3 := by
  refine ⟨by decide, by decide, by decide⟩

/-- Claim C5 (amended): for every representable width `W ≥ 1` and every
height `h ≥ 1`, `nodesForHeight W h` equals `W ^ h` when that power is
below `2 ^ 64` and saturates to `2 ^ 64 - 1` otherwise.  At height 0 it
returns 1 when `W` is a power of two (the claim's value) but returns
`W` itself otherwise. -/
theorem C5_nodesForHeight_amended (W h : Nat) (hW : 1 ≤ W) (hW64 : W < 2 ^ 64) :
    (1 ≤ h → nodesForHeight W h = if W ^ h < 2 ^ 64 then W ^ h else uMax) ∧
    ((∃ t, W = 2 ^ t) → nodesForHeight W 0 = 1) ∧
    ((¬ ∃ t, W = 2 ^ t) → nodesForHeight W 0 = W) := by
  refine ⟨fun hh => nodesForHeight_spec W h hW hh, ?_, ?_⟩
  · rintro ⟨t, ht⟩
    subst ht
    rw [nodesForHeight_two_pow]
    norm_num
  · intro hnp
    have hland : ¬ W &&& (W - 1) = 0 := by
      intro hl
      exact hnp (pow2_of_land_sub_one W hW hl)
    rw [nodesForHeight, if_neg (by omega), if_neg hland, powLoop]
    rw [if_neg (by omega : ¬ 2 ^ 64 ≤ W * 1)]
    omega

/-- Witness for C5's amended theorem: concrete evaluations at width 8
(height 2) and at the counterexample width 3 (height 0). -/
theorem C5_amended_witness :
    (1 ≤ 8 ∧ nodesForHeight 8 2 = 64) ∧ (1 ≤ 3 ∧ nodesForHeight 3 0 = 3) := by
  constructor
  · refine ⟨by decide, ?_⟩
    have h := (C5_nodesForHeight_amended 8 2 (by decide) (by decide)).1 (by decide)
    rw [h]
    decide
  · refine ⟨by decide, ?_⟩
    have hnp : ¬ ∃ t, (3 : Nat) = 2 ^ t := by
      rintro ⟨t, ht⟩
      rcases t with _ | _ | t
      · omega
      · norm_num at ht
      · have h4 : (4 : Nat) ≤ 2 ^ (t + 2) := by
          have := Nat.pow_le_pow_right (by omega : 1 ≤ 2) (by omega : 2 ≤ t + 2)
          simpa using this
        omega
    exact (C5_nodesForHeight_amended 3 0 (by decide) (by decide)).2.2 hnp

/-! ### List helpers -/

theorem getD_of_all_isNone {a : Type} :
    ∀ (l : List (Option a)), l.all (fun v => v.isNone) = true →
      ∀ i, l.getD i none = none := by
  intro l
  induction l with
  | nil => intro _ i; cases i <;> rfl
  | cons hd tl ih =>
    intro hall i
    rw [List.all_cons, Bool.and_eq_true] at hall
    cases i with
    | zero =>
      cases hd with
      | none => rfl
      | some v => simp at hall
    | succ j => exact ih hall.2 j

theorem getD_replicate_none {a : Type} (n i : Nat) :
    (List.replicate n (none : Option a)).getD i none = none := by
  induction n generalizing i with
  | zero => cases i <;> rfl
  | succ m ih =>
    rw [List.replicate_succ]
    cases i with
    | zero => rfl
    | succ j => exact ih j

theorem getD_set_self {a : Type} :
    ∀ (l : List a) (i : Nat) (x d : a), i < l.length →
      (l.set i x).getD i d = x := by
  intro l
  induction l with
  | nil => intro i x d h; simp at h
  | cons hd tl ih =>
    intro i x d h
    cases i with
    | zero => rfl
    | succ j =>
      rw [List.set_cons_succ]
      exact ih j x d (by simpa using h)

theorem getD_set_ne {a : Type} :
    ∀ (l : List a) (i j : Nat) (x d : a), i ≠ j →
      (l.set i x).getD j d = l.getD j d := by
  intro l
  induction l with
  | nil => intro i j x d h; simp [List.set]
  | cons hd tl ih =>
    intro i j x d h
    cases i with
    | zero =>
      cases j with
      | zero => omega
      | succ k => rfl
    | succ i2 =>
      cases j with
      | zero => rfl
      | succ k =>
        rw [List.set_cons_succ]
        exact ih i2 k x d (by omega)

theorem getD_replicate_set_self {a : Type} (W i : Nat) (x d : Option a) (h : i < W) :
    ((List.replicate W (none : Option a)).set i x).getD i d = x :=
  getD_set_self _ i x d (by simpa using h)

/-! ### Bitmap bridge lemmas -/

theorem bmapTest_eq_testBit (bm : List Nat) (k : Nat) :
    bmapTest bm k = (bm.getD (k / 8) 0).testBit (k % 8) := by
  rw [bmapTest, Nat.shiftLeft_eq, Nat.one_mul, Nat.and_two_pow]
  cases h : (bm.getD (k / 8) 0).testBit (k % 8) with
  | false => simp [h]
  | true =>
    simp only [h, Bool.toNat_true, Nat.one_mul]
    simpa using Nat.two_pow_pos (k % 8)

/-! ### Growth-loop lemmas -/

theorem growLoop_lt (w i : Nat) (hw : 1 ≤ w) (hi : i < uMax) :
    ∀ fuel h n, 63 ≤ h + fuel →
      i < nodesForHeight (2 ^ w) ((growLoop (2 ^ w) i fuel h n).1 + 1) := by
  intro fuel
  induction fuel with
  | zero =>
    intro h n hf
    rw [growLoop]
    have hs : 64 ≤ w * (h + 1) := by
      have h1 : (64 : Nat) ≤ 1 * (h + 1) := by omega
      exact h1.trans (Nat.mul_le_mul_right _ hw)
    rw [nodesForHeight_sat w (h + 1) hs]
    exact hi
  | succ fuel ih =>
    intro h n hf
    rw [growLoop]
    by_cases hc : nodesForHeight (2 ^ w) (h + 1) ≤ i
    · rw [if_pos hc]
      exact ih (h + 1) _ (by omega)
    · rw [if_neg hc]
      show i < nodesForHeight (2 ^ w) (h + 1)
      omega

theorem growLoop_height_ge (W i : Nat) :
    ∀ fuel h n, h ≤ (growLoop W i fuel h n).1 := by
  intro fuel
  induction fuel with
  | zero => intro h n; exact Nat.le_refl h
  | succ fuel ih =>
    intro h n
    rw [growLoop]
    by_cases hc : nodesForHeight W (h + 1) ≤ i
    · rw [if_pos hc]
      exact (Nat.le_succ h).trans (ih (h + 1) _)
    · rw [if_neg hc]

theorem growLoop_grew (W i : Nat) :
    ∀ fuel h n, (growLoop W i fuel h n).1 ≠ h →
      nodesForHeight W ((growLoop W i fuel h n).1) ≤ i := by
  intro fuel
  induction fuel with
  | zero => intro h n hne; exact absurd rfl hne
  | succ fuel ih =>
    intro h n hne
    rw [growLoop] at hne ⊢
    by_cases hc : nodesForHeight W (h + 1) ≤ i
    · rw [if_pos hc] at hne ⊢
      by_cases h2 : (growLoop W i fuel (h + 1) (if n.empty = true then n
          else node.mk ((List.replicate W (none : Option link)).set 0
            (some (link.mk none (some n) true))) [])).1 = h + 1
      · rw [h2]
        exact hc
      · exact ih (h + 1) _ h2
    · rw [if_neg hc] at hne
      exact absurd rfl hne

theorem growLoop_empty (W i : Nat) :
    ∀ fuel h n, n.empty = true → (growLoop W i fuel h n).2 = n := by
  intro fuel
  induction fuel with
  | zero => intro h n _; rfl
  | succ fuel ih =>
    intro h n he
    rw [growLoop]
    by_cases hc : nodesForHeight W (h + 1) ≤ i
    · rw [if_pos hc, if_pos he]
      exact ih (h + 1) n he
    · rw [if_neg hc]

theorem growLoop_shape (W i : Nat) :
    ∀ fuel h n, (growLoop W i fuel h n).2 = n ∨
      ∃ l, (growLoop W i fuel h n).2 =
        node.mk ((List.replicate W (none : Option link)).set 0 (some l)) [] := by
  intro fuel
  induction fuel with
  | zero => intro h n; exact Or.inl rfl
  | succ fuel ih =>
    intro h n
    rw [growLoop]
    by_cases hc : nodesForHeight W (h + 1) ≤ i
    · rw [if_pos hc]
      by_cases he : n.empty = true
      · rw [if_pos he]
        exact ih (h + 1) n
      · rw [if_neg he]
        rcases ih (h + 1) (node.mk ((List.replicate W (none : Option link)).set 0
            (some (link.mk none (some n) true))) []) with h1 | h1
        · exact Or.inr ⟨link.mk none (some n) true, h1⟩
        · exact Or.inr h1
    · rw [if_neg hc]
      exact Or.inl rfl

/-! ### Setting into an empty subtree always adds -/

theorem node_empty_values_getD (n : node) (he : n.empty = true) (i : Nat) :
    n.getValue i = none := by
  rw [node.empty, Bool.and_eq_true] at he
  exact getD_of_all_isNone n.values he.2 i

theorem node_empty_links_getD (n : node) (he : n.empty = true) (i : Nat) :
    n.getLink i = none := by
  rw [node.empty, Bool.and_eq_true] at he
  exact getD_of_all_isNone n.links he.1 i

theorem set_empty_added (avail : Store) (W : Nat) :
    ∀ h n i v, n.empty = true →
      ∃ n', node.set avail W h n i v = (n', .ok true) := by
  intro h
  induction h with
  | zero =>
    intro n i v he
    refine ⟨node.setValue W n i (some v), ?_⟩
    rw [node.set, node_empty_values_getD n he i]
    rfl
  | succ h2 ih =>
    intro n i v he
    rw [node.set]
    simp only [node_empty_links_getD n he, Option.getD_none, Option.isSome_none]
    rw [link.load]
    simp only [link.cached]
    obtain ⟨n', hset⟩ := ih (node.mk [] []) (i % nodesForHeight W (h2 + 1)) v rfl
    rw [hset]
    exact ⟨_, rfl⟩

/-- Setting any in-range key on a fresh empty root succeeds and adds
the first element. -/
theorem set_new_ok (avail : Store) (w : Nat) (i : Nat) (v : Bytes)
    (hi : i ≤ MaxIndex) :
    ∃ r', Root.Set avail (NewAMT (2 ^ w)) i v = (r', .ok ()) ∧ r'.count = 1 := by
  have hg : growLoop (2 ^ w) i 64 0 (node.mk [] []) =
      ((growLoop (2 ^ w) i 64 0 (node.mk [] [])).1, node.mk [] []) := by
    conv_lhs => rw [← Prod.mk.eta (p := growLoop (2 ^ w) i 64 0 (node.mk [] []))]
    rw [growLoop_empty (2 ^ w) i 64 0 (node.mk [] []) rfl]
  obtain ⟨n', hset⟩ := set_empty_added avail (2 ^ w)
    (growLoop (2 ^ w) i 64 0 (node.mk [] [])).1 (node.mk [] []) i v rfl
  refine ⟨⟨2 ^ w, (growLoop (2 ^ w) i 64 0 (node.mk [] [])).1, 0 + 1, n'⟩, ?_, rfl⟩
  simp only [Root.Set, NewAMT]
  rw [if_neg (by omega), hg]
  simp only [hset]
  rw [if_pos trivial, if_neg (by show ¬ ((2 : Nat) ^ 64 - 2 - 1 ≤ 0); omega)]

/-- Claim C6: the only representable key above `MaxIndex`, namely
`2 ^ 64 - 1`, is rejected by `Set`, `Get` and `Delete` with the
out-of-range error, which is distinct from the typed not-found error;
`Set(MaxIndex, v)` succeeds (shown on a fresh default-width root, width
`8 = 2 ^ 3`); and `Get`/`Delete` of an in-range key at or beyond
`capacity(height+1)` return not-found. -/
theorem C6_bounds (avail : Store) (r : Root) (v : Bytes) (i : Nat) :
    ((Root.Set avail r (2 ^ 64 - 1) v).2 = .error (.outOfRange (2 ^ 64 - 1)) ∧
     (Root.Get avail r (2 ^ 64 - 1)).2 = .error (.outOfRange (2 ^ 64 - 1)) ∧
     (Root.Delete avail r (2 ^ 64 - 1)).2 = .error (.outOfRange (2 ^ 64 - 1)) ∧
     (∀ j k, Err.outOfRange j ≠ Err.notFound k)) ∧
    (∃ r', Root.Set avail (NewAMT 8) MaxIndex v = (r', .ok ())) ∧
    (i ≤ MaxIndex → nodesForHeight r.width (r.height + 1) ≤ i →
      (Root.Get avail r i).2 = .error (.notFound i) ∧
      (Root.Delete avail r i).2 = .error (.notFound i)) := by
  have hoor : MaxIndex < 2 ^ 64 - 1 := by rw [MaxIndex]; omega
  refine ⟨⟨?_, ?_, ?_, ?_⟩, ?_, ?_⟩
  · rw [Root.Set, if_pos hoor]
  · rw [Root.Get, if_pos hoor]
  · rw [Root.Delete, if_pos hoor]
  · intro j k h
    cases h
  · obtain ⟨r', h1, _⟩ := set_new_ok avail 3 MaxIndex v (Nat.le_refl _)
    exact ⟨r', by exact_mod_cast h1⟩
  · intro h1 h2
    constructor
    · rw [Root.Get, if_neg (by omega), if_pos h2]
    · rw [Root.Delete, if_neg (by omega), if_pos h2]

/-- Witness for C6 at width 8: a height-0 root, key 8 is in range but
beyond the capacity 8, and the degenerate key `2 ^ 64 - 1`. -/
theorem C6_bounds_witness :
    (8 : Nat) ≤ MaxIndex ∧ nodesForHeight (NewAMT 8).width ((NewAMT 8).height + 1) ≤ 8 ∧
    (Root.Get allAvail (NewAMT 8) 8).2 = .error (.notFound 8) ∧
    (Root.Set allAvail (NewAMT 8) (2 ^ 64 - 1) [120]).2 =
      .error (.outOfRange (2 ^ 64 - 1)) ∧
    (∃ r', Root.Set allAvail (NewAMT 8) MaxIndex [120] = (r', .ok ())) := by
  have h := C6_bounds allAvail (NewAMT 8) [120] 8
  refine ⟨by rw [MaxIndex]; omega, by decide, ?_, h.1.1, h.2.1⟩
  exact (h.2.2 (by rw [MaxIndex]; omega) (by decide)).1

/-- Claim C10: a persisted root whose top node has neither links nor
values is rejected by `LoadAMT` whenever its height is positive, and
accepted only at height 0 — the empty tree is loadable only in its
canonical height-0 form. -/
theorem C10_load_empty_height (W : Nat) (r : proot)
    (hl : r.node.links = []) (hv : r.node.values = []) :
    (0 < r.height → ∃ e, LoadAMT W r = .error e) ∧
    (∀ rt, LoadAMT W r = .ok rt → r.height = 0) := by
  have main : 0 < r.height → ∃ e, LoadAMT W r = .error e := by
    intro hh
    rw [LoadAMT]
    by_cases h64 : 64 < r.height
    · rw [if_pos h64]
      exact ⟨_, rfl⟩
    · rw [if_neg h64]
      by_cases himp : nodesForHeight W (r.height + 1) = uMax ∧
          nodesForHeight W r.height = uMax
      · rw [if_pos himp]
        exact ⟨_, rfl⟩
      · rw [if_neg himp]
        by_cases hcnt : nodesForHeight W (r.height + 1) < r.count
        · rw [if_pos hcnt]
          exact ⟨_, rfl⟩
        · rw [if_neg hcnt]
          rw [newNode, hl, hv]
          simp only [List.length_nil]
          rw [if_neg (by simp)]
          cases hc : checkBmap r.node.bmap W with
          | error e => exact ⟨e, rfl⟩
          | ok u =>
            rw [if_neg (by omega), if_neg (by omega)]
            have hb : (r.height == 0) = false := beq_eq_false_iff_ne.mpr (by omega)
            rw [hb]
            exact ⟨Err.emptyNode, rfl⟩
  refine ⟨main, ?_⟩
  intro rt hok
  by_contra hne
  obtain ⟨e, he⟩ := main (by omega)
  rw [he] at hok
  cases hok

/-- Witness for C10: at width 8, a height-1 root with an empty node is
rejected, while the canonical height-0 empty root loads. -/
theorem C10_witness :
    ((pnode.mk [0] [] []).links = [] ∧
     0 < (1 : Nat) ∧
     (∃ e, LoadAMT 8 ⟨1, 0, pnode.mk [0] [] []⟩ = .error e)) ∧
    LoadAMT 8 ⟨0, 0, pnode.mk [0] [] []⟩ = .ok ⟨8, 0, 0, node.mk [] []⟩ := by
  refine ⟨⟨rfl, by omega, ?_⟩, rfl⟩
  exact (C10_load_empty_height 8 ⟨1, 0, pnode.mk [0] [] []⟩ rfl rfl).1 (by decide)

/-! ### Decoding-loop lemmas -/

theorem scatterVals_count (bmap : List Nat) (vals : List Bytes) :
    ∀ togo x i arr iF, scatterVals bmap vals togo x i = .ok (arr, iF) →
      iF = i + ((List.range' x togo).filter (fun k => bmapTest bmap k)).length ∧
      arr.length = togo := by
  intro togo
  induction togo with
  | zero =>
    intro x i arr iF h
    rw [scatterVals] at h
    cases h
    simp
  | succ togo ih =>
    intro x i arr iF h
    rw [scatterVals] at h
    rw [List.range'_succ, List.filter_cons]
    by_cases hb : bmapTest bmap x = true
    · rw [if_pos hb] at h
      by_cases hlen : i < vals.length
      · rw [if_pos hlen] at h
        cases hrec : scatterVals bmap vals togo (x + 1) (i + 1) with
        | error e =>
          rw [hrec] at h
          cases h
        | ok p =>
          obtain ⟨rest, iF2⟩ := p
          rw [hrec] at h
          cases h
          obtain ⟨h1, h2⟩ := ih (x + 1) (i + 1) rest _ hrec
          rw [hb]
          simp only [if_true, List.length_cons]
          constructor
          · omega
          · simp [h2]
      · rw [if_neg hlen] at h
        cases h
    · rw [if_neg hb] at h
      cases hrec : scatterVals bmap vals togo (x + 1) i with
      | error e =>
        rw [hrec] at h
        cases h
      | ok p =>
        obtain ⟨rest, iF2⟩ := p
        rw [hrec] at h
        cases h
        obtain ⟨h1, h2⟩ := ih (x + 1) i rest _ hrec
        rw [Bool.not_eq_true] at hb
        rw [hb]
        simp only [Bool.false_eq_true, if_false, List.length_cons]
        constructor
        · omega
        · simp [h2]

theorem scatterLinks_facts (bmap : List Nat) (links : List (Option cidT)) :
    ∀ togo x i arr iF, scatterLinks bmap links togo x i = .ok (arr, iF) →
      iF = i + ((List.range' x togo).filter (fun k => bmapTest bmap k)).length ∧
      arr.length = togo ∧
      ∀ j, i ≤ j → j < iF →
        ∃ c, links.getD j none = some c ∧ c.codec = dagCBOR := by
  intro togo
  induction togo with
  | zero =>
    intro x i arr iF h
    rw [scatterLinks] at h
    cases h
    refine ⟨by simp, rfl, ?_⟩
    intro j h1 h2
    omega
  | succ togo ih =>
    intro x i arr iF h
    rw [scatterLinks] at h
    rw [List.range'_succ, List.filter_cons]
    by_cases hb : bmapTest bmap x = true
    · rw [if_pos hb] at h
      by_cases hlen : i < links.length
      · rw [if_pos hlen] at h
        cases hget : links.getD i none with
        | none =>
          rw [hget] at h
          cases h
        | some c =>
          simp only [hget] at h
          by_cases hcodec : c.codec ≠ dagCBOR
          · rw [if_pos hcodec] at h
            cases h
          · rw [if_neg hcodec] at h
            cases hrec : scatterLinks bmap links togo (x + 1) (i + 1) with
            | error e =>
              rw [hrec] at h
              cases h
            | ok p =>
              obtain ⟨rest, iF2⟩ := p
              rw [hrec] at h
              cases h
              obtain ⟨h1, h2, h3⟩ := ih (x + 1) (i + 1) rest _ hrec
              rw [hb]
              simp only [if_true, List.length_cons]
              refine ⟨by omega, by simp [h2], ?_⟩
              intro j hj1 hj2
              by_cases hji : j = i
              · subst hji
                exact ⟨c, hget, by omega⟩
              · exact h3 j (by omega) hj2
      · rw [if_neg hlen] at h
        cases h
    · rw [if_neg hb] at h
      cases hrec : scatterLinks bmap links togo (x + 1) i with
      | error e =>
        rw [hrec] at h
        cases h
      | ok p =>
        obtain ⟨rest, iF2⟩ := p
        rw [hrec] at h
        cases h
        obtain ⟨h1, h2, h3⟩ := ih (x + 1) i rest _ hrec
        rw [Bool.not_eq_true] at hb
        rw [hb]
        simp only [Bool.false_eq_true, if_false, List.length_cons]
        exact ⟨by omega, by simp [h2], h3⟩

theorem checkBmap_ok_facts (bf : List Nat) (W : Nat) (h : checkBmap bf W = .ok ()) :
    bf.length = bmapBytes W ∧ ∀ k, W ≤ k → bmapTest bf k = false := by
  rw [checkBmap] at h
  by_cases hlen : bf.length ≠ bmapBytes W
  · rw [if_pos hlen] at h
    cases h
  · rw [if_neg hlen] at h
    have hlen2 : bf.length = bmapBytes W := by omega
    refine ⟨hlen2, ?_⟩
    intro k hk
    by_cases hbig : bf.length ≤ k / 8
    · rw [bmapTest_eq_testBit, List.getD_eq_default bf 0 hbig, Nat.zero_testBit]
    · have hin : k / 8 < bf.length := by omega
      have hrem : W % 8 ≠ 0 := by
        rw [hlen2, bmapBytes] at hin
        omega
      rw [if_neg hrem] at h
      by_cases hset : 0 < (bf.getD (bf.length - 1) 0) &&& (255 ^^^ (255 >>> (8 - W % 8)))
      · rw [if_pos hset] at h
        cases h
      · have hzero : (bf.getD (bf.length - 1) 0) &&& (255 ^^^ (255 >>> (8 - W % 8))) = 0 := by
          omega
        have hdiv : k / 8 = bf.length - 1 := by
          rw [hlen2, bmapBytes] at hin ⊢
          omega
        rw [bmapTest_eq_testBit, hdiv]
        by_contra htrue
        rw [Bool.not_eq_false] at htrue
        have hmaskbit : ((255 : Nat) ^^^ (255 >>> (8 - W % 8))).testBit (k % 8) = true := by
          have h255 : (255 : Nat) = 2 ^ 8 - 1 := by norm_num
          rw [Nat.testBit_xor, Nat.testBit_shiftRight, h255,
            Nat.testBit_two_pow_sub_one, Nat.testBit_two_pow_sub_one]
          have hmod : W % 8 ≤ k % 8 := by
            rw [hlen2, bmapBytes] at hdiv
            omega
          rw [decide_eq_true (by omega : k % 8 < 8)]
          rw [decide_eq_false (by omega : ¬ (8 - W % 8 + k % 8 < 8))]
          rfl
        have hand : ((bf.getD (bf.length - 1) 0) &&&
            (255 ^^^ (255 >>> (8 - W % 8)))).testBit (k % 8) = true := by
          rw [Nat.testBit_and, htrue, hmaskbit]
          rfl
        rw [hzero, Nat.zero_testBit] at hand
        cases hand

theorem newNode_ok_facts (nd : pnode) (W : Nat) (ae el : Bool) (n : node)
    (h : newNode nd W ae el = .ok n) :
    ¬(0 < nd.links.length ∧ 0 < nd.values.length) ∧
    checkBmap nd.bmap W = .ok () ∧
    (0 < nd.values.length → nd.values.length = bmapCount W nd.bmap) ∧
    (0 < nd.links.length → nd.links.length = bmapCount W nd.bmap ∧
      ∀ j, j < nd.links.length →
        ∃ c, nd.links.getD j none = some c ∧ c.codec = dagCBOR) := by
  rw [newNode] at h
  by_cases h1 : 0 < nd.links.length ∧ 0 < nd.values.length
  · rw [if_pos h1] at h
    cases h
  · rw [if_neg h1] at h
    cases hc : checkBmap nd.bmap W with
    | error e =>
      rw [hc] at h
      cases h
    | ok u =>
      cases u
      simp only [hc] at h
      refine ⟨h1, rfl, ?_, ?_⟩
      · intro hv
        rw [if_pos hv] at h
        by_cases hel : (!el) = true
        · rw [if_pos hel] at h
          cases h
        · rw [if_neg hel] at h
          cases hs : scatterVals nd.bmap nd.values W 0 0 with
          | error e =>
            rw [hs] at h
            cases h
          | ok p =>
            obtain ⟨arr, iF⟩ := p
            simp only [hs] at h
            by_cases hmis : iF ≠ nd.values.length
            · rw [if_pos hmis] at h
              cases h
            · obtain ⟨hcount, _⟩ := scatterVals_count nd.bmap nd.values W 0 0 arr iF hs
              rw [bmapCount, List.range_eq_range']
              omega
      · intro hl
        have hv : ¬ 0 < nd.values.length := fun hv => h1 ⟨hl, hv⟩
        rw [if_neg hv, if_pos hl] at h
        by_cases hel : el = true
        · rw [if_pos hel] at h
          cases h
        · rw [if_neg hel] at h
          cases hs : scatterLinks nd.bmap nd.links W 0 0 with
          | error e =>
            rw [hs] at h
            cases h
          | ok p =>
            obtain ⟨arr, iF⟩ := p
            simp only [hs] at h
            by_cases hmis : iF ≠ nd.links.length
            · rw [if_pos hmis] at h
              cases h
            · obtain ⟨hcount, _, hentries⟩ :=
                scatterLinks_facts nd.bmap nd.links W 0 0 arr iF hs
              rw [bmapCount, List.range_eq_range']
              refine ⟨by omega, ?_⟩
              intro j hj
              exact hentries j (by omega) (by omega)

theorem load_ok_facts (W : Nat) (r : proot) (rt : Root) (h : LoadAMT W r = .ok rt) :
    r.height ≤ 64 ∧
    ¬(nodesForHeight W (r.height + 1) = uMax ∧ nodesForHeight W r.height = uMax) ∧
    r.count ≤ nodesForHeight W (r.height + 1) ∧
    newNode r.node W (r.height == 0) (r.height == 0) = .ok rt.node ∧
    rt = ⟨W, r.height, r.count, rt.node⟩ := by
  rw [LoadAMT] at h
  by_cases h64 : 64 < r.height
  · rw [if_pos h64] at h
    cases h
  · rw [if_neg h64] at h
    by_cases himp : nodesForHeight W (r.height + 1) = uMax ∧
        nodesForHeight W r.height = uMax
    · rw [if_pos himp] at h
      cases h
    · rw [if_neg himp] at h
      by_cases hcnt : nodesForHeight W (r.height + 1) < r.count
      · rw [if_pos hcnt] at h
        cases h
      · rw [if_neg hcnt] at h
        cases hn : newNode r.node W (r.height == 0) (r.height == 0) with
        | error e =>
          rw [hn] at h
          cases h
        | ok nd =>
          rw [hn] at h
          cases h
          exact ⟨by omega, himp, by omega, rfl, rfl⟩

/-- Claim C7, counterexample: a height-0 root whose bitmap has bit 0
set while both vectors are empty loads successfully (the decoder treats
both-empty vectors as the allowed empty node before ever comparing
vector lengths against the bitmap), although the values vector length 0
differs from the one set bitmap bit. -/
theorem C7_counterexample :
    bmapTest [1] 0 = true ∧ (pnode.mk [1] [] []).values.length = 0 ∧
    bmapCount 8 [1] = 1 ∧
    LoadAMT 8 ⟨0, 0, pnode.mk [1] [] []⟩ = .ok ⟨8, 0, 0, node.mk [] []⟩ := by
  exact ⟨by decide, rfl, by decide, rfl⟩

/-- Claim C7 (amended): `LoadAMT` rejects every persisted root record
with: height above 64; both `capacity(height)` and `capacity(height+1)`
saturated; count above `capacity(height+1)`; both links and values
non-empty; a bitmap of the wrong byte length or with a bit set at or
beyond the width; a non-empty links or values vector whose length
differs from the number of set bitmap bits; or a link that is undefined
or whose codec is not DagCBOR.  The amendment: the vector-length check
applies only to a non-empty vector — a record whose links and values
are both empty is accepted at height 0 whatever its bitmap bits (see
the counterexample). -/
theorem C7_load_rejects_amended (W : Nat) (r : proot)
    (hm : 64 < r.height ∨
      (nodesForHeight W (r.height + 1) = uMax ∧ nodesForHeight W r.height = uMax) ∨
      nodesForHeight W (r.height + 1) < r.count ∨
      (0 < r.node.links.length ∧ 0 < r.node.values.length) ∨
      r.node.bmap.length ≠ bmapBytes W ∨
      (∃ k, W ≤ k ∧ bmapTest r.node.bmap k = true) ∨
      (0 < r.node.values.length ∧ r.node.values.length ≠ bmapCount W r.node.bmap) ∨
      (0 < r.node.links.length ∧ r.node.links.length ≠ bmapCount W r.node.bmap) ∨
      (∃ j, j < r.node.links.length ∧
        (r.node.links.getD j none = none ∨
         ∃ c, r.node.links.getD j none = some c ∧ c.codec ≠ dagCBOR))) :
    ∃ e, LoadAMT W r = .error e := by
  cases hres : LoadAMT W r with
  | error e => exact ⟨e, rfl⟩
  | ok rt =>
    exfalso
    obtain ⟨h64, himp, hcnt, hnn, _⟩ := load_ok_facts W r rt hres
    obtain ⟨hboth, hbm, hvals, hlinks⟩ := newNode_ok_facts _ _ _ _ _ hnn
    obtain ⟨hlen, hbits⟩ := checkBmap_ok_facts _ _ hbm
    rcases hm with h | h | h | h | h | h | h | h | h
    · omega
    · exact himp h
    · omega
    · exact hboth h
    · exact h hlen
    · obtain ⟨k, hk1, hk2⟩ := h
      rw [hbits k hk1] at hk2
      cases hk2
    · exact h.2 (hvals h.1)
    · exact h.2 (hlinks h.1).1
    · obtain ⟨j, hj, hcase⟩ := h
      obtain ⟨c, hc1, hc2⟩ := (hlinks (by omega)).2 j hj
      rcases hcase with h0 | ⟨c2, hc3, hc4⟩
      · rw [hc1] at h0
        cases h0
      · rw [hc1] at hc3
        cases hc3
        exact hc4 hc2

/-- Witness for C7's amended theorem: a root of height 65 is rejected,
and (spec boundary scenario 6) at width 6 a bitmap byte `0xFF` has bit
6 set at position ≥ 6, so that record is rejected too. -/
theorem C7_amended_witness :
    (64 < (65 : Nat) ∧ (∃ e, LoadAMT 8 ⟨65, 0, pnode.mk [1] [] []⟩ = .error e)) ∧
    ((6 : Nat) ≤ 6 ∧ bmapTest [255] 6 = true ∧
     (∃ e, LoadAMT 6 ⟨0, 0, pnode.mk [255] [] []⟩ = .error e)) := by
  refine ⟨⟨by omega, ?_⟩, by omega, by decide, ?_⟩
  · exact C7_load_rejects_amended 8 _ (Or.inl (by decide))
  · exact C7_load_rejects_amended 6 _ (Or.inr (Or.inr (Or.inr (Or.inr (Or.inr
      (Or.inl ⟨6, by omega, by decide⟩))))))

/-! ### Set-failure atomicity (claim C9) -/

theorem getD_some_facts {a : Type} :
    ∀ (l : List (Option a)) (i : Nat) (x : a),
      l.getD i none = some x → i < l.length ∧ some x ∈ l := by
  intro l
  induction l with
  | nil =>
    intro i x h
    cases i <;> simp [List.getD] at h
  | cons hd tl ih =>
    intro i x h
    cases i with
    | zero =>
      rw [List.getD_cons_zero] at h
      exact ⟨by simp, by rw [h]; exact List.mem_cons_self _ _⟩
    | succ j =>
      rw [List.getD_cons_succ] at h
      obtain ⟨h1, h2⟩ := ih j x h
      exact ⟨by simpa using h1, List.mem_cons_of_mem _ h2⟩

theorem node_links_mk (ls : List (Option link)) (vs : List (Option Bytes)) :
    (node.mk ls vs).links = ls := rfl

theorem node_values_mk (ls : List (Option link)) (vs : List (Option Bytes)) :
    (node.mk ls vs).values = vs := rfl

theorem link_cid_mk (c : Option cidT) (ca : Option node) (d : Bool) :
    (link.mk c ca d).cid = c := rfl

theorem link_cached_mk (c : Option cidT) (ca : Option node) (d : Bool) :
    (link.mk c ca d).cached = ca := rfl

theorem link_dirty_mk (c : Option cidT) (ca : Option node) (d : Bool) :
    (link.mk c ca d).dirty = d := rfl

theorem isEmpty_set {a : Type} (l : List a) (j : Nat) (x : a) :
    (l.set j x).isEmpty = l.isEmpty := by
  cases l with
  | nil => rfl
  | cons hd tl => cases j <;> rfl

theorem map_set_eq {a b : Type} :
    ∀ (l : List a) (i : Nat) (x d : a) (f : a → b),
      i < l.length → f x = f (l.getD i d) → (l.set i x).map f = l.map f := by
  intro l
  induction l with
  | nil => intro i x d f h1 _; exact absurd h1 (by simp)
  | cons hd tl ih =>
    intro i x d f h1 hf
    cases i with
    | zero =>
      rw [List.getD_cons_zero] at hf
      simp only [List.set_cons_zero, List.map_cons, hf]
    | succ j =>
      rw [List.getD_cons_succ] at hf
      simp only [List.set_cons_succ, List.map_cons]
      rw [ih j x d f (by simpa using h1) hf]

theorem setLink_twice (W : Nat) (n : node) (j : Nat) (l1 l2 : Option link)
    (hne : n.links.isEmpty = false) :
    (n.setLink W j l1).setLink W j l2 = node.mk (n.links.set j l2) n.values := by
  have h1 : n.setLink W j l1 = node.mk (n.links.set j l1) n.values := by
    rw [node.setLink, if_neg (by rw [hne]; exact Bool.false_ne_true)]
  have h2 : (n.links.set j l1).isEmpty = false := by rw [isEmpty_set, hne]
  rw [h1, node.setLink]
  simp only [node_links_mk, node_values_mk]
  rw [if_neg (by rw [h2]; exact Bool.false_ne_true), List.set_set]

/-- Overwriting slot `j` (twice, as the failed descent does) with a link
whose CID and dirty flag match the old one, and whose cache erases
equally when the link is dirty, leaves the erased tree unchanged. -/
theorem eraseClean_set_slot (W h : Nat) (n : node) (j : Nat) (l0 l1 l2 : link)
    (hj : n.getLink j = some l1)
    (hcid : l2.cid = l1.cid) (hdirty : l2.dirty = l1.dirty)
    (hcache : l1.dirty = true →
      l2.cached.map (eraseClean h) = l1.cached.map (eraseClean h)) :
    eraseClean (h + 1) ((n.setLink W j (some l0)).setLink W j (some l2)) =
      eraseClean (h + 1) n := by
  have hj' : n.links.getD j none = some l1 := hj
  obtain ⟨hlt, hmem⟩ := getD_some_facts n.links j l1 hj'
  have hne : n.links.isEmpty = false := by
    cases hnl : n.links with
    | nil => rw [hnl] at hlt; exact absurd hlt (by simp)
    | cons a l => rfl
  rw [setLink_twice W n j (some l0) (some l2) hne]
  simp only [eraseClean, node_links_mk, node_values_mk]
  congr 1
  refine map_set_eq n.links j (some l2) none _ hlt ?_
  rw [hj']
  show (if l2.dirty then some (link.mk l2.cid (l2.cached.map (eraseClean h)) true)
        else some (link.mk l2.cid none false)) =
       (if l1.dirty then some (link.mk l1.cid (l1.cached.map (eraseClean h)) true)
        else some (link.mk l1.cid none false))
  rw [hcid, hdirty]
  cases hd : l1.dirty with
  | false => rfl
  | true => rw [if_pos rfl, if_pos rfl, hcache hd]

/-- A failed `set` descent changes the tree only by filling caches:
under the dirty-links-are-cached invariant, the clean-cache erasures of
the before and after trees coincide. -/
theorem set_error_eraseClean (avail : Store) (W : Nat) :
    ∀ h n i v n' e, dirtyCachedInv h n →
      node.set avail W h n i v = (n', .error e) →
      eraseClean h n' = eraseClean h n := by
  intro h
  induction h with
  | zero =>
    intro n i v n' e _ hset
    rw [node.set] at hset
    simp [Prod.ext_iff] at hset
  | succ h ih =>
    intro n i v n' e hinv hset
    rw [node.set] at hset
    cases hln : n.getLink (i / nodesForHeight W (h + 1)) with
    | none =>
      obtain ⟨n2, hs2⟩ := set_empty_added avail W h (node.mk [] [])
        (i % nodesForHeight W (h + 1)) v rfl
      simp only [hln, Option.getD_none, Option.isSome_none, link.load, link.cached] at hset
      rw [hs2] at hset
      simp [Prod.ext_iff] at hset
    | some ln =>
      have hj' : n.links.getD (i / nodesForHeight W (h + 1)) none = some ln := hln
      obtain ⟨hlt, hmem⟩ := getD_some_facts n.links (i / nodesForHeight W (h + 1)) ln hj'
      have hinvln := hinv ln hmem
      cases hcache : ln.cached with
      | some c =>
        simp only [hln, Option.getD_some, Option.isSome_some] at hset
        rw [link.load, hcache] at hset
        simp at hset
        rcases hrec : node.set avail W h c (i % nodesForHeight W (h + 1)) v with ⟨subn', res⟩
        rw [hrec] at hset
        cases res with
        | ok added => simp [Prod.ext_iff] at hset
        | error e2 =>
          simp [Prod.ext_iff] at hset
          rw [← hset.1]
          exact eraseClean_set_slot W h n _ ln ln (link.mk ln.cid (some subn') ln.dirty)
            hln rfl rfl
            (fun _ => by
              rw [hcache]
              show some (eraseClean h subn') = some (eraseClean h c)
              rw [ih c _ v subn' e2 (hinvln.2 c hcache) hrec])
      | none =>
        have hd : ln.dirty = false := by
          cases hdd : ln.dirty
          · rfl
          · exact absurd hcache (hinvln.1 hdd)
        simp only [hln, Option.getD_some, Option.isSome_some] at hset
        cases hcid : ln.cid with
        | none =>
          simp [link.load, hcache, hcid, Prod.ext_iff] at hset
          rw [← hset.1]
        | some cc =>
          by_cases hav : avail cc = true
          · cases hnew : newNode cc.data W false (h == 0) with
            | error e3 =>
              simp [link.load, hcache, hcid, hav, hnew, Prod.ext_iff] at hset
              rw [← hset.1]
            | ok sub =>
              simp [link.load, hcache, hcid, hd, hav, hnew] at hset
              rcases hrec : node.set avail W h sub (i % nodesForHeight W (h + 1)) v with ⟨subn', res⟩
              rw [hrec] at hset
              cases res with
              | ok added => simp [Prod.ext_iff] at hset
              | error e2 =>
                simp [Prod.ext_iff] at hset
                rw [← hset.1]
                exact eraseClean_set_slot W h n _ (link.mk (some cc) (some sub) false) ln
                  (link.mk (some cc) (some subn') false) hln
                  (by rw [link_cid_mk, hcid]) (by rw [link_dirty_mk, hd])
                  (fun hdd => by simp [hd] at hdd)
          · simp [link.load, hcache, hcid, hav, Prod.ext_iff] at hset
            rw [← hset.1]

/-- An erroring `Root.Set` leaves the element count unchanged. -/
theorem rootSet_error_count (avail : Store) (r : Root) (i : Nat) (v : Bytes)
    (r' : Root) (e : Err) (h : Root.Set avail r i v = (r', .error e)) :
    r'.count = r.count := by
  rw [Root.Set] at h
  by_cases hoor : MaxIndex < i
  · rw [if_pos hoor] at h
    injection h with h1 _
    rw [← h1]
  · rw [if_neg hoor] at h
    rcases hg : growLoop r.width i 64 r.height r.node with ⟨h2, n2⟩
    rcases hrec : node.set avail r.width h2 n2 i v with ⟨n3, res⟩
    simp only [hg] at h
    simp only [hrec] at h
    cases res with
    | error e2 =>
      simp only [] at h
      injection h with h1 _
      rw [← h1]
    | ok added =>
      cases added with
      | false => simp at h
      | true =>
        simp only [] at h
        by_cases hcnt : MaxIndex - 1 ≤ r.count
        · rw [if_pos trivial, if_pos hcnt] at h
          injection h with h1 _
          rw [← h1]
        · rw [if_pos trivial, if_neg hcnt] at h
          injection h with _ h2
          injection h2

/-- Claim C9: set-failure atomicity.  If the descent of `set` fails
because a linked child cannot be loaded from the store, the tree comes
back unchanged up to cache fills on clean links: erasing those caches
(`eraseClean`) yields exactly the erasure of the original tree — no new
link attached, no link newly marked dirty, no value stored, no dirty
subtree modified.  The hypothesis is the invariant that a dirty link
always carries its cached child (which `flush` demands and every
operation maintains).  At the root, a failed `Set` also leaves the
element count unchanged. -/
theorem C9_set_error_atomic :
    (∀ (avail : Store) (W h : Nat) (n : node) (i : Nat) (v : Bytes) (n' : node) (e : Err),
        dirtyCachedInv h n →
        node.set avail W h n i v = (n', .error e) →
        eraseClean h n' = eraseClean h n) ∧
    (∀ (avail : Store) (r : Root) (i : Nat) (v : Bytes) (r' : Root) (e : Err),
        Root.Set avail r i v = (r', .error e) → r'.count = r.count) :=
  ⟨fun avail W h n i v n' e hinv hs => set_error_eraseClean avail W h n i v n' e hinv hs,
   fun avail r i v r' e hs => rootSet_error_count avail r i v r' e hs⟩

/-- Witness for C9: width 2, height 2, a store holding only the middle
block.  The descent loads the middle node, caches it on the root's
clean link, then fails on the missing grandchild block; the returned
tree differs from the original (the cache fill) but erases back to it,
and the failed `Root.Set` leaves the count at 1. -/
theorem C9_set_error_atomic_witness :
    dirtyCachedInv 2 c9node ∧
    node.set c9store 2 2 c9node 0 [7] = (c9filled, .error .storeNotFound) ∧
    eraseClean 2 c9filled = eraseClean 2 c9node ∧
    c9filled ≠ c9node ∧
    Root.Set c9store c9root 0 [7] = (⟨2, 2, 1, c9filled⟩, .error .storeNotFound) ∧
    (⟨2, 2, 1, c9filled⟩ : Root).count = c9root.count := by
  have hinv : dirtyCachedInv 2 c9node := by
    intro l hl
    simp only [c9node, node_links_mk, List.mem_singleton, Option.some.injEq] at hl
    subst hl
    refine ⟨fun hdd => ?_, fun sub hsub => ?_⟩
    · exact absurd hdd (by simp [link_dirty_mk])
    · exact absurd hsub (by simp [link_cached_mk])
  have hset : node.set c9store 2 2 c9node 0 [7] = (c9filled, .error .storeNotFound) := by rfl
  have hroot : Root.Set c9store c9root 0 [7] =
      (⟨2, 2, 1, c9filled⟩, .error .storeNotFound) := by rfl
  exact ⟨hinv, hset,
    C9_set_error_atomic.1 c9store 2 2 c9node 0 [7] c9filled .storeNotFound hinv hset,
    by intro hh; simp [c9filled, c9node] at hh,
    hroot,
    C9_set_error_atomic.2 c9store c9root 0 [7] ⟨2, 2, 1, c9filled⟩ .storeNotFound hroot⟩

/-! ### Capacity bounds at power-of-two widths -/

theorem nodesForHeight_pos (w h : Nat) : 1 ≤ nodesForHeight (2 ^ w) h := by
  rw [nodesForHeight_two_pow]
  by_cases hs : 2 ^ (w * h) < 2 ^ 64
  · rw [if_pos hs]
    exact Nat.one_le_two_pow
  · rw [if_neg hs, uMax]
    omega

theorem nodesForHeight_le_pow (w h : Nat) :
    nodesForHeight (2 ^ w) h ≤ 2 ^ (w * h) := by
  rw [nodesForHeight_two_pow]
  by_cases hs : 2 ^ (w * h) < 2 ^ 64
  · rw [if_pos hs]
  · rw [if_neg hs, uMax]
    omega

theorem nodesForHeight_le_uMax (w h : Nat) : nodesForHeight (2 ^ w) h ≤ uMax := by
  rw [nodesForHeight_two_pow]
  by_cases hs : 2 ^ (w * h) < 2 ^ 64
  · rw [if_pos hs, uMax]
    omega
  · rw [if_neg hs]

theorem nodesForHeight_mono_h (w : Nat) {h1 h2 : Nat} (hle : h1 ≤ h2) :
    nodesForHeight (2 ^ w) h1 ≤ nodesForHeight (2 ^ w) h2 := by
  rw [nodesForHeight_two_pow, nodesForHeight_two_pow]
  by_cases hs1 : 2 ^ (w * h1) < 2 ^ 64
  · rw [if_pos hs1]
    by_cases hs2 : 2 ^ (w * h2) < 2 ^ 64
    · rw [if_pos hs2]
      exact Nat.pow_le_pow_right (by omega) (Nat.mul_le_mul_left _ hle)
    · rw [if_neg hs2, uMax]
      omega
  · rw [if_neg hs1]
    have hs2 : ¬ 2 ^ (w * h2) < 2 ^ 64 := by
      intro hlt
      exact hs1 ((Nat.pow_le_pow_right (by omega)
        (Nat.mul_le_mul_left _ hle)).trans_lt hlt)
    rw [if_neg hs2]

/-- The top-level slot index of an in-capacity key is below the width. -/
theorem div_lt_width (w h i : Nat) (hi : i < nodesForHeight (2 ^ w) (h + 2)) :
    i / nodesForHeight (2 ^ w) (h + 1) < 2 ^ w := by
  by_cases hs : 64 ≤ w * (h + 1)
  · rw [nodesForHeight_sat w (h + 1) hs]
    have hiu : i < uMax := hi.trans_le (nodesForHeight_le_uMax w (h + 2))
    rw [Nat.div_eq_of_lt hiu]
    positivity
  · have hlt : 2 ^ (w * (h + 1)) < 2 ^ 64 :=
      Nat.pow_lt_pow_right (by omega) (by omega)
    rw [nodesForHeight_eq_pow w (h + 1) hlt]
    rw [Nat.div_lt_iff_lt_mul (by positivity)]
    have h2 : (2 : Nat) ^ w * 2 ^ (w * (h + 1)) = 2 ^ (w * (h + 2)) := by
      rw [← Nat.pow_add]
      congr 1
      ring
    calc i < nodesForHeight (2 ^ w) (h + 2) := hi
      _ ≤ 2 ^ (w * (h + 2)) := nodesForHeight_le_pow w (h + 2)
      _ = 2 ^ w * 2 ^ (w * (h + 1)) := h2.symm

/-! ### Shape of decoded and grown nodes -/

theorem scatterLinks_uncached (bmap : List Nat) (links : List (Option cidT)) :
    ∀ togo x i arr iF, scatterLinks bmap links togo x i = .ok (arr, iF) →
      ∀ l, some l ∈ arr → l.cached = none := by
  intro togo
  induction togo with
  | zero =>
    intro x i arr iF h l hl
    rw [scatterLinks] at h
    cases h
    exact absurd hl (List.not_mem_nil _)
  | succ togo ih =>
    intro x i arr iF h l hl
    rw [scatterLinks] at h
    by_cases hb : bmapTest bmap x = true
    · rw [if_pos hb] at h
      by_cases hlen : i < links.length
      · rw [if_pos hlen] at h
        cases hget : links.getD i none with
        | none =>
          rw [hget] at h
          cases h
        | some c =>
          simp only [hget] at h
          by_cases hcodec : c.codec ≠ dagCBOR
          · rw [if_pos hcodec] at h
            cases h
          · rw [if_neg hcodec] at h
            cases hrec : scatterLinks bmap links togo (x + 1) (i + 1) with
            | error e =>
              rw [hrec] at h
              cases h
            | ok p =>
              obtain ⟨rest, iF2⟩ := p
              rw [hrec] at h
              cases h
              rcases List.mem_cons.mp hl with h1 | h1
              · injection h1 with h1
                rw [h1, link_cached_mk]
              · exact ih (x + 1) (i + 1) rest _ hrec l h1
      · rw [if_neg hlen] at h
        cases h
    · rw [if_neg hb] at h
      cases hrec : scatterLinks bmap links togo (x + 1) i with
      | error e =>
        rw [hrec] at h
        cases h
      | ok p =>
        obtain ⟨rest, iF2⟩ := p
        rw [hrec] at h
        cases h
        rcases List.mem_cons.mp hl with h1 | h1
        · exact Option.noConfusion h1
        · exact ih (x + 1) i rest _ hrec l h1

theorem lenWF_empty (W : Nat) : ∀ h, lenWF W h (node.mk [] []) := by
  intro h
  cases h with
  | zero => exact ⟨Or.inl rfl, rfl⟩
  | succ h2 =>
    refine ⟨Or.inl rfl, ?_⟩
    intro l hl sub hsub
    exact absurd hl (List.not_mem_nil _)

theorem node_empty_no_link (n : node) (he : n.empty = true) (l : link)
    (hl : some l ∈ n.links) : False := by
  rw [node.empty, Bool.and_eq_true] at he
  have := List.all_eq_true.mp he.1 (some l) hl
  simp at this

/-- A decoded node satisfies the length invariant at the height it was
requested for (`expectLeaf` is `height == 0`). -/
theorem newNode_lenWF (nd : pnode) (w h : Nat) (ae : Bool) (n : node)
    (hok : newNode nd (2 ^ w) ae (h == 0) = .ok n) : lenWF (2 ^ w) h n := by
  rw [newNode] at hok
  by_cases h1 : 0 < nd.links.length ∧ 0 < nd.values.length
  · rw [if_pos h1] at hok
    cases hok
  · rw [if_neg h1] at hok
    cases hc : checkBmap nd.bmap (2 ^ w) with
    | error e =>
      rw [hc] at hok
      cases hok
    | ok u =>
      cases u
      simp only [hc] at hok
      cases h with
      | zero =>
        by_cases hv : 0 < nd.values.length
        · rw [if_pos hv] at hok
          rw [if_neg (by decide)] at hok
          cases hs : scatterVals nd.bmap nd.values (2 ^ w) 0 0 with
          | error e =>
            rw [hs] at hok
            cases hok
          | ok p =>
            obtain ⟨arr, iF⟩ := p
            simp only [hs] at hok
            by_cases hmis : iF ≠ nd.values.length
            · rw [if_pos hmis] at hok
              cases hok
            · rw [if_neg hmis] at hok
              cases hok
              obtain ⟨-, hlen⟩ := scatterVals_count nd.bmap nd.values (2 ^ w) 0 0 arr iF hs
              exact ⟨Or.inr (by rw [node_values_mk, hlen]), by rw [node_links_mk]; rfl⟩
        · rw [if_neg hv] at hok
          by_cases hl : 0 < nd.links.length
          · rw [if_pos hl, if_pos (by decide)] at hok
            cases hok
          · rw [if_neg hl] at hok
            by_cases hae : (!ae) = true
            · rw [if_pos hae] at hok
              cases hok
            · rw [if_neg hae] at hok
              cases hok
              exact ⟨Or.inl rfl, rfl⟩
      | succ h2 =>
        have hbf : ((h2 + 1 : Nat) == 0) = false := rfl
        rw [hbf] at hok
        by_cases hv : 0 < nd.values.length
        · rw [if_pos hv, if_pos (by decide)] at hok
          cases hok
        · rw [if_neg hv] at hok
          by_cases hl : 0 < nd.links.length
          · rw [if_pos hl, if_neg (by decide)] at hok
            cases hs : scatterLinks nd.bmap nd.links (2 ^ w) 0 0 with
            | error e =>
              rw [hs] at hok
              cases hok
            | ok p =>
              obtain ⟨arr, iF⟩ := p
              simp only [hs] at hok
              by_cases hmis : iF ≠ nd.links.length
              · rw [if_pos hmis] at hok
                cases hok
              · rw [if_neg hmis] at hok
                cases hok
                refine ⟨Or.inr ?_, ?_⟩
                · obtain ⟨-, hlen, -⟩ :=
                    scatterLinks_facts nd.bmap nd.links (2 ^ w) 0 0 arr iF hs
                  rw [node_links_mk, hlen]
                · intro l hl2 sub hsub
                  rw [node_links_mk] at hl2
                  have := scatterLinks_uncached nd.bmap nd.links (2 ^ w) 0 0 arr iF hs l hl2
                  rw [this] at hsub
                  cases hsub
          · rw [if_neg hl] at hok
            by_cases hae : (!ae) = true
            · rw [if_pos hae] at hok
              cases hok
            · rw [if_neg hae] at hok
              cases hok
              exact lenWF_empty (2 ^ w) (h2 + 1)

/-- A successfully loaded child satisfies the length invariant at its
height, provided cached children already did. -/
theorem load_lenWF (avail : Store) (w h : Nat) (ln : link) (subn : node) (ln' : link)
    (hl : link.load avail (2 ^ w) h ln = .ok (subn, ln'))
    (hc : ∀ sub, ln.cached = some sub → lenWF (2 ^ w) h sub) :
    lenWF (2 ^ w) h subn := by
  rw [link.load] at hl
  cases hcc : ln.cached with
  | some c0 =>
    rw [hcc] at hl
    cases hl
    exact hc _ hcc
  | none =>
    rw [hcc] at hl
    cases hcid : ln.cid with
    | none =>
      rw [hcid] at hl
      cases hl
    | some c =>
      rw [hcid] at hl
      simp only [] at hl
      by_cases hav : avail c = true
      · rw [if_pos hav] at hl
        cases hnew : newNode c.data (2 ^ w) false (h == 0) with
        | error e =>
          rw [hnew] at hl
          cases hl
        | ok n2 =>
          rw [hnew] at hl
          cases hl
          exact newNode_lenWF c.data w h false _ hnew
      · rw [if_neg hav] at hl
        cases hl

/-! ### Growth-loop shape and invariant lemmas -/

theorem mem_set_replicate {a : Type} (W j : Nat) (x y d : a)
    (hm : y ∈ (List.replicate W d).set j x) : y = x ∨ y = d := by
  rcases List.mem_or_eq_of_mem_set hm with h | h
  · exact Or.inr (List.eq_of_mem_replicate h)
  · exact Or.inl h

theorem growLoop_lenWF (w i : Nat) :
    ∀ fuel h n, lenWF (2 ^ w) h n →
      lenWF (2 ^ w) (growLoop (2 ^ w) i fuel h n).1 (growLoop (2 ^ w) i fuel h n).2 := by
  intro fuel
  induction fuel with
  | zero => intro h n hwf; exact hwf
  | succ fuel ih =>
    intro h n hwf
    rw [growLoop]
    by_cases hc : nodesForHeight (2 ^ w) (h + 1) ≤ i
    · rw [if_pos hc]
      by_cases he : n.empty = true
      · rw [if_pos he]
        refine ih (h + 1) n ⟨?_, ?_⟩
        · cases h with
          | zero => exact Or.inl hwf.2
          | succ h2 => exact hwf.1
        · intro l hl sub hsub
          exact absurd (node_empty_no_link n he l hl) (fun f => f)
      · rw [if_neg he]
        refine ih (h + 1) _ ⟨?_, ?_⟩
        · exact Or.inr (by rw [node_links_mk, List.length_set, List.length_replicate])
        · intro l hl sub hsub
          rw [node_links_mk] at hl
          rcases mem_set_replicate (2 ^ w) 0 _ _ _ hl with h1 | h1
          · injection h1 with h1
            rw [h1, link_cached_mk] at hsub
            injection hsub with hsub
            rw [← hsub]
            exact hwf
          · exact Option.noConfusion h1
    · rw [if_neg hc]
      exact hwf

theorem growLoop_noop (W i : Nat) :
    ∀ fuel h n, (growLoop W i fuel h n).1 = h → (growLoop W i fuel h n).2 = n := by
  intro fuel
  induction fuel with
  | zero => intro h n _; rfl
  | succ fuel ih =>
    intro h n hh
    rw [growLoop] at hh ⊢
    simp only [] at hh ⊢
    by_cases hc : nodesForHeight W (h + 1) ≤ i
    · rw [if_pos hc] at hh ⊢
      exfalso
      have h2 := growLoop_height_ge W i fuel (h + 1)
        (if n.empty = true then n
         else node.mk ((List.replicate W (none : Option link)).set 0
           (some (link.mk none (some n) true))) [])
      omega
    · rw [if_neg hc]

/-- The wrapped node built by a growth step is never empty (for a
positive width). -/
theorem grow_wrap_not_empty (W : Nat) (hW : 1 ≤ W) (l : link) :
    (node.mk ((List.replicate W (none : Option link)).set 0 (some l)) []).empty = false := by
  obtain ⟨W2, rfl⟩ : ∃ W2, W = W2 + 1 := ⟨W - 1, by omega⟩
  by_contra hne
  rw [Bool.not_eq_false] at hne
  refine node_empty_no_link _ hne l ?_
  rw [node_links_mk, List.replicate_succ, List.set_cons_zero]
  exact List.mem_cons_self _ _

/-- If the loop grew at all starting from a non-empty node, the result
is a wrap: a single slot-0 link and no values. -/
theorem growLoop_shape_grew (W i : Nat) (hW : 1 ≤ W) :
    ∀ fuel h n, n.empty = false → (growLoop W i fuel h n).1 ≠ h →
      ∃ l, (growLoop W i fuel h n).2 =
        node.mk ((List.replicate W (none : Option link)).set 0 (some l)) [] := by
  intro fuel
  induction fuel with
  | zero => intro h n _ hne; exact absurd rfl hne
  | succ fuel ih =>
    intro h n he hne
    rw [growLoop] at hne ⊢
    by_cases hc : nodesForHeight W (h + 1) ≤ i
    · rw [if_pos hc] at hne ⊢
      simp only [he, Bool.false_eq_true, if_false] at hne ⊢
      by_cases hh2 : (growLoop W i fuel (h + 1)
          (node.mk ((List.replicate W (none : Option link)).set 0
            (some (link.mk none (some n) true))) [])).1 = h + 1
      · rw [growLoop_noop W i fuel (h + 1) _ hh2]
        exact ⟨link.mk none (some n) true, rfl⟩
      · exact ih (h + 1) _ (grow_wrap_not_empty W hW _) hh2
    · rw [if_neg hc] at hne
      exact absurd rfl hne

/-! ### Get after set -/

theorem getLink_setLink_self (W : Nat) (n : node) (j : Nat) (L : link)
    (hwlen : n.links.length = 0 ∨ n.links.length = W) (hj : j < W) :
    (n.setLink W j (some L)).getLink j = some L := by
  rw [node.setLink]
  by_cases hnl : n.links.isEmpty = true
  · rw [if_pos hnl]
    show (node.mk ((List.replicate W (none : Option link)).set j (some L)) n.values).getLink j
      = some L
    rw [node.getLink, node_links_mk]
    exact getD_replicate_set_self W j (some L) none hj
  · rw [if_neg hnl]
    rw [node.getLink, node_links_mk]
    refine getD_set_self n.links j (some L) none ?_
    rcases hwlen with h0 | h0
    · exact absurd (by rw [List.length_eq_zero.mp h0]; rfl) hnl
    · omega

/-- After a successful `set`, `get` of the same key returns exactly the
written bytes, and the returned added flag says whether the key was
previously absent (as observed by `get` on the original tree). -/
theorem set_get_sync (avail : Store) (w : Nat) :
    ∀ h n i v n' added, lenWF (2 ^ w) h n →
      i < nodesForHeight (2 ^ w) (h + 1) →
      node.set avail (2 ^ w) h n i v = (n', .ok added) →
      (node.get avail (2 ^ w) h n' i).2 = .ok (some v) ∧
      ∃ old, (node.get avail (2 ^ w) h n i).2 = .ok old ∧ added = old.isNone := by
  intro h
  induction h with
  | zero =>
    intro n i v n' added hwf hi hset
    have hiW : i < 2 ^ w := by
      have h2 := nodesForHeight_le_pow w 1
      rw [Nat.mul_one] at h2
      have hi' : i < nodesForHeight (2 ^ w) 1 := hi
      omega
    rw [node.set] at hset
    injection hset with h1 h2
    injection h2 with h2
    refine ⟨?_, n.getValue i, rfl, h2.symm⟩
    rw [← h1]
    show Except.ok ((node.setValue (2 ^ w) n i (some v)).getValue i) = .ok (some v)
    rw [node.setValue]
    by_cases hemp : n.values.isEmpty = true
    · rw [if_pos hemp]
      show Except.ok ((node.mk n.links
        ((List.replicate (2 ^ w) none).set i (some v))).getValue i) = .ok (some v)
      rw [node.getValue, node_values_mk, getD_replicate_set_self (2 ^ w) i (some v) none hiW]
    · rw [if_neg hemp]
      have hlen : i < n.values.length := by
        rcases hwf.1 with h0 | h0
        · exact absurd (by rw [List.length_eq_zero.mp h0]; rfl) hemp
        · omega
      rw [node.getValue, node_values_mk, getD_set_self n.values i (some v) none hlen]
  | succ h ih =>
    intro n i v n' added hwf hi hset
    rw [node.set] at hset
    have hjW : i / nodesForHeight (2 ^ w) (h + 1) < 2 ^ w := div_lt_width w h i hi
    have hpos : 1 ≤ nodesForHeight (2 ^ w) (h + 1) := nodesForHeight_pos w (h + 1)
    have hmod : i % nodesForHeight (2 ^ w) (h + 1) < nodesForHeight (2 ^ w) (h + 1) :=
      Nat.mod_lt _ (by omega)
    cases hln : n.getLink (i / nodesForHeight (2 ^ w) (h + 1)) with
    | none =>
      simp only [hln, Option.getD_none, Option.isSome_none, link.load, link_cached_mk,
        Bool.false_eq_true, if_false, link_cid_mk] at hset
      rcases hrec : node.set avail (2 ^ w) h (node.mk [] [])
          (i % nodesForHeight (2 ^ w) (h + 1)) v with ⟨subn', res⟩
      simp only [hrec] at hset
      cases res with
      | error e2 => simp [Prod.ext_iff] at hset
      | ok added2 =>
        simp only [] at hset
        injection hset with h1 h2
        injection h2 with h2
        obtain ⟨n2, hs2⟩ := set_empty_added avail (2 ^ w) h (node.mk [] [])
          (i % nodesForHeight (2 ^ w) (h + 1)) v rfl
        rw [hrec] at hs2
        injection hs2 with hs21 hs22
        injection hs22 with hs22
        constructor
        · rw [← h1, node.get]
          have hgl : (n.setLink (2 ^ w) (i / nodesForHeight (2 ^ w) (h + 1))
              (some (link.mk none (some subn') true))).getLink
                (i / nodesForHeight (2 ^ w) (h + 1)) = some (link.mk none (some subn') true) :=
            getLink_setLink_self (2 ^ w) n _ _ hwf.1 hjW
          simp only [hgl, link.load, link_cached_mk]
          obtain ⟨hga, -⟩ := ih (node.mk [] []) (i % nodesForHeight (2 ^ w) (h + 1)) v subn'
            added2 (lenWF_empty (2 ^ w) h) hmod hrec
          rcases hg2 : node.get avail (2 ^ w) h subn' (i % nodesForHeight (2 ^ w) (h + 1))
            with ⟨n3, res3⟩
          rw [hg2] at hga
          simp only [hg2]
          exact hga
        · refine ⟨none, ?_, ?_⟩
          · rw [node.get]
            simp only [hln]
          · rw [← h2, hs22]
            rfl
    | some ln =>
      have hj' : n.links.getD (i / nodesForHeight (2 ^ w) (h + 1)) none = some ln := hln
      obtain ⟨hlt, hmem⟩ := getD_some_facts n.links _ ln hj'
      have hlenW : n.links.length = 2 ^ w := by
        rcases hwf.1 with h0 | h0
        · rw [h0] at hlt
          exact absurd hlt (Nat.not_lt_zero _)
        · exact h0
      have hne : n.links.isEmpty = false := by
        cases hnl : n.links with
        | nil => rw [hnl] at hlt; exact absurd hlt (by simp)
        | cons a l => rfl
      simp only [hln, Option.getD_some, Option.isSome_some] at hset
      cases hload : link.load avail (2 ^ w) h ln with
      | error e =>
        simp only [hload] at hset
        simp [Prod.ext_iff] at hset
      | ok p =>
        obtain ⟨subn, ln'⟩ := p
        simp only [hload] at hset
        rcases hrec : node.set avail (2 ^ w) h subn (i % nodesForHeight (2 ^ w) (h + 1)) v
          with ⟨subn', res⟩
        simp only [hrec] at hset
        cases res with
        | error e2 => simp [Prod.ext_iff] at hset
        | ok added2 =>
          simp [Prod.ext_iff] at hset
          obtain ⟨h1, h2⟩ := hset
          have hsubwf : lenWF (2 ^ w) h subn :=
            load_lenWF avail w h ln subn ln' hload (fun sub hs => hwf.2 ln hmem sub hs)
          obtain ⟨hga, old, hold, hadd⟩ := ih subn (i % nodesForHeight (2 ^ w) (h + 1)) v
            subn' added2 hsubwf hmod hrec
          constructor
          · rw [← h1]
            rw [setLink_twice (2 ^ w) n (i / nodesForHeight (2 ^ w) (h + 1)) (some ln')
              (some (link.mk ln'.cid (some subn') true)) hne]
            rw [node.get]
            have hgl2 : (node.mk (n.links.set (i / nodesForHeight (2 ^ w) (h + 1))
                (some (link.mk ln'.cid (some subn') true))) n.values).getLink
                  (i / nodesForHeight (2 ^ w) (h + 1)) =
                some (link.mk ln'.cid (some subn') true) := by
              rw [node.getLink, node_links_mk]
              exact getD_set_self n.links _ _ none (by rw [hlenW]; exact hjW)
            simp only [hgl2, link.load, link_cached_mk]
            rcases hg2 : node.get avail (2 ^ w) h subn' (i % nodesForHeight (2 ^ w) (h + 1))
              with ⟨n3, res3⟩
            rw [hg2] at hga
            simp only [hg2]
            exact hga
          · refine ⟨old, ?_, ?_⟩
            · rw [node.get]
              simp only [hln, hload]
              rcases hg3 : node.get avail (2 ^ w) h subn (i % nodesForHeight (2 ^ w) (h + 1))
                with ⟨n4, res4⟩
              rw [hg3] at hold
              simp only [hg3]
              exact hold
            · rw [← h2]
              exact hadd

/-! ### Root-level Get/Set/Len (claim C3) -/

theorem rootGet_eval_none (avail : Store) (w h c : Nat) (n : node) (i : Nat)
    (hoor : ¬ MaxIndex < i) (hcap : ¬ nodesForHeight (2 ^ w) (h + 1) ≤ i)
    (hget : (node.get avail (2 ^ w) h n i).2 = .ok none) :
    (Root.Get avail ⟨2 ^ w, h, c, n⟩ i).2 = .error (.notFound i) := by
  rw [Root.Get]
  simp only []
  rw [if_neg hoor, if_neg hcap]
  rcases hg2 : node.get avail (2 ^ w) h n i with ⟨n3, res3⟩
  have hres : res3 = .ok none := by
    rw [hg2] at hget
    exact hget
  rw [hres]

theorem rootGet_eval_some (avail : Store) (w h c : Nat) (n : node) (i : Nat) (b : Bytes)
    (hoor : ¬ MaxIndex < i) (hcap : ¬ nodesForHeight (2 ^ w) (h + 1) ≤ i)
    (hget : (node.get avail (2 ^ w) h n i).2 = .ok (some b)) :
    (Root.Get avail ⟨2 ^ w, h, c, n⟩ i).2 = .ok b := by
  rw [Root.Get]
  simp only []
  rw [if_neg hoor, if_neg hcap]
  rcases hg2 : node.get avail (2 ^ w) h n i with ⟨n3, res3⟩
  have hres : res3 = .ok (some b) := by
    rw [hg2] at hget
    exact hget
  rw [hres]

theorem rootGet_beyond (avail : Store) (w h c : Nat) (n : node) (i : Nat)
    (hoor : ¬ MaxIndex < i) (hcap : nodesForHeight (2 ^ w) (h + 1) ≤ i) :
    (Root.Get avail ⟨2 ^ w, h, c, n⟩ i).2 = .error (.notFound i) := by
  rw [Root.Get, if_neg hoor, if_pos hcap]

/-- Claim C3: after a successful `Set(k, v)` on a power-of-two-width
root whose tree satisfies the slot-array length invariant, `Get(k)`
returns exactly `v`; and `Len` grows by one when `Get(k)` on the
original root reported not-found, and is unchanged when it returned a
value. -/
theorem C3_set_get_len (avail : Store) (w : Nat) (hw : 1 ≤ w) (r : Root) (i : Nat) (v : Bytes)
    (hW : r.width = 2 ^ w) (hwf : lenWF (2 ^ w) r.height r.node)
    (r' : Root) (hset : Root.Set avail r i v = (r', .ok ())) :
    (Root.Get avail r' i).2 = .ok v ∧
    ((Root.Get avail r i).2 = .error (.notFound i) → r'.Len = r.Len + 1) ∧
    (∀ old, (Root.Get avail r i).2 = .ok old → r'.Len = r.Len) := by
  have hreta : r = ⟨2 ^ w, r.height, r.count, r.node⟩ := by rw [← hW]
  rw [Root.Set, hW] at hset
  by_cases hoor : MaxIndex < i
  · rw [if_pos hoor] at hset
    simp [Prod.ext_iff] at hset
  · rw [if_neg hoor] at hset
    rcases hg : growLoop (2 ^ w) i 64 r.height r.node with ⟨h', n0⟩
    simp only [hg] at hset
    rcases hrec : node.set avail (2 ^ w) h' n0 i v with ⟨n'', res⟩
    simp only [hrec] at hset
    have hwf0 : lenWF (2 ^ w) h' n0 := by
      have h3 := growLoop_lenWF w i 64 r.height r.node hwf
      rw [hg] at h3
      exact h3
    have hi' : i < nodesForHeight (2 ^ w) (h' + 1) := by
      have h3 := growLoop_lt w i hw (by rw [MaxIndex] at hoor; rw [uMax]; omega)
        64 r.height r.node (by omega)
      rw [hg] at h3
      exact h3
    have hcap' : ¬ nodesForHeight (2 ^ w) (h' + 1) ≤ i := by omega
    cases res with
    | error e => simp [Prod.ext_iff] at hset
    | ok added =>
      simp only [] at hset
      obtain ⟨hga, old, hold, hadd⟩ := set_get_sync avail w h' n0 i v n'' added hwf0 hi' hrec
      by_cases hgrow : h' = r.height
      · -- no growth: the previous tree is descended directly
        have hn0 : n0 = r.node := by
          have h3 := growLoop_noop (2 ^ w) i 64 r.height r.node (by rw [hg]; exact hgrow)
          rw [hg] at h3
          exact h3
        have hcap2 : ¬ nodesForHeight (2 ^ w) (r.height + 1) ≤ i := by
          rw [← hgrow]
          exact hcap'
        cases old with
        | none =>
          have hPG : (Root.Get avail r i).2 = .error (.notFound i) := by
            conv_lhs => rw [hreta]
            refine rootGet_eval_none avail w r.height r.count r.node i hoor hcap2 ?_
            rw [← hgrow, ← hn0]
            exact hold
          have haddt : added = true := by
            rw [hadd]
            rfl
          rw [haddt] at hset
          by_cases hcnt : MaxIndex - 1 ≤ r.count
          · rw [if_pos rfl, if_pos hcnt] at hset
            simp [Prod.ext_iff] at hset
          · rw [if_pos rfl, if_neg hcnt] at hset
            injection hset with h4 h5
            refine ⟨?_, fun _ => ?_, fun old2 hok => ?_⟩
            · rw [← h4]
              exact rootGet_eval_some avail w h' (r.count + 1) n'' i v hoor hcap' hga
            · rw [← h4]
              rfl
            · rw [hPG] at hok
              exact Except.noConfusion hok
        | some b =>
          have hPG : (Root.Get avail r i).2 = .ok b := by
            conv_lhs => rw [hreta]
            refine rootGet_eval_some avail w r.height r.count r.node i b hoor hcap2 ?_
            rw [← hgrow, ← hn0]
            exact hold
          have haddf : added = false := by
            rw [hadd]
            rfl
          rw [haddf] at hset
          rw [if_neg (by exact Bool.false_ne_true)] at hset
          injection hset with h4 h5
          refine ⟨?_, fun hpg => ?_, fun old2 hok => ?_⟩
          · rw [← h4]
            exact rootGet_eval_some avail w h' r.count n'' i v hoor hcap' hga
          · rw [hPG] at hpg
            exact Except.noConfusion hpg
          · rw [← h4]
            rfl
      · -- the tree grew: the key was beyond the old capacity
        have hge : r.height ≤ h' := by
          have h3 := growLoop_height_ge (2 ^ w) i 64 r.height r.node
          rw [hg] at h3
          exact h3
        have hgrew : nodesForHeight (2 ^ w) h' ≤ i := by
          have h3 := growLoop_grew (2 ^ w) i 64 r.height r.node (by rw [hg]; exact hgrow)
          rw [hg] at h3
          exact h3
        have hPG : (Root.Get avail r i).2 = .error (.notFound i) := by
          conv_lhs => rw [hreta]
          exact rootGet_beyond avail w r.height r.count r.node i hoor
            (le_trans (nodesForHeight_mono_h w (by omega)) hgrew)
        obtain ⟨k, hk⟩ : ∃ k, h' = k + 1 := ⟨h' - 1, by omega⟩
        have hold_none : old = none := by
          by_cases hemp : r.node.empty = true
          · have hn0 : n0 = r.node := by
              have h3 := growLoop_empty (2 ^ w) i 64 r.height r.node hemp
              rw [hg] at h3
              exact h3
            rw [hk, hn0] at hold
            rw [node.get] at hold
            simp only [node_empty_links_getD r.node hemp] at hold
            injection hold with hold
            exact hold.symm
          · have hempf : r.node.empty = false := by
              cases hb : r.node.empty
              · rfl
              · exact absurd hb hemp
            have h3 := growLoop_shape_grew (2 ^ w) i Nat.one_le_two_pow 64 r.height r.node
              hempf (by rw [hg]; exact hgrow)
            rw [hg] at h3
            obtain ⟨l, hl⟩ := h3
            have hl' : n0 = node.mk ((List.replicate (2 ^ w) (none : Option link)).set 0
                (some l)) [] := hl
            have hj1 : 1 ≤ i / nodesForHeight (2 ^ w) (k + 1) := by
              rw [Nat.one_le_div_iff (by have := nodesForHeight_pos w (k + 1); omega)]
              rw [← hk]
              exact hgrew
            rw [hk, hl'] at hold
            rw [node.get] at hold
            have hgl : (node.mk ((List.replicate (2 ^ w) (none : Option link)).set 0
                (some l)) []).getLink (i / nodesForHeight (2 ^ w) (k + 1)) = none := by
              rw [node.getLink, node_links_mk,
                getD_set_ne _ 0 _ _ _ (by omega), getD_replicate_none]
            simp only [hgl] at hold
            injection hold with hold
            exact hold.symm
        have haddt : added = true := by
          rw [hadd, hold_none]
          rfl
        rw [haddt] at hset
        by_cases hcnt : MaxIndex - 1 ≤ r.count
        · rw [if_pos rfl, if_pos hcnt] at hset
          simp [Prod.ext_iff] at hset
        · rw [if_pos rfl, if_neg hcnt] at hset
          injection hset with h4 h5
          refine ⟨?_, fun _ => ?_, fun old2 hok => ?_⟩
          · rw [← h4]
            exact rootGet_eval_some avail w h' (r.count + 1) n'' i v hoor hcap' hga
          · rw [← h4]
            rfl
          · rw [hPG] at hok
            exact Except.noConfusion hok


/-- Witness for C3: the default width 8, key 5 set on a fresh empty
root. -/
theorem C3_witness :
    ((1 : Nat) ≤ 3 ∧ (NewAMT 8).width = 2 ^ 3 ∧
     lenWF (2 ^ 3) (NewAMT 8).height (NewAMT 8).node ∧
     Root.Set allAvail (NewAMT 8) 5 [120] =
       (⟨8, 0, 1, node.mk [] ((List.replicate 8 none).set 5 (some [120]))⟩, .ok ())) ∧
    (Root.Get allAvail
      ⟨8, 0, 1, node.mk [] ((List.replicate 8 none).set 5 (some [120]))⟩ 5).2 = .ok [120] ∧
    (Root.Get allAvail (NewAMT 8) 5).2 = .error (.notFound 5) ∧
    (⟨8, 0, 1, node.mk [] ((List.replicate 8 none).set 5 (some [120]))⟩ : Root).Len =
      (NewAMT 8).Len + 1 := by
  have hwf : lenWF (2 ^ 3) (NewAMT 8).height (NewAMT 8).node := ⟨Or.inl rfl, rfl⟩
  have hset : Root.Set allAvail (NewAMT 8) 5 [120] =
      (⟨8, 0, 1, node.mk [] ((List.replicate 8 none).set 5 (some [120]))⟩, .ok ()) := by rfl
  have h := C3_set_get_len allAvail 3 (by decide) (NewAMT 8) 5 [120] rfl hwf _ hset
  exact ⟨⟨by decide, rfl, hwf, hset⟩, h.1, by rfl, h.2.1 (by rfl)⟩

/-! ### The walk as a fold over the ordered contents (claim C8) -/

theorem nfh_zero (w : Nat) : nodesForHeight (2 ^ w) 0 = 1 := by
  rw [nodesForHeight_two_pow]
  norm_num

theorem cap_exact (w h : Nat) (hx : w * h < 64) :
    nodesForHeight (2 ^ w) h = 2 ^ (w * h) :=
  nodesForHeight_eq_pow w h (Nat.pow_lt_pow_right (by omega) hx)

theorem cap_mul (w h : Nat) (hx : w * (h + 1) < 64) :
    2 ^ w * nodesForHeight (2 ^ w) h = nodesForHeight (2 ^ w) (h + 1) := by
  rw [cap_exact w h (by have := Nat.mul_le_mul_left w (show h ≤ h + 1 by omega); omega),
    cap_exact w (h + 1) hx, ← Nat.pow_add]
  congr 1
  ring

theorem linkChild_cached (W h : Nat) (l : link) (c : node) (hc : l.cached = some c) :
    linkChild W h l = c := by
  rw [linkChild, hc]

theorem cached_load (avail : Store) (W h : Nat) (l : link) (c : node)
    (hc : l.cached = some c) :
    link.load avail W h l = .ok (c, l) := by
  rw [link.load, hc]

theorem goodN_empty (W : Nat) : ∀ h, goodN W h (node.mk [] []) := by
  intro h
  cases h with
  | zero => exact ⟨Or.inl rfl, Or.inl rfl, rfl⟩
  | succ h2 =>
    refine ⟨Or.inl rfl, Or.inl rfl, rfl, ?_⟩
    intro l hl
    exact absurd hl (List.not_mem_nil _)

theorem div_mod_slot (c j i0 : Nat) (hc : 1 ≤ c) (hi0 : i0 < c) :
    (j * c + i0) / c = j ∧ (j * c + i0) % c = i0 := by
  constructor
  · rw [Nat.mul_comm j c, Nat.mul_add_div (by omega), Nat.div_eq_of_lt hi0]
    omega
  · rw [Nat.mul_comm j c, Nat.mul_add_mod, Nat.mod_eq_of_lt hi0]

theorem nContents_beyond (w h : Nat) (n : node) (i : Nat) (hg : goodN (2 ^ w) h n)
    (hi : 2 ^ w * nodesForHeight (2 ^ w) h ≤ i) :
    nContents (2 ^ w) h n i = none := by
  cases h with
  | zero =>
    rw [nContents, node.getValue]
    refine List.getD_eq_default _ _ ?_
    rw [nfh_zero, Nat.mul_one] at hi
    rcases hg.1 with h0 | h0
    · rw [h0]
      omega
    · rw [h0]
      exact hi
  | succ h2 =>
    rw [nContents]
    have hpos : 1 ≤ nodesForHeight (2 ^ w) (h2 + 1) := nodesForHeight_pos w (h2 + 1)
    have hj : 2 ^ w ≤ i / nodesForHeight (2 ^ w) (h2 + 1) := by
      rw [Nat.le_div_iff_mul_le (by omega)]
      exact hi
    have hnone : n.getLink (i / nodesForHeight (2 ^ w) (h2 + 1)) = none := by
      rw [node.getLink]
      refine List.getD_eq_default _ _ ?_
      rcases hg.1 with h0 | h0
      · rw [h0]
        exact Nat.zero_le _
      · rw [h0]
        exact hj
    rw [hnone]

theorem all_isNone_false {a : Type} :
    ∀ l : List (Option a), l.all (fun v => v.isNone) = false →
      ∃ j, j < l.length ∧ l.getD j none ≠ none := by
  intro l
  induction l with
  | nil => intro h; cases h
  | cons hd tl ih =>
    intro h
    rw [List.all_cons] at h
    rcases Bool.and_eq_false_iff.mp h with h1 | h1
    · refine ⟨0, by simp, ?_⟩
      rw [List.getD_cons_zero]
      cases hd with
      | none => cases h1
      | some v => exact fun hh => Option.noConfusion hh
    · obtain ⟨j, hj1, hj2⟩ := ih h1
      refine ⟨j + 1, by simp; omega, ?_⟩
      rw [List.getD_cons_succ]
      exact hj2

/-- Under the invariant, a node is `empty` exactly when its logical
contents are everywhere absent. -/
theorem empty_contents (w : Nat) :
    ∀ h n, goodN (2 ^ w) h n → w * h < 64 →
      (n.empty = true ↔ ∀ i, nContents (2 ^ w) h n i = none) := by
  intro h n hg hx
  constructor
  · intro he i
    cases h with
    | zero =>
      rw [nContents]
      exact node_empty_values_getD n he i
    | succ h2 =>
      rw [nContents, node_empty_links_getD n he]
  · intro hall
    by_contra hne
    rw [Bool.not_eq_true] at hne
    rw [node.empty, Bool.and_eq_false_iff] at hne
    cases h with
    | zero =>
      rcases hne with h1 | h1
      · rw [hg.2.2] at h1
        cases h1
      · obtain ⟨j, hj1, hj2⟩ := all_isNone_false n.values h1
        exact hj2 (hall j)
    | succ h2 =>
      rcases hne with h1 | h1
      · obtain ⟨j, hj1, hj2⟩ := all_isNone_false n.links h1
        cases hln : n.links.getD j none with
        | none => exact hj2 hln
        | some ln =>
          obtain ⟨hlt2, hmem⟩ := getD_some_facts n.links j ln hln
          obtain ⟨-, -, ⟨i0, hi0⟩, hgc⟩ := hg.2.2.2 ln hmem
          have hi0lt : i0 < nodesForHeight (2 ^ w) (h2 + 1) := by
            by_contra hge
            rw [Nat.not_lt] at hge
            refine hi0 (nContents_beyond w h2 _ i0 hgc ?_)
            rw [cap_mul w h2 hx]
            exact hge
          have hpos : 1 ≤ nodesForHeight (2 ^ w) (h2 + 1) := nodesForHeight_pos w (h2 + 1)
          obtain ⟨hdiv, hmod⟩ := div_mod_slot (nodesForHeight (2 ^ w) (h2 + 1)) j i0
            (by omega) hi0lt
          have hc := hall (j * nodesForHeight (2 ^ w) (h2 + 1) + i0)
          rw [nContents, hdiv, hmod] at hc
          rw [show n.getLink j = some ln from hln] at hc
          exact hi0 hc
      · rw [hg.2.2.1] at h1
        cases h1

theorem getD_nil {a : Type} (j : Nat) (d : a) : ([] : List a).getD j d = d := by
  cases j <;> rfl

theorem isEmpty_true_nil {a : Type} (l : List a) (h : l.isEmpty = true) : l = [] := by
  cases l with
  | nil => rfl
  | cons x xs => cases h

theorem getLink_setLink_ne (W : Nat) (n : node) (j j2 : Nat) (L : link) (hne : j ≠ j2) :
    (n.setLink W j (some L)).getLink j2 = n.getLink j2 := by
  rw [node.setLink]
  by_cases hnl : n.links.isEmpty = true
  · rw [if_pos hnl]
    show (node.mk ((List.replicate W (none : Option link)).set j (some L)) n.values).getLink j2
      = n.getLink j2
    rw [node.getLink, node_links_mk, getD_set_ne _ j j2 _ _ hne, getD_replicate_none,
      node.getLink, isEmpty_true_nil n.links hnl, getD_nil]
  · rw [if_neg hnl]
    rw [node.getLink, node_links_mk, getD_set_ne _ j j2 _ _ hne, node.getLink]

theorem nContents_nil (W : Nat) : ∀ h i, nContents W h (node.mk [] []) i = none := by
  intro h i
  cases h with
  | zero => rfl
  | succ h2 =>
    rw [nContents]
    have hgl : (node.mk ([] : List (Option link)) []).getLink
        (i / nodesForHeight W (h2 + 1)) = none := rfl
    rw [hgl]

/-- `set` on a good tree always succeeds, reports whether the key was
absent, updates the contents pointwise at exactly the key, and
preserves the invariant. -/
theorem set_good (w : Nat) : ∀ h n i v,
    goodN (2 ^ w) h n → w * h < 64 →
    i < 2 ^ w * nodesForHeight (2 ^ w) h →
    ∃ n', node.set allAvail (2 ^ w) h n i v =
        (n', .ok (nContents (2 ^ w) h n i).isNone) ∧
      goodN (2 ^ w) h n' ∧
      (∀ i2, nContents (2 ^ w) h n' i2 =
        if i2 = i then some v else nContents (2 ^ w) h n i2) := by
  intro h
  induction h with
  | zero =>
    intro n i v hg hx hiB
    rw [nfh_zero, Nat.mul_one] at hiB
    refine ⟨node.setValue (2 ^ w) n i (some v), ?_, ?_, ?_⟩
    · rw [node.set, nContents]
    · by_cases hemp : n.values.isEmpty = true
      · have hsv : node.setValue (2 ^ w) n i (some v) =
            node.mk n.links ((List.replicate (2 ^ w) none).set i (some v)) := by
          rw [node.setValue, if_pos hemp]
          rfl
        rw [hsv]
        refine ⟨Or.inr ?_, ?_, ?_⟩
        · rw [node_values_mk, List.length_set, List.length_replicate]
        · rw [node_links_mk]
          exact hg.2.1
        · rw [node_links_mk]
          exact hg.2.2
      · have hsv : node.setValue (2 ^ w) n i (some v) =
            node.mk n.links (n.values.set i (some v)) := by
          rw [node.setValue, if_neg hemp]
        rw [hsv]
        refine ⟨Or.inr ?_, ?_, ?_⟩
        · rw [node_values_mk, List.length_set]
          rcases hg.1 with h0 | h0
          · have hemp2 : n.values.isEmpty = true := by
              rw [List.length_eq_zero.mp h0]
              rfl
            exact absurd hemp2 hemp
          · exact h0
        · rw [node_links_mk]
          exact hg.2.1
        · rw [node_links_mk]
          exact hg.2.2
    · intro i2
      rw [nContents, nContents]
      by_cases hemp : n.values.isEmpty = true
      · have hsv : node.setValue (2 ^ w) n i (some v) =
            node.mk n.links ((List.replicate (2 ^ w) none).set i (some v)) := by
          rw [node.setValue, if_pos hemp]
          rfl
        rw [hsv, node.getValue, node_values_mk]
        by_cases hi2 : i2 = i
        · subst hi2
          rw [if_pos rfl]
          exact getD_replicate_set_self (2 ^ w) i2 (some v) none hiB
        · rw [if_neg hi2, getD_set_ne _ i i2 _ _ (fun hh => hi2 hh.symm),
            getD_replicate_none, node.getValue, isEmpty_true_nil n.values hemp, getD_nil]
      · have hsv : node.setValue (2 ^ w) n i (some v) =
            node.mk n.links (n.values.set i (some v)) := by
          rw [node.setValue, if_neg hemp]
        have hlen : n.values.length = 2 ^ w := by
          rcases hg.1 with h0 | h0
          · have hemp2 : n.values.isEmpty = true := by
              rw [List.length_eq_zero.mp h0]
              rfl
            exact absurd hemp2 hemp
          · exact h0
        rw [hsv, node.getValue, node_values_mk]
        by_cases hi2 : i2 = i
        · subst hi2
          rw [if_pos rfl]
          exact getD_set_self n.values i2 (some v) none (by omega)
        · rw [if_neg hi2, getD_set_ne _ i i2 _ _ (fun hh => hi2 hh.symm), node.getValue]
  | succ h ih =>
    intro n i v hg hx hiB
    have hxh : w * h < 64 := by
      have := Nat.mul_le_mul_left w (show h ≤ h + 1 by omega)
      omega
    have hpos : 1 ≤ nodesForHeight (2 ^ w) (h + 1) := nodesForHeight_pos w (h + 1)
    have hjW : i / nodesForHeight (2 ^ w) (h + 1) < 2 ^ w := by
      rw [Nat.div_lt_iff_lt_mul (by omega)]
      exact hiB
    have hlocB : i % nodesForHeight (2 ^ w) (h + 1) < 2 ^ w * nodesForHeight (2 ^ w) h := by
      rw [cap_mul w h hx]
      exact Nat.mod_lt _ (by omega)
    have hdm := Nat.div_add_mod i (nodesForHeight (2 ^ w) (h + 1))
    cases hln : n.getLink (i / nodesForHeight (2 ^ w) (h + 1)) with
    | none =>
      obtain ⟨sub', hrec, hgood', hupd⟩ := ih (node.mk [] [])
        (i % nodesForHeight (2 ^ w) (h + 1)) v (goodN_empty _ h) hxh hlocB
      rw [nContents_nil] at hrec
      have hcont : nContents (2 ^ w) (h + 1) n i = none := by
        rw [nContents, hln]
      refine ⟨n.setLink (2 ^ w) (i / nodesForHeight (2 ^ w) (h + 1))
        (some (link.mk none (some sub') true)), ?_, ?_, ?_⟩
      · rw [node.set]
        simp only [hln, Option.getD_none, Option.isSome_none, link.load, link_cached_mk,
          Bool.false_eq_true, if_false, hrec, link_cid_mk]
        rw [hcont]
      · by_cases hnl : n.links.isEmpty = true
        · have hsl : n.setLink (2 ^ w) (i / nodesForHeight (2 ^ w) (h + 1))
              (some (link.mk none (some sub') true)) =
              node.mk ((List.replicate (2 ^ w) (none : Option link)).set
                (i / nodesForHeight (2 ^ w) (h + 1))
                (some (link.mk none (some sub') true))) n.values := by
            rw [node.setLink, if_pos hnl]
            rfl
          rw [hsl]
          refine ⟨Or.inr (by rw [node_links_mk, List.length_set, List.length_replicate]),
            by rw [node_values_mk]; exact hg.2.1,
            by rw [node_values_mk]; exact hg.2.2.1, ?_⟩
          intro l hl
          rw [node_links_mk] at hl
          rcases mem_set_replicate _ _ _ _ _ hl with h1 | h1
          · have h2 : l = link.mk none (some sub') true := by
              injection h1 with h1
            subst h2
            refine ⟨rfl, ⟨sub', rfl⟩, ?_, ?_⟩
            · refine ⟨i % nodesForHeight (2 ^ w) (h + 1), ?_⟩
              rw [linkChild_cached (2 ^ w) h (link.mk none (some sub') true) sub' rfl,
                hupd, if_pos rfl]
              exact fun hh => Option.noConfusion hh
            · rw [linkChild_cached (2 ^ w) h (link.mk none (some sub') true) sub' rfl]
              exact hgood'
          · exact absurd h1 (fun hh => Option.noConfusion hh)
        · have hsl : n.setLink (2 ^ w) (i / nodesForHeight (2 ^ w) (h + 1))
              (some (link.mk none (some sub') true)) =
              node.mk (n.links.set (i / nodesForHeight (2 ^ w) (h + 1))
                (some (link.mk none (some sub') true))) n.values := by
            rw [node.setLink, if_neg hnl]
          rw [hsl]
          have hlenW : n.links.length = 2 ^ w := by
            rcases hg.1 with h0 | h0
            · have hnl2 : n.links.isEmpty = true := by
                rw [List.length_eq_zero.mp h0]
                rfl
              exact absurd hnl2 hnl
            · exact h0
          refine ⟨Or.inr (by rw [node_links_mk, List.length_set]; exact hlenW),
            by rw [node_values_mk]; exact hg.2.1,
            by rw [node_values_mk]; exact hg.2.2.1, ?_⟩
          intro l hl
          rw [node_links_mk] at hl
          rcases List.mem_or_eq_of_mem_set hl with h1 | h1
          · exact hg.2.2.2 l h1
          · have h2 : l = link.mk none (some sub') true := by
              injection h1 with h1
            subst h2
            refine ⟨rfl, ⟨sub', rfl⟩, ?_, ?_⟩
            · refine ⟨i % nodesForHeight (2 ^ w) (h + 1), ?_⟩
              rw [linkChild_cached (2 ^ w) h (link.mk none (some sub') true) sub' rfl,
                hupd, if_pos rfl]
              exact fun hh => Option.noConfusion hh
            · rw [linkChild_cached (2 ^ w) h (link.mk none (some sub') true) sub' rfl]
              exact hgood'
      · intro i2
        by_cases hj2 : i2 / nodesForHeight (2 ^ w) (h + 1) =
            i / nodesForHeight (2 ^ w) (h + 1)
        · rw [nContents, hj2, getLink_setLink_self _ _ _ _ hg.1 hjW]
          show nContents (2 ^ w) h (linkChild (2 ^ w) h (link.mk none (some sub') true))
            (i2 % nodesForHeight (2 ^ w) (h + 1)) = _
          rw [linkChild_cached (2 ^ w) h (link.mk none (some sub') true) sub' rfl, hupd]
          have hdm2 := Nat.div_add_mod i2 (nodesForHeight (2 ^ w) (h + 1))
          rw [hj2] at hdm2
          by_cases hi2 : i2 = i
          · subst hi2
            rw [if_pos (by omega), if_pos rfl]
          · rw [if_neg (by omega), if_neg hi2, nContents_nil, nContents, hj2, hln]
        · rw [nContents, getLink_setLink_ne _ _ _ _ _ (fun hh => hj2 hh.symm)]
          have hi2ne : i2 ≠ i := by
            intro hh
            subst hh
            exact hj2 rfl
          rw [if_neg hi2ne, nContents]
    | some ln =>
      obtain ⟨hdirty, ⟨c, hcache⟩, hne0, hgc⟩ := hg.2.2.2 ln (getD_some_facts n.links _ ln hln).2
      rw [linkChild_cached (2 ^ w) h ln c hcache] at hne0 hgc
      obtain ⟨hlt, hmem⟩ := getD_some_facts n.links _ ln hln
      have hlenW : n.links.length = 2 ^ w := by
        rcases hg.1 with h0 | h0
        · rw [h0] at hlt
          exact absurd hlt (Nat.not_lt_zero _)
        · exact h0
      have hnliE : n.links.isEmpty = false := by
        cases hnl : n.links with
        | nil => rw [hnl] at hlt; exact absurd hlt (Nat.not_lt_zero _)
        | cons a l2 => rfl
      obtain ⟨sub', hrec, hgood', hupd⟩ := ih c
        (i % nodesForHeight (2 ^ w) (h + 1)) v hgc hxh hlocB
      have hcont : nContents (2 ^ w) (h + 1) n i =
          nContents (2 ^ w) h c (i % nodesForHeight (2 ^ w) (h + 1)) := by
        rw [nContents, hln]
        show nContents (2 ^ w) h (linkChild (2 ^ w) h ln)
          (i % nodesForHeight (2 ^ w) (h + 1)) = _
        rw [linkChild_cached (2 ^ w) h ln c hcache]
      refine ⟨node.mk (n.links.set (i / nodesForHeight (2 ^ w) (h + 1))
        (some (link.mk ln.cid (some sub') true))) n.values, ?_, ?_, ?_⟩
      · rw [node.set]
        simp only [hln, Option.getD_some, Option.isSome_some, eq_self_iff_true, if_true,
          cached_load allAvail (2 ^ w) h ln c hcache, hrec]
        rw [hcont, setLink_twice _ _ _ _ _ hnliE]
      · refine ⟨Or.inr (by rw [node_links_mk, List.length_set]; exact hlenW),
          by rw [node_values_mk]; exact hg.2.1,
            by rw [node_values_mk]; exact hg.2.2.1, ?_⟩
        intro l hl
        rw [node_links_mk] at hl
        rcases List.mem_or_eq_of_mem_set hl with h1 | h1
        · exact hg.2.2.2 l h1
        · have h2 : l = link.mk ln.cid (some sub') true := by
            injection h1 with h1
          subst h2
          refine ⟨rfl, ⟨sub', rfl⟩, ?_, ?_⟩
          · refine ⟨i % nodesForHeight (2 ^ w) (h + 1), ?_⟩
            rw [linkChild_cached (2 ^ w) h (link.mk ln.cid (some sub') true) sub' rfl,
              hupd, if_pos rfl]
            exact fun hh => Option.noConfusion hh
          · rw [linkChild_cached (2 ^ w) h (link.mk ln.cid (some sub') true) sub' rfl]
            exact hgood'
      · intro i2
        by_cases hj2 : i2 / nodesForHeight (2 ^ w) (h + 1) =
            i / nodesForHeight (2 ^ w) (h + 1)
        · have hglz : (node.mk (n.links.set (i / nodesForHeight (2 ^ w) (h + 1))
              (some (link.mk ln.cid (some sub') true))) n.values).getLink
                (i2 / nodesForHeight (2 ^ w) (h + 1)) =
              some (link.mk ln.cid (some sub') true) := by
            rw [node.getLink, node_links_mk, hj2]
            exact getD_set_self n.links _ _ none (by omega)
          rw [nContents, hglz]
          show nContents (2 ^ w) h (linkChild (2 ^ w) h (link.mk ln.cid (some sub') true))
            (i2 % nodesForHeight (2 ^ w) (h + 1)) = _
          rw [linkChild_cached (2 ^ w) h (link.mk ln.cid (some sub') true) sub' rfl, hupd]
          have hdm2 := Nat.div_add_mod i2 (nodesForHeight (2 ^ w) (h + 1))
          rw [hj2] at hdm2
          by_cases hi2 : i2 = i
          · subst hi2
            rw [if_pos (by omega), if_pos rfl]
          · rw [if_neg (by omega), if_neg hi2, nContents, hj2, hln]
            show _ = nContents (2 ^ w) h (linkChild (2 ^ w) h ln)
              (i2 % nodesForHeight (2 ^ w) (h + 1))
            rw [linkChild_cached (2 ^ w) h ln c hcache]
        · have hglz : (node.mk (n.links.set (i / nodesForHeight (2 ^ w) (h + 1))
              (some (link.mk ln.cid (some sub') true))) n.values).getLink
                (i2 / nodesForHeight (2 ^ w) (h + 1)) =
              n.getLink (i2 / nodesForHeight (2 ^ w) (h + 1)) := by
            rw [node.getLink, node_links_mk,
              getD_set_ne _ _ _ _ _ (fun hh => hj2 hh.symm), node.getLink]
          have hi2ne : i2 ≠ i := by
            intro hh
            subst hh
            exact hj2 rfl
          rw [nContents, hglz, if_neg hi2ne, nContents]

/-- `delete` on a good tree always succeeds, reports whether the key
was present, removes exactly the key from the contents, and preserves
the invariant. -/
theorem delete_good (w : Nat) : ∀ h n i,
    goodN (2 ^ w) h n → w * h < 64 →
    ∃ n', node.delete allAvail (2 ^ w) h n i =
        (n', .ok (nContents (2 ^ w) h n i).isSome) ∧
      goodN (2 ^ w) h n' ∧
      (∀ i2, nContents (2 ^ w) h n' i2 =
        if i2 = i then none else nContents (2 ^ w) h n i2) := by
  intro h
  induction h with
  | zero =>
    intro n i hg hx
    by_cases hv : (n.getValue i).isNone = true
    · have hvn : n.getValue i = none := Option.isNone_iff_eq_none.mp hv
      refine ⟨n, ?_, hg, ?_⟩
      · rw [node.delete, if_pos hv]
        show (n, Except.ok false) = (n, Except.ok (nContents (2 ^ w) 0 n i).isSome)
        rw [nContents, hvn]
        rfl
      · intro i2
        by_cases hi2 : i2 = i
        · subst hi2
          rw [if_pos (rfl : i2 = i2), nContents, hvn]
        · rw [if_neg hi2]
    · cases hvv : n.getValue i with
      | none => rw [hvv] at hv; exact absurd rfl hv
      | some v0 =>
        rw [node.getValue] at hvv
        have hlt : i < n.values.length := (getD_some_facts n.values i v0 hvv).1
        have hnve : n.values.isEmpty = false := by
          cases hnv : n.values with
          | nil => rw [hnv] at hlt; exact absurd hlt (Nat.not_lt_zero _)
          | cons a l2 => rfl
        have hsv : node.setValue (2 ^ w) n i none =
            node.mk n.links (n.values.set i none) := by
          rw [node.setValue, if_neg (by rw [hnve]; exact Bool.false_ne_true)]
        refine ⟨node.mk n.links (n.values.set i none), ?_, ?_, ?_⟩
        · rw [node.delete, if_neg hv, hsv]
          show _ = (node.mk n.links (n.values.set i none),
            Except.ok (nContents (2 ^ w) 0 n i).isSome)
          rw [nContents, node.getValue, hvv]
          rfl
        · have hlen2 : (node.mk n.links (n.values.set i none)).values.length = 2 ^ w := by
            rw [node_values_mk, List.length_set]
            rcases hg.1 with h0 | h0
            · rw [h0] at hlt; exact absurd hlt (Nat.not_lt_zero _)
            · exact h0
          exact ⟨Or.inr hlen2, by rw [node_links_mk]; exact hg.2.1,
            by rw [node_links_mk]; exact hg.2.2⟩
        · intro i2
          rw [nContents, nContents, node.getValue, node.getValue, node_values_mk]
          by_cases hi2 : i2 = i
          · subst hi2
            rw [if_pos (rfl : i2 = i2), getD_set_self _ _ _ _ hlt]
          · rw [if_neg hi2, getD_set_ne _ _ _ _ _ (fun hh => hi2 hh.symm)]
  | succ h ih =>
    intro n i hg hx
    have hxh : w * h < 64 := by
      have := Nat.mul_le_mul_left w (show h ≤ h + 1 by omega)
      omega
    have hpos : 1 ≤ nodesForHeight (2 ^ w) (h + 1) := nodesForHeight_pos w (h + 1)
    cases hln : n.getLink (i / nodesForHeight (2 ^ w) (h + 1)) with
    | none =>
      have hcont : nContents (2 ^ w) (h + 1) n i = none := by
        rw [nContents, hln]
      refine ⟨n, ?_, hg, ?_⟩
      · rw [node.delete]
        simp only [hln]
        rw [hcont]
        rfl
      · intro i2
        by_cases hi2 : i2 = i
        · subst hi2
          rw [if_pos (rfl : i2 = i2)]
          exact hcont
        · rw [if_neg hi2]
    | some ln =>
      obtain ⟨hdirty, ⟨c, hcache⟩, hne0, hgc⟩ :=
        hg.2.2.2 ln (getD_some_facts n.links _ ln hln).2
      rw [linkChild_cached (2 ^ w) h ln c hcache] at hne0 hgc
      obtain ⟨hlt, hmem⟩ := getD_some_facts n.links _ ln hln
      have hlenW : n.links.length = 2 ^ w := by
        rcases hg.1 with h0 | h0
        · rw [h0] at hlt
          exact absurd hlt (Nat.not_lt_zero _)
        · exact h0
      have hnliE : n.links.isEmpty = false := by
        cases hnl : n.links with
        | nil => rw [hnl] at hlt; exact absurd hlt (Nat.not_lt_zero _)
        | cons a l2 => rfl
      obtain ⟨sub', hrec, hgood', hupd⟩ := ih c (i % nodesForHeight (2 ^ w) (h + 1)) hgc hxh
      have hcont : nContents (2 ^ w) (h + 1) n i =
          nContents (2 ^ w) h c (i % nodesForHeight (2 ^ w) (h + 1)) := by
        rw [nContents, hln]
        show nContents (2 ^ w) h (linkChild (2 ^ w) h ln)
          (i % nodesForHeight (2 ^ w) (h + 1)) = _
        rw [linkChild_cached (2 ^ w) h ln c hcache]
      cases hb : (nContents (2 ^ w) h c (i % nodesForHeight (2 ^ w) (h + 1))).isSome with
      | false =>
        rw [hb] at hrec
        have hcl : nContents (2 ^ w) h c (i % nodesForHeight (2 ^ w) (h + 1)) = none := by
          cases ho : nContents (2 ^ w) h c (i % nodesForHeight (2 ^ w) (h + 1)) with
          | none => rfl
          | some v0 => rw [ho] at hb; cases hb
        have hsame : ∀ j, nContents (2 ^ w) h sub' j = nContents (2 ^ w) h c j := by
          intro j
          rw [hupd]
          by_cases hj : j = i % nodesForHeight (2 ^ w) (h + 1)
          · rw [if_pos hj, hj, hcl]
          · rw [if_neg hj]
        have hsl : n.setLink (2 ^ w) (i / nodesForHeight (2 ^ w) (h + 1))
            (some (link.mk ln.cid (some sub') ln.dirty)) =
            node.mk (n.links.set (i / nodesForHeight (2 ^ w) (h + 1))
              (some (link.mk ln.cid (some sub') ln.dirty))) n.values := by
          rw [node.setLink, if_neg (by rw [hnliE]; exact Bool.false_ne_true)]
        refine ⟨node.mk (n.links.set (i / nodesForHeight (2 ^ w) (h + 1))
          (some (link.mk ln.cid (some sub') ln.dirty))) n.values, ?_, ?_, ?_⟩
        · rw [node.delete]
          simp only [hln, cached_load allAvail (2 ^ w) h ln c hcache, hrec]
          rw [hcont, hcl, hsl]
          rfl
        · refine ⟨Or.inr (by rw [node_links_mk, List.length_set]; exact hlenW),
            by rw [node_values_mk]; exact hg.2.1,
            by rw [node_values_mk]; exact hg.2.2.1, ?_⟩
          intro l hl
          rw [node_links_mk] at hl
          rcases List.mem_or_eq_of_mem_set hl with h1 | h1
          · exact hg.2.2.2 l h1
          · have h2 : l = link.mk ln.cid (some sub') ln.dirty := by
              injection h1 with h1
            subst h2
            refine ⟨?_, ⟨sub', rfl⟩, ?_, ?_⟩
            · rw [link_dirty_mk]
              exact hdirty
            · obtain ⟨j0, hj0⟩ := hne0
              refine ⟨j0, ?_⟩
              rw [linkChild_cached (2 ^ w) h (link.mk ln.cid (some sub') ln.dirty) sub' rfl,
                hsame]
              exact hj0
            · rw [linkChild_cached (2 ^ w) h (link.mk ln.cid (some sub') ln.dirty) sub' rfl]
              exact hgood'
        · intro i2
          by_cases hj2 : i2 / nodesForHeight (2 ^ w) (h + 1) =
              i / nodesForHeight (2 ^ w) (h + 1)
          · have hglz : (node.mk (n.links.set (i / nodesForHeight (2 ^ w) (h + 1))
                (some (link.mk ln.cid (some sub') ln.dirty))) n.values).getLink
                  (i2 / nodesForHeight (2 ^ w) (h + 1)) =
                some (link.mk ln.cid (some sub') ln.dirty) := by
              rw [node.getLink, node_links_mk, hj2]
              exact getD_set_self n.links _ _ none hlt
            rw [nContents, hglz]
            show nContents (2 ^ w) h
              (linkChild (2 ^ w) h (link.mk ln.cid (some sub') ln.dirty))
              (i2 % nodesForHeight (2 ^ w) (h + 1)) = _
            rw [linkChild_cached (2 ^ w) h (link.mk ln.cid (some sub') ln.dirty) sub' rfl,
              hsame]
            by_cases hi2 : i2 = i
            · subst hi2
              rw [if_pos (rfl : i2 = i2)]
              exact hcl
            · rw [if_neg hi2, nContents, hj2, hln]
              show _ = nContents (2 ^ w) h (linkChild (2 ^ w) h ln)
                (i2 % nodesForHeight (2 ^ w) (h + 1))
              rw [linkChild_cached (2 ^ w) h ln c hcache]
          · have hglz : (node.mk (n.links.set (i / nodesForHeight (2 ^ w) (h + 1))
                (some (link.mk ln.cid (some sub') ln.dirty))) n.values).getLink
                  (i2 / nodesForHeight (2 ^ w) (h + 1)) =
                n.getLink (i2 / nodesForHeight (2 ^ w) (h + 1)) := by
              rw [node.getLink, node_links_mk,
                getD_set_ne _ _ _ _ _ (fun hh => hj2 hh.symm), node.getLink]
            have hi2ne : i2 ≠ i := by
              intro hh
              subst hh
              exact hj2 rfl
            rw [nContents, hglz, if_neg hi2ne, nContents]
      | true =>
        rw [hb] at hrec
        cases hemp : sub'.empty with
        | true =>
          have hsub'none : ∀ j, nContents (2 ^ w) h sub' j = none :=
            (empty_contents w h sub' hgood' hxh).mp hemp
          have hcnone : ∀ j, j ≠ i % nodesForHeight (2 ^ w) (h + 1) →
              nContents (2 ^ w) h c j = none := by
            intro j hj
            have h2 := hsub'none j
            rw [hupd, if_neg hj] at h2
            exact h2
          have hsl : n.setLink (2 ^ w) (i / nodesForHeight (2 ^ w) (h + 1)) none =
              node.mk (n.links.set (i / nodesForHeight (2 ^ w) (h + 1)) none) n.values := by
            rw [node.setLink, if_neg (by rw [hnliE]; exact Bool.false_ne_true)]
          refine ⟨node.mk (n.links.set (i / nodesForHeight (2 ^ w) (h + 1)) none) n.values,
            ?_, ?_, ?_⟩
          · rw [node.delete]
            simp only [hln, cached_load allAvail (2 ^ w) h ln c hcache, hrec, hemp,
              eq_self_iff_true, if_true]
            rw [hcont, hb, hsl]
          · refine ⟨Or.inr (by rw [node_links_mk, List.length_set]; exact hlenW),
              by rw [node_values_mk]; exact hg.2.1,
            by rw [node_values_mk]; exact hg.2.2.1, ?_⟩
            intro l hl
            rw [node_links_mk] at hl
            rcases List.mem_or_eq_of_mem_set hl with h1 | h1
            · exact hg.2.2.2 l h1
            · exact absurd h1 (fun hh => Option.noConfusion hh)
          · intro i2
            by_cases hj2 : i2 / nodesForHeight (2 ^ w) (h + 1) =
                i / nodesForHeight (2 ^ w) (h + 1)
            · have hglz : (node.mk (n.links.set (i / nodesForHeight (2 ^ w) (h + 1)) none)
                  n.values).getLink (i2 / nodesForHeight (2 ^ w) (h + 1)) = none := by
                rw [node.getLink, node_links_mk, hj2]
                exact getD_set_self n.links _ _ none hlt
              rw [nContents, hglz]
              by_cases hi2 : i2 = i
              · subst hi2
                rw [if_pos (rfl : i2 = i2)]
              · rw [if_neg hi2, nContents, hj2, hln]
                show (none : Option Bytes) = nContents (2 ^ w) h (linkChild (2 ^ w) h ln)
                  (i2 % nodesForHeight (2 ^ w) (h + 1))
                rw [linkChild_cached (2 ^ w) h ln c hcache]
                have hmodne : i2 % nodesForHeight (2 ^ w) (h + 1) ≠
                    i % nodesForHeight (2 ^ w) (h + 1) := by
                  intro hh
                  have hdm2 := Nat.div_add_mod i2 (nodesForHeight (2 ^ w) (h + 1))
                  have hdm := Nat.div_add_mod i (nodesForHeight (2 ^ w) (h + 1))
                  rw [hj2, hh] at hdm2
                  omega
                rw [hcnone _ hmodne]
            · have hglz : (node.mk (n.links.set (i / nodesForHeight (2 ^ w) (h + 1)) none)
                  n.values).getLink (i2 / nodesForHeight (2 ^ w) (h + 1)) =
                  n.getLink (i2 / nodesForHeight (2 ^ w) (h + 1)) := by
                rw [node.getLink, node_links_mk,
                  getD_set_ne _ _ _ _ _ (fun hh => hj2 hh.symm), node.getLink]
              have hi2ne : i2 ≠ i := by
                intro hh
                subst hh
                exact hj2 rfl
              rw [nContents, hglz, if_neg hi2ne, nContents]
        | false =>
          have hnsome : ∃ j, nContents (2 ^ w) h sub' j ≠ none := by
            by_contra hno
            push_neg at hno
            have h2 : sub'.empty = true := (empty_contents w h sub' hgood' hxh).mpr hno
            rw [hemp] at h2
            cases h2
          have hsl : n.setLink (2 ^ w) (i / nodesForHeight (2 ^ w) (h + 1))
              (some (link.mk ln.cid (some sub') true)) =
              node.mk (n.links.set (i / nodesForHeight (2 ^ w) (h + 1))
                (some (link.mk ln.cid (some sub') true))) n.values := by
            rw [node.setLink, if_neg (by rw [hnliE]; exact Bool.false_ne_true)]
          refine ⟨node.mk (n.links.set (i / nodesForHeight (2 ^ w) (h + 1))
            (some (link.mk ln.cid (some sub') true))) n.values, ?_, ?_, ?_⟩
          · rw [node.delete]
            simp only [hln, cached_load allAvail (2 ^ w) h ln c hcache, hrec, hemp,
              Bool.false_eq_true, if_false]
            rw [hcont, hb, hsl]
          · refine ⟨Or.inr (by rw [node_links_mk, List.length_set]; exact hlenW),
              by rw [node_values_mk]; exact hg.2.1,
            by rw [node_values_mk]; exact hg.2.2.1, ?_⟩
            intro l hl
            rw [node_links_mk] at hl
            rcases List.mem_or_eq_of_mem_set hl with h1 | h1
            · exact hg.2.2.2 l h1
            · have h2 : l = link.mk ln.cid (some sub') true := by
                injection h1 with h1
              subst h2
              refine ⟨rfl, ⟨sub', rfl⟩, ?_, ?_⟩
              · obtain ⟨j0, hj0⟩ := hnsome
                refine ⟨j0, ?_⟩
                rw [linkChild_cached (2 ^ w) h (link.mk ln.cid (some sub') true) sub' rfl]
                exact hj0
              · rw [linkChild_cached (2 ^ w) h (link.mk ln.cid (some sub') true) sub' rfl]
                exact hgood'
          · intro i2
            by_cases hj2 : i2 / nodesForHeight (2 ^ w) (h + 1) =
                i / nodesForHeight (2 ^ w) (h + 1)
            · have hglz : (node.mk (n.links.set (i / nodesForHeight (2 ^ w) (h + 1))
                  (some (link.mk ln.cid (some sub') true))) n.values).getLink
                    (i2 / nodesForHeight (2 ^ w) (h + 1)) =
                  some (link.mk ln.cid (some sub') true) := by
                rw [node.getLink, node_links_mk, hj2]
                exact getD_set_self n.links _ _ none hlt
              rw [nContents, hglz]
              show nContents (2 ^ w) h
                (linkChild (2 ^ w) h (link.mk ln.cid (some sub') true))
                (i2 % nodesForHeight (2 ^ w) (h + 1)) = _
              rw [linkChild_cached (2 ^ w) h (link.mk ln.cid (some sub') true) sub' rfl,
                hupd]
              by_cases hi2 : i2 = i
              · subst hi2
                rw [if_pos (rfl : i2 % nodesForHeight (2 ^ w) (h + 1) =
                    i2 % nodesForHeight (2 ^ w) (h + 1)),
                  if_pos (rfl : i2 = i2)]
              · have hmodne : i2 % nodesForHeight (2 ^ w) (h + 1) ≠
                    i % nodesForHeight (2 ^ w) (h + 1) := by
                  intro hh
                  have hdm2 := Nat.div_add_mod i2 (nodesForHeight (2 ^ w) (h + 1))
                  have hdm := Nat.div_add_mod i (nodesForHeight (2 ^ w) (h + 1))
                  rw [hj2, hh] at hdm2
                  omega
                rw [if_neg hmodne, if_neg hi2, nContents, hj2, hln]
                show _ = nContents (2 ^ w) h (linkChild (2 ^ w) h ln)
                  (i2 % nodesForHeight (2 ^ w) (h + 1))
                rw [linkChild_cached (2 ^ w) h ln c hcache]
            · have hglz : (node.mk (n.links.set (i / nodesForHeight (2 ^ w) (h + 1))
                  (some (link.mk ln.cid (some sub') true))) n.values).getLink
                    (i2 / nodesForHeight (2 ^ w) (h + 1)) =
                  n.getLink (i2 / nodesForHeight (2 ^ w) (h + 1)) := by
                rw [node.getLink, node_links_mk,
                  getD_set_ne _ _ _ _ _ (fun hh => hj2 hh.symm), node.getLink]
              have hi2ne : i2 ≠ i := by
                intro hh
                subst hh
                exact hj2 rfl
              rw [nContents, hglz, if_neg hi2ne, nContents]

theorem getD_drop_one {a : Type} (l : List a) (k : Nat) (d : a) :
    (l.drop 1).getD k d = l.getD (k + 1) d := by
  cases l with
  | nil => rw [List.drop_nil, getD_nil, getD_nil]
  | cons hd tl => rfl

theorem any_isSome_index {a : Type} :
    ∀ l : List (Option a), l.any (fun x => x.isSome) = true →
      ∃ j x, l.getD j none = some x := by
  intro l
  induction l with
  | nil => intro h; cases h
  | cons hd tl ih =>
    intro h
    rw [List.any_cons] at h
    rcases Bool.or_eq_true_iff.mp h with h1 | h1
    · cases hd with
      | none => cases h1
      | some v => exact ⟨0, v, rfl⟩
    · obtain ⟨j, x, hj⟩ := ih h1
      exact ⟨j + 1, x, hj⟩

theorem any_isSome_false_all {a : Type} :
    ∀ l : List (Option a), l.any (fun x => x.isSome) = false →
      l.all (fun x => x.isNone) = true := by
  intro l
  induction l with
  | nil => intro h; rfl
  | cons hd tl ih =>
    intro h
    rw [List.any_cons, Bool.or_eq_false_iff] at h
    rw [List.all_cons, Bool.and_eq_true]
    refine ⟨?_, ih h.2⟩
    cases hd with
    | none => rfl
    | some v => cases h.1

theorem all_isNone_head_tail {a : Type} (l : List (Option a))
    (h0 : l.getD 0 none = none)
    (ht : (l.drop 1).any (fun x => x.isSome) = false) :
    l.all (fun x => x.isNone) = true := by
  cases l with
  | nil => rfl
  | cons hd tl =>
    rw [List.getD_cons_zero] at h0
    subst h0
    rw [List.all_cons, Bool.and_eq_true]
    exact ⟨rfl, any_isSome_false_all tl ht⟩

/-- `collapse` on a good tree always succeeds, never raises the height,
preserves the logical contents, keeps the invariant at the new height,
and stops at height 0 or at a node with an occupied key at or beyond
the new capacity (the result is minimal). -/
theorem collapse_good (w : Nat) : ∀ h n, goodN (2 ^ w) h n → w * h < 64 →
    ∃ n' newH, node.collapse allAvail (2 ^ w) h n = (n', .ok newH) ∧
      newH ≤ h ∧ goodN (2 ^ w) newH n' ∧
      (∀ i, nContents (2 ^ w) newH n' i = nContents (2 ^ w) h n i) ∧
      (newH = 0 ∨ ∃ i, nodesForHeight (2 ^ w) newH ≤ i ∧
        nContents (2 ^ w) newH n' i ≠ none) := by
  intro h
  induction h with
  | zero =>
    intro n hg hx
    exact ⟨n, 0, rfl, Nat.le_refl 0, hg, fun i => rfl, Or.inl rfl⟩
  | succ h ih =>
    intro n hg hx
    have hxh : w * h < 64 := by
      have := Nat.mul_le_mul_left w (show h ≤ h + 1 by omega)
      omega
    have hpos : 1 ≤ nodesForHeight (2 ^ w) (h + 1) := nodesForHeight_pos w (h + 1)
    by_cases hie : n.links.isEmpty = true
    · have hnil := isEmpty_true_nil _ hie
      refine ⟨n, 0, ?_, Nat.zero_le _, ?_, ?_, Or.inl rfl⟩
      · rw [node.collapse, if_pos hie]
      · exact ⟨hg.2.1, hg.1, by rw [hnil]; rfl⟩
      · intro i
        rw [nContents, nContents, node.getValue, node.getLink, hnil, getD_nil]
        exact getD_of_all_isNone n.values hg.2.2.1 i
    · by_cases hany : (n.links.drop 1).any (fun l => l.isSome) = true
      · refine ⟨n, h + 1, ?_, Nat.le_refl _, hg, fun i => rfl, Or.inr ?_⟩
        · rw [node.collapse, if_neg hie, if_pos hany]
        · obtain ⟨j1, l0, hj1⟩ := any_isSome_index _ hany
          rw [getD_drop_one] at hj1
          obtain ⟨hdirty, ⟨c, hcache⟩, ⟨i0, hi0⟩, hgc⟩ :=
            hg.2.2.2 l0 (getD_some_facts _ _ _ hj1).2
          rw [linkChild_cached (2 ^ w) h l0 c hcache] at hi0 hgc
          have hi0lt : i0 < nodesForHeight (2 ^ w) (h + 1) := by
            by_contra hge
            rw [Nat.not_lt] at hge
            refine hi0 (nContents_beyond w h c i0 hgc ?_)
            rw [cap_mul w h hx]
            exact hge
          obtain ⟨hdiv, hmod⟩ := div_mod_slot (nodesForHeight (2 ^ w) (h + 1)) (j1 + 1) i0
            (by omega) hi0lt
          refine ⟨(j1 + 1) * nodesForHeight (2 ^ w) (h + 1) + i0, ?_, ?_⟩
          · have h1 : nodesForHeight (2 ^ w) (h + 1) ≤
                (j1 + 1) * nodesForHeight (2 ^ w) (h + 1) :=
              Nat.le_mul_of_pos_left _ (by omega)
            omega
          · rw [nContents, hdiv, hmod, show n.getLink (j1 + 1) = some l0 from hj1]
            show nContents (2 ^ w) h (linkChild (2 ^ w) h l0) i0 ≠ none
            rw [linkChild_cached (2 ^ w) h l0 c hcache]
            exact hi0
      · have hany2 : (n.links.drop 1).any (fun l => l.isSome) = false := by
          cases hb : (n.links.drop 1).any (fun l => l.isSome) with
          | false => rfl
          | true => exact absurd hb hany
        cases hl0 : n.links.getD 0 none with
        | none =>
          have hall : n.links.all (fun l => l.isNone) = true :=
            all_isNone_head_tail n.links hl0 hany2
          refine ⟨n, 0, ?_, Nat.zero_le _, ?_, ?_, Or.inl rfl⟩
          · rw [node.collapse, if_neg hie, if_neg hany, hl0]
          · exact ⟨hg.2.1, hg.1, hall⟩
          · intro i
            rw [nContents, nContents, node.getValue, node.getLink,
              getD_of_all_isNone n.links hall]
            exact getD_of_all_isNone n.values hg.2.2.1 i
        | some l0 =>
          obtain ⟨hdirty, ⟨c, hcache⟩, hne0, hgc⟩ :=
            hg.2.2.2 l0 (getD_some_facts _ _ _ hl0).2
          rw [linkChild_cached (2 ^ w) h l0 c hcache] at hne0 hgc
          obtain ⟨n', newH, hcoll, hle, hgood', hcont', hmin⟩ := ih c hgc hxh
          refine ⟨n', newH, ?_, by omega, hgood', ?_, hmin⟩
          · rw [node.collapse, if_neg hie, if_neg hany, hl0]
            simp only [cached_load allAvail (2 ^ w) h l0 c hcache, hcoll]
          · intro i
            rw [hcont' i]
            by_cases hilt : i < nodesForHeight (2 ^ w) (h + 1)
            · have hdiv : i / nodesForHeight (2 ^ w) (h + 1) = 0 := Nat.div_eq_of_lt hilt
              have hmod : i % nodesForHeight (2 ^ w) (h + 1) = i := Nat.mod_eq_of_lt hilt
              rw [nContents, hdiv, hmod, show n.getLink 0 = some l0 from hl0]
              show _ = nContents (2 ^ w) h (linkChild (2 ^ w) h l0) i
              rw [linkChild_cached (2 ^ w) h l0 c hcache]
            · rw [Nat.not_lt] at hilt
              have hR : nContents (2 ^ w) (h + 1) n i = none := by
                rw [nContents]
                have hj : 1 ≤ i / nodesForHeight (2 ^ w) (h + 1) := by
                  rw [Nat.le_div_iff_mul_le (by omega), Nat.one_mul]
                  exact hilt
                have hnone : n.getLink (i / nodesForHeight (2 ^ w) (h + 1)) = none := by
                  rw [node.getLink,
                    show i / nodesForHeight (2 ^ w) (h + 1) =
                      (i / nodesForHeight (2 ^ w) (h + 1) - 1) + 1 by omega,
                    ← getD_drop_one]
                  exact getD_of_all_isNone _ (any_isSome_false_all _ hany2) _
                rw [hnone]
              have hL : nContents (2 ^ w) h c i = none := by
                refine nContents_beyond w h c i hgc ?_
                rw [cap_mul w h hx]
                exact hilt
              rw [hL, hR]

/-! ### Occupancy counting -/

theorem filter_range_len_succ (p : Nat → Bool) (N : Nat) :
    ((List.range (N + 1)).filter p).length =
      ((List.range N).filter p).length + (if p N = true then 1 else 0) := by
  rw [List.range_succ, List.filter_append, List.length_append, List.filter_cons,
    List.filter_nil]
  cases hp : p N with
  | false =>
    rw [if_neg Bool.false_ne_true, if_neg Bool.false_ne_true]
    rfl
  | true =>
    rw [if_pos rfl, if_pos rfl]
    rfl

theorem filter_range_ext (p : Nat → Bool) : ∀ (k N : Nat),
    (∀ i, N ≤ i → p i = false) →
    ((List.range (N + k)).filter p).length = ((List.range N).filter p).length := by
  intro k
  induction k with
  | zero => intro N h; rfl
  | succ k ih =>
    intro N h
    have hp : p (N + k) = false := h _ (by omega)
    rw [show N + (k + 1) = (N + k) + 1 by omega, filter_range_len_succ, hp,
      if_neg Bool.false_ne_true, Nat.add_zero]
    exact ih N h

theorem filter_range_update_add (p q : Nat → Bool) : ∀ (N k : Nat), k < N →
    q k = true → p k = false → (∀ i, i ≠ k → q i = p i) →
    ((List.range N).filter q).length = ((List.range N).filter p).length + 1 := by
  intro N
  induction N with
  | zero => intro k hk _ _ _; exact absurd hk (Nat.not_lt_zero _)
  | succ N ih =>
    intro k hk hq hp hsame
    rw [filter_range_len_succ, filter_range_len_succ]
    by_cases hkN : k = N
    · subst hkN
      have hcong : (List.range k).filter q = (List.range k).filter p :=
        List.filter_congr (fun x hx => hsame x (Nat.ne_of_lt (List.mem_range.mp hx)))
      rw [hcong, hq, hp, if_pos rfl, if_neg Bool.false_ne_true]
    · have hkN2 : k < N := by omega
      rw [ih k hkN2 hq hp hsame, hsame N (fun hh => hkN hh.symm)]
      omega

theorem filter_range_update_eq (p q : Nat → Bool) (N k : Nat)
    (heq : q k = p k) (hsame : ∀ i, i ≠ k → q i = p i) :
    ((List.range N).filter q).length = ((List.range N).filter p).length := by
  have hcong : (List.range N).filter q = (List.range N).filter p := by
    refine List.filter_congr (fun x hx => ?_)
    by_cases hxk : x = k
    · subst hxk
      exact heq
    · exact hsame x hxk
  rw [hcong]

theorem filter_range_false (p : Nat → Bool) (N : Nat) (h : ∀ i, p i = false) :
    ((List.range N).filter p).length = 0 := by
  have h2 := filter_range_ext p N 0 (fun i _ => h i)
  rw [show (0 : Nat) + N = N by omega] at h2
  exact h2

/-! ### Growth-loop invariant lemmas -/

theorem empty_node_contents (W : Nat) (n : node) (he : n.empty = true) :
    ∀ h j, nContents W h n j = none := by
  rw [node.empty, Bool.and_eq_true] at he
  intro h j
  cases h with
  | zero =>
    rw [nContents]
    exact getD_of_all_isNone n.values he.2 j
  | succ h2 =>
    rw [nContents, node.getLink, getD_of_all_isNone n.links he.1]

theorem goodN_lengths (W : Nat) : ∀ (h : Nat) (n : node), goodN W h n →
    (n.values.length = 0 ∨ n.values.length = W) ∧
    (n.links.length = 0 ∨ n.links.length = W) := by
  intro h n hg
  cases h with
  | zero => exact ⟨hg.1, hg.2.1⟩
  | succ h2 => exact ⟨hg.2.1, hg.1⟩

theorem empty_goodN (W : Nat) (n : node) (he : n.empty = true)
    (hvl : n.values.length = 0 ∨ n.values.length = W)
    (hll : n.links.length = 0 ∨ n.links.length = W) :
    ∀ h, goodN W h n := by
  have he2 := he
  rw [node.empty, Bool.and_eq_true] at he2
  intro h
  cases h with
  | zero => exact ⟨hvl, hll, he2.1⟩
  | succ h2 =>
    refine ⟨hll, hvl, he2.2, ?_⟩
    intro l hl
    exact Bool.noConfusion (List.all_eq_true.mp he2.1 _ hl)

theorem wrap_contents (w h : Nat) (n : node) (hg : goodN (2 ^ w) h n)
    (hx1 : w * (h + 1) < 64) :
    ∀ j, nContents (2 ^ w) (h + 1)
      (node.mk ((List.replicate (2 ^ w) (none : Option link)).set 0
        (some (link.mk none (some n) true))) []) j =
      nContents (2 ^ w) h n j := by
  intro j
  have hpos : 1 ≤ nodesForHeight (2 ^ w) (h + 1) := nodesForHeight_pos w (h + 1)
  by_cases hjlt : j < nodesForHeight (2 ^ w) (h + 1)
  · have hdiv : j / nodesForHeight (2 ^ w) (h + 1) = 0 := Nat.div_eq_of_lt hjlt
    have hmod : j % nodesForHeight (2 ^ w) (h + 1) = j := Nat.mod_eq_of_lt hjlt
    have hgl : (node.mk ((List.replicate (2 ^ w) (none : Option link)).set 0
        (some (link.mk none (some n) true))) []).getLink 0 =
        some (link.mk none (some n) true) := by
      rw [node.getLink, node_links_mk]
      exact getD_replicate_set_self (2 ^ w) 0 _ none (Nat.pos_pow_of_pos w (by omega))
    rw [nContents, hdiv, hmod, hgl]
    show nContents (2 ^ w) h (linkChild (2 ^ w) h (link.mk none (some n) true)) j = _
    rw [linkChild_cached (2 ^ w) h (link.mk none (some n) true) n rfl]
  · rw [Nat.not_lt] at hjlt
    have hj1 : 1 ≤ j / nodesForHeight (2 ^ w) (h + 1) := by
      rw [Nat.le_div_iff_mul_le (by omega), Nat.one_mul]
      exact hjlt
    have hgl : (node.mk ((List.replicate (2 ^ w) (none : Option link)).set 0
        (some (link.mk none (some n) true))) []).getLink
        (j / nodesForHeight (2 ^ w) (h + 1)) = none := by
      rw [node.getLink, node_links_mk, getD_set_ne _ _ _ _ _ (by omega),
        getD_replicate_none]
    rw [nContents, hgl]
    show (none : Option Bytes) = nContents (2 ^ w) h n j
    rw [nContents_beyond w h n j hg (by rw [cap_mul w h hx1]; exact hjlt)]

theorem wrap_goodN (w h : Nat) (n : node) (hg : goodN (2 ^ w) h n)
    (hx : w * h < 64) (hne : n.empty = false) :
    goodN (2 ^ w) (h + 1)
      (node.mk ((List.replicate (2 ^ w) (none : Option link)).set 0
        (some (link.mk none (some n) true))) []) := by
  refine ⟨Or.inr (by rw [node_links_mk, List.length_set, List.length_replicate]),
    Or.inl (by rw [node_values_mk]; rfl), by rw [node_values_mk]; rfl, ?_⟩
  intro l hl
  rw [node_links_mk] at hl
  rcases mem_set_replicate _ _ _ _ _ hl with h1 | h1
  · have h2 : l = link.mk none (some n) true := by
      injection h1 with h1
    subst h2
    refine ⟨rfl, ⟨n, rfl⟩, ?_, ?_⟩
    · rw [linkChild_cached (2 ^ w) h (link.mk none (some n) true) n rfl]
      by_contra hno
      push_neg at hno
      have h3 : n.empty = true := (empty_contents w h n hg hx).mpr hno
      rw [hne] at h3
      cases h3
    · rw [linkChild_cached (2 ^ w) h (link.mk none (some n) true) n rfl]
      exact hg
  · exact absurd h1 (fun hh => Option.noConfusion hh)

/-- The growth loop of `Set`, on a good tree: it succeeds within the
fuel, covers the key, preserves the invariant and the logical contents,
and grows only past capacities at or below the key. -/
theorem growLoop_good (w i : Nat) : ∀ fuel h n,
    goodN (2 ^ w) h n → w * h < 64 → i ≤ MaxIndex → 1 ≤ w → 64 ≤ fuel + h →
    ∃ h' n', growLoop (2 ^ w) i fuel h n = (h', n') ∧
      h ≤ h' ∧ goodN (2 ^ w) h' n' ∧ w * h' < 64 ∧
      i < nodesForHeight (2 ^ w) (h' + 1) ∧
      (h' = h ∨ nodesForHeight (2 ^ w) h' ≤ i) ∧
      (∀ j, nContents (2 ^ w) h' n' j = nContents (2 ^ w) h n j) := by
  intro fuel
  induction fuel with
  | zero =>
    intro h n hg hx hi hw hfuel
    have h1 : h ≤ w * h := Nat.le_mul_of_pos_left h hw
    omega
  | succ fuel ihf =>
    intro h n hg hx hi hw hfuel
    by_cases hcond : nodesForHeight (2 ^ w) (h + 1) ≤ i
    · have hx1 : w * (h + 1) < 64 := by
        by_contra hge
        rw [Nat.not_lt] at hge
        rw [nodesForHeight_sat w (h + 1) hge, uMax] at hcond
        rw [MaxIndex] at hi
        omega
      by_cases hemp : n.empty = true
      · have hstep : growLoop (2 ^ w) i (fuel + 1) h n =
            growLoop (2 ^ w) i fuel (h + 1) n := by
          rw [growLoop, if_pos hcond, if_pos hemp]
        obtain ⟨hvl, hll⟩ := goodN_lengths (2 ^ w) h n hg
        obtain ⟨h', n', heq, hle, hg', hx', hcov, hgrew, hcont⟩ :=
          ihf (h + 1) n (empty_goodN (2 ^ w) n hemp hvl hll (h + 1)) hx1 hi hw (by omega)
        refine ⟨h', n', by rw [hstep]; exact heq, by omega, hg', hx', hcov, ?_, ?_⟩
        · rcases hgrew with h2 | h2
          · subst h2
            exact Or.inr hcond
          · exact Or.inr h2
        · intro j
          rw [hcont j, empty_node_contents (2 ^ w) n hemp (h + 1) j,
            empty_node_contents (2 ^ w) n hemp h j]
      · have hemp2 : n.empty = false := by
          cases hb : n.empty with
          | false => rfl
          | true => exact absurd hb hemp
        have hstep : growLoop (2 ^ w) i (fuel + 1) h n =
            growLoop (2 ^ w) i fuel (h + 1)
              (node.mk ((List.replicate (2 ^ w) (none : Option link)).set 0
                (some (link.mk none (some n) true))) []) := by
          rw [growLoop, if_pos hcond, if_neg hemp]
        obtain ⟨h', n', heq, hle, hg', hx', hcov, hgrew, hcont⟩ :=
          ihf (h + 1) _ (wrap_goodN w h n hg hx hemp2) hx1 hi hw (by omega)
        refine ⟨h', n', by rw [hstep]; exact heq, by omega, hg', hx', hcov, ?_, ?_⟩
        · rcases hgrew with h2 | h2
          · subst h2
            exact Or.inr hcond
          · exact Or.inr h2
        · intro j
          rw [hcont j, wrap_contents w h n hg hx1 j]
    · refine ⟨h, n, ?_, Nat.le_refl h, hg, hx, by omega, Or.inl rfl, fun j => rfl⟩
      rw [growLoop, if_neg hcond]

theorem isSome_false_of_isNone {a : Type} (o : Option a) (h : o.isNone = true) :
    o.isSome = false := by
  cases o with
  | none => rfl
  | some v => cases h

theorem isSome_true_of_isNone_false {a : Type} (o : Option a) (h : o.isNone = false) :
    o.isSome = true := by
  cases o with
  | none => cases h
  | some v => rfl

theorem filter_range_pos (p : Nat → Bool) (N k : Nat) (hk : k < N) (hp : p k = true) :
    1 ≤ ((List.range N).filter p).length := by
  have hm : k ∈ (List.range N).filter p :=
    List.mem_filter.mpr ⟨List.mem_range.mpr hk, hp⟩
  cases hfil : (List.range N).filter p with
  | nil => rw [hfil] at hm; exact absurd hm (List.not_mem_nil _)
  | cons a l => rw [List.length_cons]; omega

theorem key_in_range (w h' i : Nat) (hw : 1 ≤ w) (hx : w * h' < 64) (hi : i ≤ MaxIndex)
    (hcov : i < nodesForHeight (2 ^ w) (h' + 1)) :
    i < 2 ^ w * nodesForHeight (2 ^ w) h' := by
  by_cases hx1 : w * (h' + 1) < 64
  · rw [cap_mul w h' hx1]
    exact hcov
  · rw [Nat.not_lt] at hx1
    rw [cap_exact w h' hx]
    have hbig : (2 : Nat) ^ 64 ≤ 2 ^ w * 2 ^ (w * h') := by
      rw [← Nat.pow_add, show w + w * h' = w * (h' + 1) by ring]
      exact Nat.pow_le_pow_right (by omega) hx1
    calc i ≤ 2 ^ 64 - 2 := by rw [MaxIndex] at hi; exact hi
      _ < 2 ^ 64 := by omega
      _ ≤ 2 ^ w * 2 ^ (w * h') := hbig

/-- The empty AMT root satisfies the operational invariant. -/
theorem goodR_new (w : Nat) : goodR w (NewAMT (2 ^ w)) := by
  refine ⟨rfl, by simp [NewAMT], goodN_empty _ _, Or.inl rfl, ?_⟩
  show 0 = countKeys w (NewAMT (2 ^ w))
  rw [countKeys]
  rw [filter_range_false]
  intro j
  rw [show (NewAMT (2 ^ w)).node = node.mk [] [] from rfl, nContents_nil]
  rfl

/-- A successful `Set` preserves the invariant and updates the logical
contents at exactly the written key. -/
theorem rootSet_good (w : Nat) (r : Root) (i : Nat) (v : Bytes) (hg : goodR w r)
    (hw : 1 ≤ w) (r' : Root) (hset : Root.Set allAvail r i v = (r', .ok ())) :
    goodR w r' ∧ r.height ≤ r'.height ∧
      (∀ j, nContents (2 ^ w) r'.height r'.node j =
        if j = i then some v else nContents (2 ^ w) r.height r.node j) := by
  rw [Root.Set, hg.1] at hset
  by_cases hMi : MaxIndex < i
  · rw [if_pos hMi] at hset
    injection hset with _ h2
    exact Except.noConfusion h2
  · rw [if_neg hMi] at hset
    rw [Nat.not_lt] at hMi
    obtain ⟨h', n', heq, hle, hg', hx', hcov, hgrew, hcontG⟩ :=
      growLoop_good w i 64 r.height r.node hg.2.2.1 hg.2.1 hMi hw (by omega)
    rw [heq] at hset
    simp only [] at hset
    have hiB : i < 2 ^ w * nodesForHeight (2 ^ w) h' :=
      key_in_range w h' i hw hx' hMi hcov
    obtain ⟨n'', hseteq, hg'', hupd⟩ := set_good w h' n' i v hg' hx' hiB
    rw [hseteq] at hset
    simp only [] at hset
    have hcontAll : ∀ j, nContents (2 ^ w) h' n'' j =
        if j = i then some v else nContents (2 ^ w) r.height r.node j := by
      intro j
      rw [hupd j]
      by_cases hj : j = i
      · rw [if_pos hj, if_pos hj]
      · rw [if_neg hj, if_neg hj, hcontG j]
    have hmin : h' = 0 ∨ ∃ i0, nodesForHeight (2 ^ w) h' ≤ i0 ∧
        nContents (2 ^ w) h' n'' i0 ≠ none := by
      rcases hgrew with hsame | hbeyond
      · rcases hg.2.2.2.1 with h0 | ⟨i0, hi0a, hi0b⟩
        · exact Or.inl (by omega)
        · by_cases hi0i : i0 = i
          · refine Or.inr ⟨i0, by rw [hsame]; exact hi0a, ?_⟩
            rw [hcontAll i0, if_pos hi0i]
            exact fun hh => Option.noConfusion hh
          · refine Or.inr ⟨i0, by rw [hsame]; exact hi0a, ?_⟩
            rw [hcontAll i0, if_neg hi0i]
            exact hi0b
      · refine Or.inr ⟨i, hbeyond, ?_⟩
        rw [hcontAll i, if_pos rfl]
        exact fun hh => Option.noConfusion hh
    have hNle : 2 ^ w * nodesForHeight (2 ^ w) r.height ≤
        2 ^ w * nodesForHeight (2 ^ w) h' :=
      Nat.mul_le_mul_left _ (nodesForHeight_mono_h w hle)
    have hpLen : ((List.range (2 ^ w * nodesForHeight (2 ^ w) h')).filter
        (fun j => (nContents (2 ^ w) h' n' j).isSome)).length = countKeys w r := by
      have hcongr : (List.range (2 ^ w * nodesForHeight (2 ^ w) h')).filter
          (fun j => (nContents (2 ^ w) h' n' j).isSome) =
          (List.range (2 ^ w * nodesForHeight (2 ^ w) h')).filter
          (fun j => (nContents (2 ^ w) r.height r.node j).isSome) :=
        List.filter_congr (fun j _ => by rw [hcontG j])
      rw [hcongr, countKeys,
        show 2 ^ w * nodesForHeight (2 ^ w) h' =
          2 ^ w * nodesForHeight (2 ^ w) r.height +
          (2 ^ w * nodesForHeight (2 ^ w) h' -
            2 ^ w * nodesForHeight (2 ^ w) r.height) by omega]
      refine filter_range_ext _ _ _ ?_
      intro j hj
      rw [nContents_beyond w r.height r.node j hg.2.2.1 hj]
      rfl
    cases hadd : (nContents (2 ^ w) h' n' i).isNone with
    | true =>
      rw [hadd] at hset
      simp only [] at hset
      by_cases hcnt : MaxIndex - 1 ≤ r.count
      · rw [if_pos trivial, if_pos hcnt] at hset
        injection hset with _ h2
        exact Except.noConfusion h2
      · rw [if_pos trivial, if_neg hcnt] at hset
        injection hset with h1 _
        subst h1
        refine ⟨⟨rfl, hx', hg'', hmin, ?_⟩, hle, hcontAll⟩
        show r.count + 1 = countKeys w (⟨2 ^ w, h', r.count + 1, n''⟩ : Root)
        have hck : countKeys w (⟨2 ^ w, h', r.count + 1, n''⟩ : Root) =
            ((List.range (2 ^ w * nodesForHeight (2 ^ w) h')).filter
              (fun j => (nContents (2 ^ w) h' n'' j).isSome)).length := rfl
        rw [hck, filter_range_update_add
          (fun j => (nContents (2 ^ w) h' n' j).isSome)
          (fun j => (nContents (2 ^ w) h' n'' j).isSome)
          (2 ^ w * nodesForHeight (2 ^ w) h') i hiB
          (by show (nContents (2 ^ w) h' n'' i).isSome = true
              rw [hupd i, if_pos rfl]
              rfl)
          (isSome_false_of_isNone _ hadd)
          (fun j hj => by
            show (nContents (2 ^ w) h' n'' j).isSome = (nContents (2 ^ w) h' n' j).isSome
            rw [hupd j, if_neg hj]),
          hpLen, hg.2.2.2.2]
    | false =>
      rw [hadd] at hset
      simp only [Bool.false_eq_true, if_false] at hset
      injection hset with h1 _
      subst h1
      refine ⟨⟨rfl, hx', hg'', hmin, ?_⟩, hle, hcontAll⟩
      show r.count = countKeys w (⟨2 ^ w, h', r.count, n''⟩ : Root)
      have hck : countKeys w (⟨2 ^ w, h', r.count, n''⟩ : Root) =
          ((List.range (2 ^ w * nodesForHeight (2 ^ w) h')).filter
            (fun j => (nContents (2 ^ w) h' n'' j).isSome)).length := rfl
      rw [hck, filter_range_update_eq
        (fun j => (nContents (2 ^ w) h' n' j).isSome)
        (fun j => (nContents (2 ^ w) h' n'' j).isSome)
        (2 ^ w * nodesForHeight (2 ^ w) h') i
        (by show (nContents (2 ^ w) h' n'' i).isSome = (nContents (2 ^ w) h' n' i).isSome
            rw [hupd i, if_pos rfl, isSome_true_of_isNone_false _ hadd]
            rfl)
        (fun j hj => by
          show (nContents (2 ^ w) h' n'' j).isSome = (nContents (2 ^ w) h' n' j).isSome
          rw [hupd j, if_neg hj]),
        hpLen, hg.2.2.2.2]

/-- A successful `Delete` preserves the invariant and removes exactly
the deleted key from the logical contents. -/
theorem rootDelete_good (w : Nat) (r : Root) (i : Nat) (hg : goodR w r)
    (hw : 1 ≤ w) (r' : Root) (hdel : Root.Delete allAvail r i = (r', .ok ())) :
    goodR w r' ∧ r'.height ≤ r.height ∧
      (∀ j, nContents (2 ^ w) r'.height r'.node j =
        if j = i then none else nContents (2 ^ w) r.height r.node j) := by
  rw [Root.Delete, hg.1] at hdel
  by_cases hMi : MaxIndex < i
  · rw [if_pos hMi] at hdel
    injection hdel with _ h2
    exact Except.noConfusion h2
  · rw [if_neg hMi] at hdel
    rw [Nat.not_lt] at hMi
    by_cases hcap : nodesForHeight (2 ^ w) (r.height + 1) ≤ i
    · rw [if_pos hcap] at hdel
      injection hdel with _ h2
      exact Except.noConfusion h2
    · rw [if_neg hcap] at hdel
      rw [Nat.not_le] at hcap
      have hiB : i < 2 ^ w * nodesForHeight (2 ^ w) r.height :=
        key_in_range w r.height i hw hg.2.1 hMi hcap
      obtain ⟨n', hdeleq, hg', hupd⟩ :=
        delete_good w r.height r.node i hg.2.2.1 hg.2.1
      cases hpres : (nContents (2 ^ w) r.height r.node i).isSome with
      | false =>
        rw [hpres] at hdeleq
        rw [hdeleq] at hdel
        simp only [] at hdel
        injection hdel with _ h2
        exact Except.noConfusion h2
      | true =>
        rw [hpres] at hdeleq
        rw [hdeleq] at hdel
        simp only [] at hdel
        obtain ⟨n'', newH, hcoll, hle, hg'', hcont'', hmin⟩ :=
          collapse_good w r.height n' hg' hg.2.1
        rw [hcoll] at hdel
        simp only [] at hdel
        have hcnt0 : ¬(r.count = 0) := by
          intro h0
          have hpos := filter_range_pos
            (fun j => (nContents (2 ^ w) r.height r.node j).isSome)
            (2 ^ w * nodesForHeight (2 ^ w) r.height) i hiB hpres
          have hck : r.count = ((List.range
              (2 ^ w * nodesForHeight (2 ^ w) r.height)).filter
              (fun j => (nContents (2 ^ w) r.height r.node j).isSome)).length :=
            hg.2.2.2.2
          omega
        rw [if_neg hcnt0] at hdel
        injection hdel with h1 _
        subst h1
        have hcontAll : ∀ j, nContents (2 ^ w) newH n'' j =
            if j = i then none else nContents (2 ^ w) r.height r.node j := by
          intro j
          rw [hcont'' j, hupd j]
        refine ⟨⟨rfl, ?_, hg'', hmin, ?_⟩, hle, hcontAll⟩
        · exact Nat.lt_of_le_of_lt (Nat.mul_le_mul_left w hle) hg.2.1
        · show r.count - 1 = countKeys w (⟨2 ^ w, newH, r.count - 1, n''⟩ : Root)
          have hck : countKeys w (⟨2 ^ w, newH, r.count - 1, n''⟩ : Root) =
              ((List.range (2 ^ w * nodesForHeight (2 ^ w) newH)).filter
                (fun j => (nContents (2 ^ w) newH n'' j).isSome)).length := rfl
          have hNle : 2 ^ w * nodesForHeight (2 ^ w) newH ≤
              2 ^ w * nodesForHeight (2 ^ w) r.height :=
            Nat.mul_le_mul_left _ (nodesForHeight_mono_h w hle)
          have hext : ((List.range
              (2 ^ w * nodesForHeight (2 ^ w) r.height)).filter
              (fun j => (nContents (2 ^ w) newH n'' j).isSome)).length =
              ((List.range (2 ^ w * nodesForHeight (2 ^ w) newH)).filter
              (fun j => (nContents (2 ^ w) newH n'' j).isSome)).length := by
            rw [show 2 ^ w * nodesForHeight (2 ^ w) r.height =
              2 ^ w * nodesForHeight (2 ^ w) newH +
              (2 ^ w * nodesForHeight (2 ^ w) r.height -
                2 ^ w * nodesForHeight (2 ^ w) newH) by omega]
            refine filter_range_ext _ _ _ ?_
            intro j hj
            rw [nContents_beyond w newH n'' j hg'' hj]
            rfl
          have hdrop : ((List.range
              (2 ^ w * nodesForHeight (2 ^ w) r.height)).filter
              (fun j => (nContents (2 ^ w) r.height r.node j).isSome)).length =
              ((List.range (2 ^ w * nodesForHeight (2 ^ w) r.height)).filter
              (fun j => (nContents (2 ^ w) newH n'' j).isSome)).length + 1 := by
            refine filter_range_update_add _ _ _ i hiB hpres ?_ ?_
            · show (nContents (2 ^ w) newH n'' i).isSome = false
              rw [hcontAll i, if_pos rfl]
              rfl
            · intro j hj
              show (nContents (2 ^ w) r.height r.node j).isSome =
                (nContents (2 ^ w) newH n'' j).isSome
              rw [hcontAll j, if_neg hj]
          have hck0 : r.count = ((List.range
              (2 ^ w * nodesForHeight (2 ^ w) r.height)).filter
              (fun j => (nContents (2 ^ w) r.height r.node j).isSome)).length :=
            hg.2.2.2.2
          rw [hck, ← hext]
          omega

/-- Every root reachable by successful operations from a new AMT
satisfies the operational invariant. -/
theorem reach_good (w : Nat) (hw : 1 ≤ w) : ∀ r, Reach w r → goodR w r := by
  intro r hr
  induction hr with
  | new => exact goodR_new w
  | set r0 r2 i v hr0 hset ih => exact (rootSet_good w r0 i v ih hw r2 hset).1
  | del r0 r2 i hr0 hdel ih => exact (rootDelete_good w r0 i ih hw r2 hdel).1

theorem slotContents_some (W h : Nat) (l : link) (k : Nat) :
    slotContents W h (some l) k = nContents W h (linkChild W h l) k := rfl

theorem mem_getD_index {a : Type} : ∀ (l : List (Option a)) (x : Option a), x ∈ l →
    ∃ k, l.getD k none = x := by
  intro l
  induction l with
  | nil => intro x hx; exact absurd hx (List.not_mem_nil _)
  | cons hd tl ih =>
    intro x hx
    rcases List.mem_cons.mp hx with h1 | h1
    · exact ⟨0, by rw [List.getD_cons_zero, h1]⟩
    · obtain ⟨k, hk⟩ := ih x h1
      exact ⟨k + 1, by rw [List.getD_cons_succ]; exact hk⟩

theorem list_ext_getD {a : Type} : ∀ (l1 l2 : List (Option a)), l1.length = l2.length →
    (∀ k, l1.getD k none = l2.getD k none) → l1 = l2 := by
  intro l1
  induction l1 with
  | nil =>
    intro l2 hlen _
    cases l2 with
    | nil => rfl
    | cons b t => simp at hlen
  | cons x t ih =>
    intro l2 hlen hget
    cases l2 with
    | nil => simp at hlen
    | cons y t2 =>
      have hx : x = y := by
        have h0 := hget 0
        rwa [List.getD_cons_zero, List.getD_cons_zero] at h0
      subst hx
      rw [ih t2 (by simpa using hlen) (fun k => by
        have hk := hget (k + 1)
        rwa [List.getD_cons_succ, List.getD_cons_succ] at hk)]

theorem flushLeaf_allNone : ∀ (vs : List (Option Bytes)),
    (∀ k, vs.getD k none = none) →
    ∀ j bm acc, flushLeaf vs j bm acc = (bm, acc) := by
  intro vs
  induction vs with
  | nil => intro _ j bm acc; rfl
  | cons v rest ih =>
    intro hall j bm acc
    have hv : v = none := by
      have h0 := hall 0
      rwa [List.getD_cons_zero] at h0
    subst hv
    rw [flushLeaf]
    exact ih (fun k => by
      have hk := hall (k + 1)
      rwa [List.getD_cons_succ] at hk) (j + 1) bm acc

theorem flushLeaf_congr (W : Nat) (v1 v2 : List (Option Bytes))
    (h1 : v1.length = 0 ∨ v1.length = W) (h2 : v2.length = 0 ∨ v2.length = W)
    (heq : ∀ k, v1.getD k none = v2.getD k none) :
    ∀ j bm acc, flushLeaf v1 j bm acc = flushLeaf v2 j bm acc := by
  intro j bm acc
  rcases h1 with h1 | h1
  · have hnil1 : v1 = [] := List.length_eq_zero.mp h1
    subst hnil1
    rw [flushLeaf, flushLeaf_allNone v2 (fun k => by rw [← heq k, getD_nil]) j bm acc]
  · rcases h2 with h2 | h2
    · have hnil2 : v2 = [] := List.length_eq_zero.mp h2
      subst hnil2
      rw [flushLeaf_allNone v1 (fun k => by rw [heq k, getD_nil]) j bm acc, flushLeaf]
    · rw [list_ext_getD v1 v2 (by omega) heq]

theorem flushLinks_allNone (f : node → node × Except Err pnode) :
    ∀ (ls : List (Option link)), (∀ l, some l ∈ ls → False) →
    ∀ j bm pls, (flushLinks f ls j bm pls).2 = .ok (bm, pls) := by
  intro ls
  induction ls with
  | nil => intro _ j bm pls; rfl
  | cons o rest ih =>
    intro hall j bm pls
    cases o with
    | some l => exact (hall l (List.mem_cons_self _ _)).elim
    | none =>
      rw [flushLinks]
      exact ih (fun l hl => hall l (List.mem_cons_of_mem _ hl)) (j + 1) bm pls

theorem nContents_slot (W h : Nat) (n : node) (k i2 : Nat)
    (hpos : 1 ≤ nodesForHeight W (h + 1)) (hi2 : i2 < nodesForHeight W (h + 1)) :
    nContents W (h + 1) n (k * nodesForHeight W (h + 1) + i2) =
      slotContents W h (n.getLink k) i2 := by
  obtain ⟨hdiv, hmod⟩ := div_mod_slot (nodesForHeight W (h + 1)) k i2 hpos hi2
  rw [nContents, hdiv, hmod]
  cases hgl : n.getLink k with
  | none => rfl
  | some l => rfl

theorem goodN_nil_all_absent (w h : Nat) (hx : w * (h + 1) < 64) (na nb : node)
    (hgb : goodN (2 ^ w) (h + 1) nb) (hnil : na.links = [])
    (hcont : ∀ j, nContents (2 ^ w) (h + 1) na j = nContents (2 ^ w) (h + 1) nb j) :
    ∀ l, some l ∈ nb.links → False := by
  intro l hl
  have hpos : 1 ≤ nodesForHeight (2 ^ w) (h + 1) := by
    have h2 : (1 : Nat) ≤ 2 ^ (w * (h + 1)) := Nat.one_le_two_pow
    rw [cap_exact w (h + 1) hx]
    exact h2
  obtain ⟨k, hk⟩ := mem_getD_index nb.links (some l) hl
  obtain ⟨-, ⟨c, hc⟩, ⟨i0, hi0⟩, hgc⟩ := hgb.2.2.2 l hl
  rw [linkChild_cached (2 ^ w) h l c hc] at hi0 hgc
  have hi0lt : i0 < nodesForHeight (2 ^ w) (h + 1) := by
    by_contra hge
    rw [Nat.not_lt] at hge
    refine hi0 (nContents_beyond w h c i0 hgc ?_)
    rw [cap_mul w h hx]
    exact hge
  have hb := nContents_slot (2 ^ w) h nb k i0 hpos hi0lt
  rw [show nb.getLink k = some l from hk, slotContents_some,
    linkChild_cached (2 ^ w) h l c hc] at hb
  have ha : nContents (2 ^ w) (h + 1) na
      (k * nodesForHeight (2 ^ w) (h + 1) + i0) = none := by
    rw [nContents, node.getLink, hnil, getD_nil]
  rw [hcont _, hb] at ha
  exact hi0 ha

/-- Congruence of the interior flush loop: two link vectors with
per-link invariants and equal per-slot contents flush to the same
bitmap and CID vector, given congruence of the child flush. -/
theorem flushLinks_congr (w h : Nat)
    (ihc : ∀ n1 n2, goodN (2 ^ w) h n1 → goodN (2 ^ w) h n2 →
      (∀ j, nContents (2 ^ w) h n1 j = nContents (2 ^ w) h n2 j) →
      ∃ p, (node.flush (2 ^ w) h n1).2 = .ok p ∧ (node.flush (2 ^ w) h n2).2 = .ok p) :
    ∀ (ls1 ls2 : List (Option link)), ls1.length = ls2.length →
    ∀ (j : Nat) (bm : List Nat) (pls : List (Option cidT)),
    (∀ l, some l ∈ ls1 → linkGoodP (2 ^ w) h l) →
    (∀ l, some l ∈ ls2 → linkGoodP (2 ^ w) h l) →
    (∀ k i2, slotContents (2 ^ w) h (ls1.getD k none) i2 =
      slotContents (2 ^ w) h (ls2.getD k none) i2) →
    ∃ res, (flushLinks (node.flush (2 ^ w) h) ls1 j bm pls).2 = .ok res ∧
           (flushLinks (node.flush (2 ^ w) h) ls2 j bm pls).2 = .ok res := by
  intro ls1
  induction ls1 with
  | nil =>
    intro ls2 hlen
    cases ls2 with
    | nil => intro j bm pls _ _ _; exact ⟨(bm, pls), rfl, rfl⟩
    | cons b t => simp at hlen
  | cons o1 t1 ih =>
    intro ls2 hlen
    cases ls2 with
    | nil => simp at hlen
    | cons o2 t2 =>
      intro j bm pls hg1 hg2 hslot
      have hlen' : t1.length = t2.length := by simpa using hlen
      have hslot' : ∀ k i2, slotContents (2 ^ w) h (t1.getD k none) i2 =
          slotContents (2 ^ w) h (t2.getD k none) i2 := by
        intro k i2
        have hk := hslot (k + 1) i2
        rwa [List.getD_cons_succ, List.getD_cons_succ] at hk
      have hg1' : ∀ l, some l ∈ t1 → linkGoodP (2 ^ w) h l :=
        fun l hl => hg1 l (List.mem_cons_of_mem _ hl)
      have hg2' : ∀ l, some l ∈ t2 → linkGoodP (2 ^ w) h l :=
        fun l hl => hg2 l (List.mem_cons_of_mem _ hl)
      have hslot0 : ∀ i2, slotContents (2 ^ w) h o1 i2 =
          slotContents (2 ^ w) h o2 i2 := by
        intro i2
        have hk := hslot 0 i2
        rwa [List.getD_cons_zero, List.getD_cons_zero] at hk
      cases o1 with
      | none =>
        cases o2 with
        | none =>
          obtain ⟨res, h1, h2⟩ := ih t2 hlen' (j + 1) bm pls hg1' hg2' hslot'
          refine ⟨res, ?_, ?_⟩
          · rw [flushLinks]
            exact h1
          · rw [flushLinks]
            exact h2
        | some l2 =>
          obtain ⟨hd2, ⟨c2, hc2⟩, ⟨i0, hi0⟩, hgc2⟩ := hg2 l2 (List.mem_cons_self _ _)
          have h0 : (none : Option Bytes) = nContents (2 ^ w) h
              (linkChild (2 ^ w) h l2) i0 := hslot0 i0
          exact absurd h0.symm hi0
      | some l1 =>
        cases o2 with
        | none =>
          obtain ⟨hd1, ⟨c1, hc1⟩, ⟨i0, hi0⟩, hgc1⟩ := hg1 l1 (List.mem_cons_self _ _)
          have h0 : nContents (2 ^ w) h (linkChild (2 ^ w) h l1) i0 =
              (none : Option Bytes) := hslot0 i0
          exact absurd h0 hi0
        | some l2 =>
          obtain ⟨hd1, ⟨c1, hc1⟩, -, hgc1⟩ := hg1 l1 (List.mem_cons_self _ _)
          obtain ⟨hd2, ⟨c2, hc2⟩, -, hgc2⟩ := hg2 l2 (List.mem_cons_self _ _)
          rw [linkChild_cached (2 ^ w) h l1 c1 hc1] at hgc1
          rw [linkChild_cached (2 ^ w) h l2 c2 hc2] at hgc2
          have hcc : ∀ i2, nContents (2 ^ w) h c1 i2 = nContents (2 ^ w) h c2 i2 := by
            intro i2
            have h0 := hslot0 i2
            rw [slotContents_some, slotContents_some,
              linkChild_cached (2 ^ w) h l1 c1 hc1,
              linkChild_cached (2 ^ w) h l2 c2 hc2] at h0
            exact h0
          obtain ⟨p, hp1, hp2⟩ := ihc c1 c2 hgc1 hgc2 hcc
          rcases hf1 : node.flush (2 ^ w) h c1 with ⟨c1', r1⟩
          rcases hf2 : node.flush (2 ^ w) h c2 with ⟨c2', r2⟩
          rw [hf1] at hp1
          rw [hf2] at hp2
          have hr1 : r1 = .ok p := hp1
          have hr2 : r2 = .ok p := hp2
          subst hr1
          subst hr2
          obtain ⟨res, h1, h2⟩ := ih t2 hlen' (j + 1) (bmapSet bm j)
            (pls ++ [some (cidT.mk dagCBOR p)]) hg1' hg2' hslot'
          refine ⟨res, ?_, ?_⟩
          · rw [flushLinks]
            simp only [hd1, eq_self_iff_true, if_true, hc1, hf1, link_cid_mk]
            exact h1
          · rw [flushLinks]
            simp only [hd2, eq_self_iff_true, if_true, hc2, hf2, link_cid_mk]
            exact h2

/-- Canonical serialization: two good trees of the same height with the
same logical contents flush to the same persisted node. -/
theorem flush_congr (w : Nat) : ∀ h n1 n2, w * h < 64 →
    goodN (2 ^ w) h n1 → goodN (2 ^ w) h n2 →
    (∀ j, nContents (2 ^ w) h n1 j = nContents (2 ^ w) h n2 j) →
    ∃ p, (node.flush (2 ^ w) h n1).2 = .ok p ∧ (node.flush (2 ^ w) h n2).2 = .ok p := by
  intro h
  induction h with
  | zero =>
    intro n1 n2 hx hg1 hg2 hcont
    have hfl : flushLeaf n1.values 0 (makeBmap (2 ^ w)) [] =
        flushLeaf n2.values 0 (makeBmap (2 ^ w)) [] :=
      flushLeaf_congr (2 ^ w) n1.values n2.values hg1.1 hg2.1
        (fun k => by
          have hk := hcont k
          rw [nContents, nContents, node.getValue, node.getValue] at hk
          exact hk) 0 (makeBmap (2 ^ w)) []
    rcases hfl2 : flushLeaf n2.values 0 (makeBmap (2 ^ w)) [] with ⟨bmR, vsR⟩
    refine ⟨pnode.mk bmR [] vsR, ?_, ?_⟩
    · rw [node.flush, hfl, hfl2]
    · rw [node.flush, hfl2]
  | succ h ihh =>
    intro n1 n2 hx hg1 hg2 hcont
    have hxh : w * h < 64 := by
      have h2 := Nat.mul_le_mul_left w (show h ≤ h + 1 by omega)
      omega
    have ihc : ∀ m1 m2, goodN (2 ^ w) h m1 → goodN (2 ^ w) h m2 →
        (∀ j, nContents (2 ^ w) h m1 j = nContents (2 ^ w) h m2 j) →
        ∃ p, (node.flush (2 ^ w) h m1).2 = .ok p ∧
          (node.flush (2 ^ w) h m2).2 = .ok p :=
      fun m1 m2 a b c => ihh m1 m2 hxh a b c
    have hpos : 1 ≤ nodesForHeight (2 ^ w) (h + 1) := by
      rw [cap_exact w (h + 1) hx]
      exact Nat.one_le_two_pow
    have hfl : ∃ res,
        (flushLinks (node.flush (2 ^ w) h) n1.links 0 (makeBmap (2 ^ w)) []).2 =
          .ok res ∧
        (flushLinks (node.flush (2 ^ w) h) n2.links 0 (makeBmap (2 ^ w)) []).2 =
          .ok res := by
      have hslotnone : ∀ (n : node), goodN (2 ^ w) (h + 1) n → ∀ k i2,
          nodesForHeight (2 ^ w) (h + 1) ≤ i2 →
          slotContents (2 ^ w) h (n.links.getD k none) i2 = none := by
        intro n hg k i2 hi2
        cases hgl : n.links.getD k none with
        | none => rfl
        | some l =>
          obtain ⟨-, ⟨c, hc⟩, -, hgc⟩ := hg.2.2.2 l (getD_some_facts _ _ _ hgl).2
          rw [slotContents_some, linkChild_cached (2 ^ w) h l c hc]
          rw [linkChild_cached (2 ^ w) h l c hc] at hgc
          refine nContents_beyond w h c i2 hgc ?_
          rw [cap_mul w h hx]
          exact hi2
      have hslot : ∀ k i2, slotContents (2 ^ w) h (n1.links.getD k none) i2 =
          slotContents (2 ^ w) h (n2.links.getD k none) i2 := by
        intro k i2
        by_cases hi2 : i2 < nodesForHeight (2 ^ w) (h + 1)
        · have e1 := nContents_slot (2 ^ w) h n1 k i2 hpos hi2
          have e2 := nContents_slot (2 ^ w) h n2 k i2 hpos hi2
          show slotContents (2 ^ w) h (n1.getLink k) i2 =
            slotContents (2 ^ w) h (n2.getLink k) i2
          rw [← e1, ← e2]
          exact hcont _
        · rw [Nat.not_lt] at hi2
          rw [hslotnone n1 hg1 k i2 hi2, hslotnone n2 hg2 k i2 hi2]
      by_cases hnil1 : n1.links.length = 0
      · have hn1 : n1.links = [] := List.length_eq_zero.mp hnil1
        have habs2 : ∀ l, some l ∈ n2.links → False :=
          goodN_nil_all_absent w h hx n1 n2 hg2 hn1 hcont
        refine ⟨(makeBmap (2 ^ w), []), ?_, ?_⟩
        · rw [hn1]
          rfl
        · exact flushLinks_allNone _ n2.links habs2 0 (makeBmap (2 ^ w)) []
      · by_cases hnil2 : n2.links.length = 0
        · have hn2 : n2.links = [] := List.length_eq_zero.mp hnil2
          have habs1 : ∀ l, some l ∈ n1.links → False :=
            goodN_nil_all_absent w h hx n2 n1 hg1 hn2 (fun j => (hcont j).symm)
          refine ⟨(makeBmap (2 ^ w), []), ?_, ?_⟩
          · exact flushLinks_allNone _ n1.links habs1 0 (makeBmap (2 ^ w)) []
          · rw [hn2]
            rfl
        · have hlen : n1.links.length = n2.links.length := by
            rcases hg1.1 with ha | ha
            · exact absurd ha hnil1
            · rcases hg2.1 with hb | hb
              · exact absurd hb hnil2
              · rw [ha, hb]
          exact flushLinks_congr w h ihc n1.links n2.links hlen 0 (makeBmap (2 ^ w)) []
            (fun l hl => hg1.2.2.2 l hl) (fun l hl => hg2.2.2.2 l hl) hslot
    obtain ⟨res, hr1, hr2⟩ := hfl
    rcases res with ⟨bmR, plsR⟩
    rcases hfx1 : flushLinks (node.flush (2 ^ w) h) n1.links 0 (makeBmap (2 ^ w)) []
      with ⟨links1, r1⟩
    rcases hfx2 : flushLinks (node.flush (2 ^ w) h) n2.links 0 (makeBmap (2 ^ w)) []
      with ⟨links2, r2⟩
    rw [hfx1] at hr1
    rw [hfx2] at hr2
    have hr1b : r1 = .ok (bmR, plsR) := hr1
    have hr2b : r2 = .ok (bmR, plsR) := hr2
    subst hr1b
    subst hr2b
    refine ⟨pnode.mk bmR plsR [], ?_, ?_⟩
    · rw [node.flush, hfx1]
    · rw [node.flush, hfx2]

/-- Under the invariant, a tree whose contents extend to another tree
of a larger height would contradict the larger tree's minimality. -/
theorem height_le_of_contents (w : Nat) (r1 r2 : Root) (hg1 : goodR w r1)
    (hg2 : goodR w r2)
    (hcont : ∀ j, nContents (2 ^ w) r1.height r1.node j =
      nContents (2 ^ w) r2.height r2.node j) :
    r2.height ≤ r1.height := by
  by_contra hlt
  rw [Nat.not_le] at hlt
  rcases hg2.2.2.2.1 with h0 | ⟨i0, hi0a, hi0b⟩
  · omega
  · refine hi0b ?_
    rw [← hcont i0]
    refine nContents_beyond w r1.height r1.node i0 hg1.2.2.1 ?_
    have hx1 : w * (r1.height + 1) < 64 := by
      have h2 : w * (r1.height + 1) ≤ w * r2.height :=
        Nat.mul_le_mul_left w (by omega)
      have h3 := hg2.2.1
      omega
    calc 2 ^ w * nodesForHeight (2 ^ w) r1.height
        = nodesForHeight (2 ^ w) (r1.height + 1) := cap_mul w r1.height hx1
      _ ≤ nodesForHeight (2 ^ w) r2.height := nodesForHeight_mono_h w (by omega)
      _ ≤ i0 := hi0a

theorem heights_eq (w : Nat) (r1 r2 : Root) (hg1 : goodR w r1) (hg2 : goodR w r2)
    (hcont : ∀ j, nContents (2 ^ w) r1.height r1.node j =
      nContents (2 ^ w) r2.height r2.node j) :
    r1.height = r2.height :=
  Nat.le_antisymm
    (height_le_of_contents w r2 r1 hg2 hg1 (fun j => (hcont j).symm))
    (height_le_of_contents w r1 r2 hg1 hg2 hcont)

/-- Root-level canonical flush: two invariant-satisfying roots with the
same logical key-to-bytes map flush to the same persisted root record
(same height, same count, same serialized node — hence the same content
address). -/
theorem goodR_flush_congr (w : Nat) (r1 r2 : Root) (hg1 : goodR w r1)
    (hg2 : goodR w r2)
    (hcont : ∀ j, nContents (2 ^ w) r1.height r1.node j =
      nContents (2 ^ w) r2.height r2.node j) :
    ∃ p, (Root.Flush r1).2 = .ok p ∧ (Root.Flush r2).2 = .ok p := by
  have hh := heights_eq w r1 r2 hg1 hg2 hcont
  have hcont2 : ∀ j, nContents (2 ^ w) r1.height r1.node j =
      nContents (2 ^ w) r1.height r2.node j := by
    intro j
    rw [hcont j, hh]
  obtain ⟨p, hp1, hp2⟩ := flush_congr w r1.height r1.node r2.node hg1.2.1
    hg1.2.2.1 (by rw [hh]; exact hg2.2.2.1) hcont2
  have hcnt : r1.count = r2.count := by
    rw [hg1.2.2.2.2, hg2.2.2.2.2, countKeys, countKeys, ← hh]
    exact congrArg List.length (List.filter_congr (fun j _ => by rw [hcont2 j]))
  refine ⟨proot.mk r1.height r1.count p, ?_, ?_⟩
  · rw [Root.Flush, hg1.1]
    rcases hfl1 : node.flush (2 ^ w) r1.height r1.node with ⟨n1', res1⟩
    rw [hfl1] at hp1
    have hr1 : res1 = .ok p := hp1
    subst hr1
    rfl
  · rw [Root.Flush, hg2.1, ← hh, ← hcnt]
    rcases hfl2 : node.flush (2 ^ w) r1.height r2.node with ⟨n2', res2⟩
    rw [hfl2] at hp2
    have hr2 : res2 = .ok p := hp2
    subst hr2
    rfl

theorem key_lt_cap_succ (w h k : Nat) (hk : k ≤ MaxIndex)
    (hlt : k < 2 ^ w * nodesForHeight (2 ^ w) h) :
    k < nodesForHeight (2 ^ w) (h + 1) := by
  by_cases hx1 : w * (h + 1) < 64
  · rw [← cap_mul w h hx1]
    exact hlt
  · rw [Nat.not_lt] at hx1
    rw [nodesForHeight_sat w (h + 1) hx1, uMax]
    rw [MaxIndex] at hk
    omega

/-- `Delete` of a present key on a good tree always succeeds. -/
theorem rootDelete_succeeds (w : Nat) (r : Root) (k : Nat) (hg : goodR w r)
    (hk : k ≤ MaxIndex) (hpres : nContents (2 ^ w) r.height r.node k ≠ none) :
    ∃ r2, Root.Delete allAvail r k = (r2, .ok ()) := by
  have hkB : k < 2 ^ w * nodesForHeight (2 ^ w) r.height := by
    by_contra hge
    rw [Nat.not_lt] at hge
    exact hpres (nContents_beyond w r.height r.node k hg.2.2.1 hge)
  have hcap := key_lt_cap_succ w r.height k hk hkB
  rw [Root.Delete, hg.1]
  rw [if_neg (by omega), if_neg (by omega)]
  obtain ⟨n', hdeleq, hg', hupd⟩ := delete_good w r.height r.node k hg.2.2.1 hg.2.1
  have hps : (nContents (2 ^ w) r.height r.node k).isSome = true := by
    cases ho : nContents (2 ^ w) r.height r.node k with
    | none => exact absurd ho hpres
    | some v => rfl
  rw [hps] at hdeleq
  rw [hdeleq]
  simp only []
  obtain ⟨n'', newH, hcoll, -, -, -, -⟩ := collapse_good w r.height n' hg' hg.2.1
  rw [hcoll]
  simp only []
  have hps2 : (nContents (2 ^ w) r.height r.node k).isSome = true := hps
  have hcnt0 : ¬(r.count = 0) := by
    intro h0
    have hpos := filter_range_pos
      (fun j => (nContents (2 ^ w) r.height r.node j).isSome)
      (2 ^ w * nodesForHeight (2 ^ w) r.height) k hkB hps2
    have hck : r.count = ((List.range
        (2 ^ w * nodesForHeight (2 ^ w) r.height)).filter
        (fun j => (nContents (2 ^ w) r.height r.node j).isSome)).length :=
      hg.2.2.2.2
    omega
  rw [if_neg hcnt0]
  exact ⟨_, rfl⟩

/-- Claim C2: canonical serialization.  For any two roots reached by
sequences of successful `Set` and `Delete` operations from a new empty
root with the same bit width, if the two trees hold the same logical
key-to-value-bytes map, then `Flush` produces the same persisted root
record — the model's content address — for both (in particular any
permutation of the same insertions flushes to the same hash). -/
theorem C2_flush_canonical (w : Nat) (hw : 1 ≤ w) (r1 r2 : Root)
    (h1 : Reach w r1) (h2 : Reach w r2)
    (hcont : ∀ j, nContents (2 ^ w) r1.height r1.node j =
      nContents (2 ^ w) r2.height r2.node j) :
    ∃ p, (Root.Flush r1).2 = .ok p ∧ (Root.Flush r2).2 = .ok p :=
  goodR_flush_congr w r1 r2 (reach_good w hw r1 h1) (reach_good w hw r2 h2) hcont

/-- C2 witness: the sequences set 2, delete 2, set 0 and plainly set 0
at width 2 produce structurally different in-memory roots (the first
keeps a stale all-none links array) with the same logical map, and both
flush to the same record. -/
theorem C2_flush_canonical_witness :
    ((1 : Nat) ≤ 1 ∧ Reach 1 c2r1 ∧ Reach 1 c2r2 ∧
      (∀ j, nContents (2 ^ 1) c2r1.height c2r1.node j =
        nContents (2 ^ 1) c2r2.height c2r2.node j)) ∧
    (∃ p, (Root.Flush c2r1).2 = .ok p ∧ (Root.Flush c2r2).2 = .ok p) := by
  have hr1 : Reach 1 c2r1 :=
    Reach.set c2rb c2r1 0 [5]
      (Reach.del c2ra c2rb 2
        (Reach.set (NewAMT (2 ^ 1)) c2ra 2 [7] Reach.new rfl) rfl) rfl
  have hr2 : Reach 1 c2r2 :=
    Reach.set (NewAMT (2 ^ 1)) c2r2 0 [5] Reach.new rfl
  have hcont : ∀ j, nContents (2 ^ 1) c2r1.height c2r1.node j =
      nContents (2 ^ 1) c2r2.height c2r2.node j := by
    intro j
    cases j with
    | zero => rfl
    | succ j2 =>
      cases j2 with
      | zero => rfl
      | succ j3 => rfl
  exact ⟨⟨by decide, hr1, hr2, hcont⟩,
    C2_flush_canonical 1 (by decide) c2r1 c2r2 hr1 hr2 hcont⟩

/-- Claim C4: set-then-delete idempotence.  On a reachable tree lacking
key `k`, a successful `Set(k, v)` followed by `Delete(k)` (which always
succeeds) yields a tree that flushes to exactly the same persisted root
record as the original: the growth performed by `Set` is undone by the
collapse performed by `Delete` up to serialization. -/
theorem C4_set_delete_flush (w : Nat) (hw : 1 ≤ w) (r r1 : Root) (k : Nat)
    (v : Bytes) (hr : Reach w r)
    (habs : nContents (2 ^ w) r.height r.node k = none)
    (hset : Root.Set allAvail r k v = (r1, .ok ())) :
    ∃ r2 p, Root.Delete allAvail r1 k = (r2, .ok ()) ∧
      (Root.Flush r2).2 = .ok p ∧ (Root.Flush r).2 = .ok p := by
  have hg := reach_good w hw r hr
  obtain ⟨hg1, hle, hupd1⟩ := rootSet_good w r k v hg hw r1 hset
  have hk : k ≤ MaxIndex := by
    by_contra hgt
    rw [Nat.not_le] at hgt
    rw [Root.Set, if_pos hgt] at hset
    injection hset with _ h2
    exact Except.noConfusion h2
  have hpres : nContents (2 ^ w) r1.height r1.node k ≠ none := by
    rw [hupd1 k, if_pos rfl]
    exact fun hh => Option.noConfusion hh
  obtain ⟨r2, hdel⟩ := rootDelete_succeeds w r1 k hg1 hk hpres
  obtain ⟨hg2, hle2, hupd2⟩ := rootDelete_good w r1 k hg1 hw r2 hdel
  have hcont : ∀ j, nContents (2 ^ w) r2.height r2.node j =
      nContents (2 ^ w) r.height r.node j := by
    intro j
    rw [hupd2 j]
    by_cases hj : j = k
    · rw [if_pos hj, hj, habs]
    · rw [if_neg hj, hupd1 j, if_neg hj]
  obtain ⟨p, hp2, hpr⟩ := goodR_flush_congr w r2 r hg2 hg hcont
  exact ⟨r2, p, hdel, hp2, hpr⟩

/-- C4 witness: the spec's empty-stability example — bit width 3, new
root, `set(5, "x")`, `delete(5)` — flushes back to the empty root's
record. -/
theorem C4_set_delete_flush_witness :
    ((1 : Nat) ≤ 3 ∧
      nContents (2 ^ 3) (NewAMT (2 ^ 3)).height (NewAMT (2 ^ 3)).node 5 = none ∧
      Root.Set allAvail (NewAMT (2 ^ 3)) 5 [120] = (c4r1, .ok ())) ∧
    (∃ r2 p, Root.Delete allAvail c4r1 5 = (r2, .ok ()) ∧
      (Root.Flush r2).2 = .ok p ∧ (Root.Flush (NewAMT (2 ^ 3))).2 = .ok p) :=
  ⟨⟨by decide, rfl, rfl⟩,
    C4_set_delete_flush 3 (by decide) (NewAMT (2 ^ 3)) c4r1 5 [120]
      Reach.new rfl rfl⟩

mutual

theorem pnode_beq_sound : ∀ p1 p2 : pnode, pnode.beq p1 p2 = true → p1 = p2
  | .mk b1 l1 v1, .mk b2 l2 v2, h => by
    have h' : ((b1 == b2 && v1 == v2) && cidListBeq l1 l2) = true := h
    rcases Bool.and_eq_true_iff.mp h' with ⟨h12, h3⟩
    rcases Bool.and_eq_true_iff.mp h12 with ⟨h1, h2⟩
    rw [eq_of_beq h1, eq_of_beq h2, cidListBeq_sound l1 l2 h3]

theorem cidListBeq_sound : ∀ l1 l2 : List (Option cidT),
    cidListBeq l1 l2 = true → l1 = l2
  | [], [], _ => rfl
  | [], _ :: _, h => Bool.noConfusion h
  | none :: _, [], h => Bool.noConfusion h
  | some _ :: _, [], h => Bool.noConfusion h
  | none :: t1, none :: t2, h => by
    rw [cidListBeq_sound t1 t2 h]
  | none :: _, some _ :: _, h => Bool.noConfusion h
  | some _ :: _, none :: _, h => Bool.noConfusion h
  | some c1 :: t1, some c2 :: t2, h => by
    have h' : (cidT.beq c1 c2 && cidListBeq t1 t2) = true := h
    rcases Bool.and_eq_true_iff.mp h' with ⟨h1, h2⟩
    rw [cidT_beq_sound c1 c2 h1, cidListBeq_sound t1 t2 h2]

theorem cidT_beq_sound : ∀ c1 c2 : cidT, cidT.beq c1 c2 = true → c1 = c2
  | .mk a d1, .mk b d2, h => by
    have h' : (a == b && pnode.beq d1 d2) = true := h
    rcases Bool.and_eq_true_iff.mp h' with ⟨h1, h2⟩
    rw [eq_of_beq h1, pnode_beq_sound d1 d2 h2]

end

theorem nContents_beyond_loaded (w h : Nat) (n : node) (i : Nat)
    (hg : loadedN (2 ^ w) h n)
    (hi : 2 ^ w * nodesForHeight (2 ^ w) h ≤ i) :
    nContents (2 ^ w) h n i = none := by
  cases h with
  | zero =>
    rw [nContents, node.getValue]
    refine List.getD_eq_default _ _ ?_
    rw [nfh_zero, Nat.mul_one] at hi
    rcases hg.1 with h0 | h0
    · rw [h0]
      omega
    · rw [h0]
      exact hi
  | succ h2 =>
    rw [nContents]
    have hpos : 1 ≤ nodesForHeight (2 ^ w) (h2 + 1) := nodesForHeight_pos w (h2 + 1)
    have hj : 2 ^ w ≤ i / nodesForHeight (2 ^ w) (h2 + 1) := by
      rw [Nat.le_div_iff_mul_le (by omega)]
      exact hi
    have hnone : n.getLink (i / nodesForHeight (2 ^ w) (h2 + 1)) = none := by
      rw [node.getLink]
      refine List.getD_eq_default _ _ ?_
      rcases hg.1 with h0 | h0
      · rw [h0]
        exact Nat.zero_le _
      · rw [h0]
        exact hj
    rw [hnone]

end AMT
